import Mathlib

/-!
Verification development for the terramate core: the `lets` fixpoint evaluator
(package `lets`) and the stack change-detection engine (package `stack`).

The Go sources are shallowly embedded: Go maps become association lists with
unique keys, the opaque HCL expression interface (`Variables()` + context
evaluation) becomes a small deep-embedded expression type exposing exactly
those two queries, and the filesystem/git collaborators become explicit
environment records of pure functions.  Go `panic` is modelled as a
distinguished `aborted` outcome.
-/

/-! ## String primitives

Core `String` functions such as `String.startsWith` do not reduce inside the
kernel, so the few string operations the sources need (byte-wise comparison as
used by Go's `<` on strings, prefix/suffix tests, splitting on `/`) are
implemented here over `String.data`.  For the ASCII paths and names appearing
in this development, Go's byte-wise order and the code-point order below
coincide. -/

def charListLt : List Char → List Char → Bool
  | [], [] => false
  | [], _ :: _ => true
  | _ :: _, [] => false
  | a :: as, b :: bs =>
    if a.toNat < b.toNat then true
    else if b.toNat < a.toNat then false
    else charListLt as bs

def strLt (a b : String) : Bool := charListLt a.data b.data

def strLe (a b : String) : Bool := a == b || strLt a b

def charListPfx : List Char → List Char → Bool
  | [], _ => true
  | _ :: _, [] => false
  | a :: as, b :: bs => a == b && charListPfx as bs

def strStartsWith (s pre : String) : Bool := charListPfx pre.data s.data

def strEndsWith (s suf : String) : Bool := charListPfx suf.data.reverse s.data.reverse

/-- Splits a string on the `/` character (model of `strings.Split(s, "/")` as
used to turn a module `source` string into path segments). -/
def splitSlashAux : List Char → List Char → List String
  | [], acc => [String.mk acc.reverse]
  | c :: cs, acc =>
    if c = '/' then String.mk acc.reverse :: splitSlashAux cs []
    else splitSlashAux cs (c :: acc)

def splitSlash (s : String) : List String := splitSlashAux s.data []

/-! ## Association lists

Go maps are embedded as association lists.  `insertA` is map assignment
(replace if the key is present, append otherwise), `removeA` is `delete`,
`lookupA` is indexing. -/

def lookupA {α : Type} : List (String × α) → String → Option α
  | [], _ => none
  | (k, v) :: rest, key => if k = key then some v else lookupA rest key

def insertA {α : Type} : List (String × α) → String → α → List (String × α)
  | [], key, v => [(key, v)]
  | (k, w) :: rest, key, v =>
    if k = key then (key, v) :: rest else (k, w) :: insertA rest key v

def removeA {α : Type} : List (String × α) → String → List (String × α)
  | [], _ => []
  | (k, w) :: rest, key =>
    if k = key then removeA rest key else (k, w) :: removeA rest key

def keysA {α : Type} (l : List (String × α)) : List String := l.map Prod.fst

/-! ## Data model of the `lets` package (src/unnamed/part_000) -/

/-- Model of `info.Range`: the source location attached to expressions and
values for diagnostics. -/
structure SrcRange where
  path : String
  startByte : Nat
  endByte : Nat
deriving DecidableEq, Repr

/-- One step of an HCL variable traversal after the root name: either an
attribute access (`hhcl.TraverseAttr`) or an index access
(`hhcl.TraverseIndex`). -/
inductive TravStep where
  | attr (name : String)
  | index (key : Nat)
deriving DecidableEq, Repr

/-- Model of an `hhcl.Traversal` as returned by `Expression.Variables()`: the
root namespace name (`RootName()`), the remaining steps (`namespace[1:]`, so
Go's `namespace[1]` is `steps.head`), and the source range of the reference
(`SourceRange()`). -/
structure Traversal where
  root : String
  steps : List TravStep
  srcRange : SrcRange
deriving DecidableEq, Repr

/-- Model of `cty.Value` restricted to the scalar values the claims exercise. -/
inductive CtyValue where
  | num (n : Int)
  | str (s : String)
  | boolV (b : Bool)
deriving DecidableEq, Repr

/-- Deep embedding of the opaque `hhcl.Expression` interface.  The sources use
exactly two queries on expressions — `Variables()` and evaluation against an
`eval.Context` — plus `AbsTraversalForExpr` and `Range()`; the constructors
below (literals, variable references, addition) realize that interface. -/
inductive HclExpr where
  | lit (v : CtyValue) (r : SrcRange)
  | varRef (t : Traversal)
  | add (a b : HclExpr) (r : SrcRange)
deriving DecidableEq, Repr

/-- Model of `hhcl.Expression.Variables()`. -/
def HclExpr.vars : HclExpr → List Traversal
  | .lit _ _ => []
  | .varRef t => [t]
  | .add a b _ => a.vars ++ b.vars

/-- Model of `hhcl.Expression.Range()`. -/
def HclExpr.exprRange : HclExpr → SrcRange
  | .lit _ r => r
  | .varRef t => t.srcRange
  | .add _ _ r => r

/-- Model of `hhcl.AbsTraversalForExpr`: succeeds exactly on a static variable
reference, returning its traversal. -/
def absTraversalFor : HclExpr → Option Traversal
  | .varRef t => some t
  | _ => none

/-- Model of `lets.Expr`: an unevaluated let expression with its origin. -/
structure Expr where
  origin : SrcRange
  expression : HclExpr
deriving DecidableEq, Repr

/-- Model of `lets.Exprs` (Go map `string → Expr`; keys are unique). -/
abbrev Exprs := List (String × Expr)

/-- Model of `lets.Value`: an evaluated let. -/
structure Value where
  origin : SrcRange
  value : CtyValue
deriving DecidableEq, Repr

/-- Model of `lets.Map`. -/
abbrev LetMap := List (String × Value)

abbrev NamespaceMap := List (String × CtyValue)

/-- Model of `eval.Context`: named value namespaces. -/
structure EvalContext where
  namespaces : List (String × NamespaceMap)
deriving Repr

def EvalContext.hasNamespace (ctx : EvalContext) (root : String) : Bool :=
  (lookupA ctx.namespaces root).isSome

def EvalContext.setNamespace (ctx : EvalContext) (root : String) (m : NamespaceMap) :
    EvalContext :=
  ⟨insertA ctx.namespaces root m⟩

/-- Evaluation of a variable traversal against the context: the root selects a
namespace, the first step must be an attribute naming an entry of it.  Deeper
steps are unsupported in the scalar value model and fail. -/
def evalTraversal (ctx : EvalContext) (t : Traversal) : Option CtyValue :=
  match lookupA ctx.namespaces t.root with
  | none => none
  | some ns =>
    match t.steps with
    | [TravStep.attr a] => lookupA ns a
    | _ => none

/-- Model of `eval.Context.Eval` on the embedded expression type: literals
evaluate to themselves, references through `evalTraversal`, and `+` is cty
number addition (failing on non-numbers, as cty arithmetic does). -/
def EvalContext.evalExpr (ctx : EvalContext) : HclExpr → Option CtyValue
  | .lit v _ => some v
  | .varRef t => evalTraversal ctx t
  | .add a b _ =>
    match ctx.evalExpr a, ctx.evalExpr b with
    | some (CtyValue.num x), some (CtyValue.num y) => some (CtyValue.num (x + y))
    | _, _ => none

/-! ## Errors (model of the `errors` package surface used by `lets`) -/

inductive ErrKind where
  | letsEval
  | letsRedefined
deriving DecidableEq, Repr

structure TmError where
  kind : Option ErrKind
  range : Option SrcRange
  msg : String
deriving DecidableEq, Repr

/-- The error appended for a reference whose root namespace is missing:
`errors.E(ErrEval, namespace.SourceRange(), "unknown variable namespace: %s", ...)`. -/
def unknownNamespaceErr (t : Traversal) : TmError :=
  { kind := some .letsEval, range := some t.srcRange,
    msg := "unknown variable namespace: " ++ t.root }

/-- The error appended when `ctx.Eval` fails:
`errors.E(ErrEval, err, "let.%s", name)`. -/
def evalFailureErr (name : String) : TmError :=
  { kind := some .letsEval, range := none, msg := "let." ++ name }

/-- The error synthesized for a pending entry with no recorded error:
`errors.E(expr.Range(), "undefined let %s", name)`. -/
def undefinedLetErr (e : Expr) (name : String) : TmError :=
  { kind := none, range := some e.expression.exprRange,
    msg := "undefined let " ++ name }

/-- Model of `errs.AppendWrap(ErrEval, err)`: the wrapped error carries kind
`ErrEval`. -/
def wrapEval (e : TmError) : TmError := { e with kind := some ErrKind.letsEval }

/-! ## The lets fixpoint evaluator (`Exprs.Eval`, src/unnamed/part_000 lines 71-171) -/

/-- Model of `removeUnset`: drop every entry whose expression is the bare
one-step traversal `unset`. -/
def isUnsetExpr (e : Expr) : Bool :=
  match absTraversalFor e.expression with
  | some t => t.steps.isEmpty && t.root == "unset"
  | none => false

def removeUnset (exprs : Exprs) : Exprs :=
  exprs.filter (fun p => ¬ isUnsetExpr p.2)

/-- Outcome of scanning one pending expression's variable list (the
`for _, namespace := range vars` loop).  `jumped` is `continue
pendingExpression` (a reference to a still-pending let), `aborted` is the
`panic` on a first step after `let.` that is not an attribute access (this also
covers Go's index-out-of-range panic at `namespace[1]` when the traversal is
the bare root), `fellThrough` reaches the end of the loop. -/
inductive VarsRes where
  | jumped (errsAcc : List TmError)
  | aborted
  | fellThrough (errsAcc : List TmError)
deriving Repr

def checkVars (ctx : EvalContext) (pending : Exprs) :
    List Traversal → List TmError → VarsRes
  | [], acc => .fellThrough acc
  | t :: rest, acc =>
    if ¬ ctx.hasNamespace t.root then
      checkVars ctx pending rest (acc ++ [unknownNamespaceErr t])
    else if t.root ≠ "let" then
      checkVars ctx pending rest acc
    else
      match t.steps with
      | TravStep.attr n :: _ =>
        if (lookupA pending n).isSome then .jumped acc
        else checkVars ctx pending rest acc
      | _ => .aborted

/-- Result of processing one pending entry inside a pass. -/
inductive EntryRes where
  | aborted
  | stays (errs : List TmError)
  | resolved (v : Value)
deriving Repr

/-- One iteration of the `for name, expr := range pendingExprs` body: reset the
entry's error list, scan its variables, then (if no error was recorded)
evaluate it. -/
def processEntry (ctx : EvalContext) (pending : Exprs) (name : String) (e : Expr) :
    EntryRes :=
  match checkVars ctx pending e.expression.vars [] with
  | .aborted => .aborted
  | .jumped errs => .stays errs
  | .fellThrough errs =>
    if errs.isEmpty then
      match ctx.evalExpr e.expression with
      | none => .stays [evalFailureErr name]
      | some v => .resolved { origin := e.origin, value := v }
    else .stays errs

/-- The evaluator's mutable state: the live pending map, the per-name error
lists, the accumulated values, and the evaluation context. -/
structure EvalState where
  pending : Exprs
  errsMap : List (String × List TmError)
  lets : LetMap
  ctx : EvalContext

/-- Model of `Map.Attributes`. -/
def letsAttributes (lets : LetMap) : NamespaceMap :=
  lets.map (fun p => (p.1, p.2.value))

inductive PassRes where
  | aborted
  | next (st : EvalState) (progress : Nat)

/-- One full pass of the inner loop over the pass-start pending entries
(`todo`), threading the live state.  A resolved entry is removed from the
pending and error maps, recorded in `lets`, and the `let` namespace is rebuilt
(`ctx.SetNamespace("let", lets.Attributes())`). -/
def runPassAux (st : EvalState) (progress : Nat) :
    List (String × Expr) → PassRes
  | [] => .next st progress
  | (name, e) :: rest =>
    match processEntry st.ctx st.pending name e with
    | .aborted => .aborted
    | .stays errs =>
      runPassAux { st with errsMap := insertA st.errsMap name errs } progress rest
    | .resolved v =>
      let lets' := insertA st.lets name v
      runPassAux
        { pending := removeA st.pending name
          errsMap := removeA st.errsMap name
          lets := lets'
          ctx := st.ctx.setNamespace "let" (letsAttributes lets') }
        (progress + 1) rest

theorem removeA_length_le {α : Type} (l : List (String × α)) (k : String) :
    (removeA l k).length ≤ l.length := by
  induction l with
  | nil => simp [removeA]
  | cons q qs ih =>
    simp only [removeA]
    by_cases hq : q.1 = k
    · rw [if_pos hq]; simp; omega
    · rw [if_neg hq]; simpa using ih

theorem runPassAux_pending_shrinks (todo : List (String × Expr)) :
    ∀ st progress st' progress', runPassAux st progress todo = .next st' progress' →
      st'.pending.length ≤ st.pending.length := by
  induction todo with
  | nil => intro st progress st' progress' h; cases h; exact le_rfl
  | cons p rest ih =>
    intro st progress st' progress' h
    simp only [runPassAux] at h
    cases hpe : processEntry st.ctx st.pending p.1 p.2 with
    | aborted => rw [hpe] at h; cases h
    | stays errs =>
      rw [hpe] at h
      have hle := ih _ _ _ _ h
      exact hle
    | resolved v =>
      rw [hpe] at h
      have hle := ih _ _ _ _ h
      exact le_trans hle (removeA_length_le _ _)

/-- The outer `for len(pendingExprs) > 0` loop, stopping when a pass makes no
progress, written with explicit fuel so that it is structurally recursive.  A
pass with positive progress always deletes at least one key from the live
pending map (Go map keys are unique), so the loop runs at most
`pending.length + 1` passes; `evalLoop` below supplies exactly that fuel, and
`evalLoopF_stable` proves the fuel is never exhausted. -/
def evalLoopF : Nat → EvalState → Option EvalState
  | 0, st => some st
  | fuel + 1, st =>
    if st.pending.isEmpty then some st
    else
      match runPassAux st 0 st.pending with
      | .aborted => none
      | .next st' progress =>
        if progress = 0 then some st' else evalLoopF fuel st'

def evalLoop (st : EvalState) : Option EvalState :=
  evalLoopF (st.pending.length + 1) st

/-- Outcome of `Exprs.Eval`: either a Go panic (`aborted`) or termination with
the final state and the composite error list (empty list = `nil` error).  The
final `lets` map is the one installed as the `let` namespace; the Go function
returns only the error, the rest of the state is exposed here for
specification purposes. -/
inductive EvalOutcome where
  | aborted
  | done (st : EvalState) (errs : List TmError)

/-- The error-building loop after the fixpoint: every remaining pending entry
surfaces its recorded errors, or a synthesized `undefined let <name>` if none
were recorded, each wrapped with kind `ErrEval`. -/
def buildErrs (pending : Exprs) (errsMap : List (String × List TmError)) :
    List TmError :=
  match pending with
  | [] => []
  | (name, e) :: rest =>
    (match lookupA errsMap name with
     | some (err :: errs) => (err :: errs).map wrapEval
     | _ => [wrapEval (undefinedLetErr e name)]) ++ buildErrs rest errsMap

/-- The namespace initialization of `Exprs.Eval`:
`if !ctx.HasNamespace("let") { ctx.SetNamespace("let", ...) }`. -/
def ensureLetNamespace (ctx : EvalContext) : EvalContext :=
  if ctx.hasNamespace "let" then ctx else ctx.setNamespace "let" []

/-- Model of `Exprs.Eval` (src/unnamed/part_000, lines 71-171). -/
def Exprs.Eval (letExprs : Exprs) (ctx : EvalContext) : EvalOutcome :=
  match evalLoop { pending := removeUnset letExprs, errsMap := [], lets := [],
                   ctx := ensureLetNamespace ctx } with
  | none => .aborted
  | some st => .done st (buildErrs st.pending st.errsMap)

/-! ## The lets loader (`loadExprs`, src/unnamed/part_000 lines 209-237) -/

/-- Model of an `ast.Attribute` (minus its name, which keys the map). -/
structure Attribute where
  attrRange : SrcRange
  expr : HclExpr
deriving DecidableEq, Repr

/-- Model of an `ast.MergedLabelBlocks` entry: a `map` sub-block with its
single label, the range of its first raw origin, and (modelled) the value the
synthetic map expression evaluates to. -/
structure MapBlock where
  label : String
  originRange : SrcRange
  mapValue : CtyValue
deriving DecidableEq, Repr

/-- Model of `ast.MergedBlock` as consumed by `loadExprs`. -/
structure MergedBlock where
  attributes : List (String × Attribute)
  blocks : List MapBlock

/-- Modelled from the spec: `mapexpr.NewMapExpr` (the `mapexpr` package is not
among the sources).  Per the spec it constructs a synthetic expression that
evaluates to the map's value. -/
def NewMapExpr (b : MapBlock) : HclExpr := HclExpr.lit b.mapValue b.originRange

def redefinedErr (name : String) : TmError :=
  { kind := some .letsRedefined, range := none,
    msg := "map label " ++ name ++ " conflicts with let." ++ name ++ " attribute" }

inductive LoadRes where
  | failed (e : TmError)
  | loaded (exprs : Exprs)

/-- Generic insertion sort by a boolean `≤`, used for `Attributes.SortedList`
and for `sort.Sort(EntrySlice(...))`. -/
def insertBy {α : Type} (le : α → α → Bool) (a : α) : List α → List α
  | [] => [a]
  | b :: bs => if le a b then a :: b :: bs else b :: insertBy le a bs

def sortBy {α : Type} (le : α → α → Bool) : List α → List α
  | [] => []
  | a :: as => insertBy le a (sortBy le as)

/-- The `map` sub-block loop of `loadExprs`: reject a label colliding with an
attribute name, otherwise record the synthetic map expression. -/
def loadMapBlocks (attrs : List (String × Attribute)) :
    List MapBlock → Exprs → LoadRes
  | [], acc => .loaded acc
  | b :: rest, acc =>
    if (lookupA attrs b.label).isSome then .failed (redefinedErr b.label)
    else
      loadMapBlocks attrs rest
        (insertA acc b.label { origin := b.originRange, expression := NewMapExpr b })

/-- Model of `loadExprs`. -/
def loadExprs (letblock : MergedBlock) : LoadRes :=
  let base := (sortBy (fun a b => strLe a.1 b.1) letblock.attributes).foldl
    (fun acc p => insertA acc p.1 { origin := p.2.attrRange, expression := p.2.expr }) []
  loadMapBlocks letblock.attributes letblock.blocks base

/-- Model of `Load`. -/
def Load (letblock : MergedBlock) (ctx : EvalContext) : Option EvalOutcome :=
  match loadExprs letblock with
  | .failed _ => none
  | .loaded exprs => some (Exprs.Eval exprs ctx)

/-! ## Association list lemmas -/

theorem lookupA_insertA_self {α : Type} (l : List (String × α)) (k : String) (v : α) :
    lookupA (insertA l k v) k = some v := by
  induction l with
  | nil => simp [insertA, lookupA]
  | cons q qs ih =>
    simp only [insertA]
    by_cases hq : q.1 = k
    · rw [if_pos hq]; simp [lookupA]
    · rw [if_neg hq]; simp only [lookupA, if_neg hq]; exact ih

theorem lookupA_insertA_ne {α : Type} (l : List (String × α)) (k m : String) (v : α)
    (h : m ≠ k) : lookupA (insertA l k v) m = lookupA l m := by
  induction l with
  | nil =>
    simp only [insertA, lookupA]
    rw [if_neg (fun hh : k = m => h hh.symm)]
  | cons q qs ih =>
    simp only [insertA]
    by_cases hq : q.1 = k
    · rw [if_pos hq]
      have hqm : q.1 ≠ m := by rw [hq]; exact fun hh => h hh.symm
      simp only [lookupA]
      rw [if_neg (fun hh : k = m => h hh.symm), if_neg hqm]
    · rw [if_neg hq]
      simp only [lookupA]
      by_cases hm : q.1 = m
      · rw [if_pos hm, if_pos hm]
      · rw [if_neg hm, if_neg hm]; exact ih

theorem lookupA_removeA_self {α : Type} (l : List (String × α)) (k : String) :
    lookupA (removeA l k) k = none := by
  induction l with
  | nil => simp [removeA, lookupA]
  | cons q qs ih =>
    simp only [removeA]
    by_cases hq : q.1 = k
    · rw [if_pos hq]; exact ih
    · rw [if_neg hq]; simp only [lookupA, if_neg hq]; exact ih

theorem lookupA_removeA_ne {α : Type} (l : List (String × α)) (k m : String)
    (h : m ≠ k) : lookupA (removeA l k) m = lookupA l m := by
  induction l with
  | nil => simp [removeA]
  | cons q qs ih =>
    simp only [removeA]
    by_cases hq : q.1 = k
    · rw [if_pos hq, ih]
      simp only [lookupA]
      have : q.1 ≠ m := fun hh => h (hh ▸ hq.symm ▸ rfl)
      rw [if_neg (hq ▸ fun hh : k = m => h hh.symm)]
    · rw [if_neg hq]
      simp only [lookupA]
      by_cases hm : q.1 = m
      · rw [if_pos hm, if_pos hm]
      · rw [if_neg hm, if_neg hm]; exact ih

theorem mem_of_lookupA_some {α : Type} {l : List (String × α)} {k : String} {v : α}
    (h : lookupA l k = some v) : (k, v) ∈ l := by
  induction l with
  | nil => simp [lookupA] at h
  | cons q qs ih =>
    simp only [lookupA] at h
    by_cases hq : q.1 = k
    · rw [if_pos hq] at h
      injection h with hv
      subst hv
      have heq : (k, q.2) = q := by rw [← hq]
      rw [heq]
      exact List.mem_cons_self _ _
    · rw [if_neg hq] at h
      exact List.mem_cons_of_mem _ (ih h)

theorem lookupA_isSome_of_key_mem {α : Type} {l : List (String × α)} {k : String}
    (h : k ∈ keysA l) : (lookupA l k).isSome := by
  induction l with
  | nil => simp [keysA] at h
  | cons q qs ih =>
    simp only [lookupA]
    by_cases hq : q.1 = k
    · rw [if_pos hq]; rfl
    · rw [if_neg hq]
      apply ih
      simp only [keysA, List.map_cons, List.mem_cons] at h
      cases h with
      | inl hh => exact absurd hh.symm hq
      | inr hh => exact hh

theorem key_mem_of_lookupA_some {α : Type} {l : List (String × α)} {k : String} {v : α}
    (h : lookupA l k = some v) : k ∈ keysA l := by
  have := mem_of_lookupA_some h
  exact List.mem_map_of_mem Prod.fst this

theorem lookupA_none_of_key_notMem {α : Type} {l : List (String × α)} {k : String}
    (h : k ∉ keysA l) : lookupA l k = none := by
  cases hl : lookupA l k with
  | none => rfl
  | some v => exact absurd (key_mem_of_lookupA_some hl) h

theorem key_notMem_of_lookupA_none {α : Type} {l : List (String × α)} {k : String}
    (h : lookupA l k = none) : k ∉ keysA l := by
  intro hmem
  have := lookupA_isSome_of_key_mem hmem
  rw [h] at this
  simp at this

theorem lookupA_some_of_mem_nodup {α : Type} {l : List (String × α)} {k : String} {v : α}
    (hnd : (keysA l).Nodup) (h : (k, v) ∈ l) : lookupA l k = some v := by
  induction l with
  | nil => simp at h
  | cons q qs ih =>
    simp only [keysA, List.map_cons, List.nodup_cons] at hnd
    simp only [List.mem_cons] at h
    cases h with
    | inl hh =>
      subst hh
      simp [lookupA]
    | inr hh =>
      simp only [lookupA]
      by_cases hq : q.1 = k
      · exfalso
        apply hnd.1
        rw [hq]
        exact List.mem_map_of_mem Prod.fst hh
      · rw [if_neg hq]
        exact ih hnd.2 hh

theorem mem_of_mem_removeA {α : Type} {l : List (String × α)} {k : String} {q : String × α}
    (h : q ∈ removeA l k) : q ∈ l := by
  induction l with
  | nil => simp [removeA] at h
  | cons p ps ih =>
    simp only [removeA] at h
    by_cases hp : p.1 = k
    · rw [if_pos hp] at h
      exact List.mem_cons_of_mem _ (ih h)
    · rw [if_neg hp] at h
      simp only [List.mem_cons] at h
      cases h with
      | inl hh => exact hh ▸ List.mem_cons_self _ _
      | inr hh => exact List.mem_cons_of_mem _ (ih hh)

theorem keysA_removeA_sublist {α : Type} (l : List (String × α)) (k : String) :
    (keysA (removeA l k)).Sublist (keysA l) := by
  induction l with
  | nil => simp [removeA, keysA]
  | cons p ps ih =>
    simp only [removeA]
    by_cases hp : p.1 = k
    · rw [if_pos hp]
      exact ih.trans (List.sublist_cons_self _ _)
    · rw [if_neg hp]
      simpa [keysA] using ih.cons₂ p.1

theorem nodup_keysA_removeA {α : Type} {l : List (String × α)} (k : String)
    (h : (keysA l).Nodup) : (keysA (removeA l k)).Nodup :=
  (keysA_removeA_sublist l k).nodup h

theorem removeA_of_key_notMem {α : Type} {l : List (String × α)} {k : String}
    (h : k ∉ keysA l) : removeA l k = l := by
  induction l with
  | nil => simp [removeA]
  | cons q qs ih =>
    simp only [keysA, List.map_cons, List.mem_cons, not_or] at h
    simp only [removeA, if_neg (fun hh : q.1 = k => h.1 hh.symm)]
    rw [ih h.2]

theorem length_removeA_of_key_mem {α : Type} {l : List (String × α)} {k : String}
    (hnd : (keysA l).Nodup) (h : k ∈ keysA l) :
    (removeA l k).length + 1 = l.length := by
  induction l with
  | nil => simp [keysA] at h
  | cons p ps ih =>
    simp only [keysA, List.map_cons, List.nodup_cons] at hnd
    simp only [removeA]
    by_cases hp : p.1 = k
    · rw [if_pos hp]
      have hnot : k ∉ keysA ps := hp ▸ hnd.1
      rw [removeA_of_key_notMem hnot]
      simp
    · rw [if_neg hp]
      simp only [keysA, List.map_cons, List.mem_cons] at h
      cases h with
      | inl hh => exact absurd hh.symm hp
      | inr hh => simp only [List.length_cons]; rw [← ih hnd.2 hh]

theorem length_insertA_of_none {α : Type} {l : List (String × α)} {k : String} (v : α)
    (h : lookupA l k = none) : (insertA l k v).length = l.length + 1 := by
  induction l with
  | nil => simp [insertA]
  | cons p ps ih =>
    simp only [lookupA] at h
    by_cases hp : p.1 = k
    · rw [if_pos hp] at h; cases h
    · rw [if_neg hp] at h
      simp only [insertA, if_neg hp, List.length_cons]
      rw [ih h]

theorem key_mem_insertA_iff {α : Type} (l : List (String × α)) (k m : String) (v : α) :
    m ∈ keysA (insertA l k v) ↔ m = k ∨ m ∈ keysA l := by
  induction l with
  | nil => simp [insertA, keysA]
  | cons p ps ih =>
    simp only [insertA]
    by_cases hp : p.1 = k
    · rw [if_pos hp]
      simp only [keysA, List.map_cons, List.mem_cons]
      rw [hp]
      tauto
    · rw [if_neg hp]
      simp only [keysA, List.map_cons, List.mem_cons] at *
      rw [ih]
      tauto

theorem nodup_keysA_insertA {α : Type} {l : List (String × α)} (k : String) (v : α)
    (h : (keysA l).Nodup) : (keysA (insertA l k v)).Nodup := by
  induction l with
  | nil => simp [insertA, keysA]
  | cons p ps ih =>
    simp only [keysA, List.map_cons, List.nodup_cons] at h
    simp only [insertA]
    by_cases hp : p.1 = k
    · rw [if_pos hp]
      simp only [keysA, List.map_cons, List.nodup_cons]
      exact ⟨hp ▸ h.1, h.2⟩
    · rw [if_neg hp]
      simp only [keysA, List.map_cons, List.nodup_cons]
      constructor
      · intro hmem
        rcases (key_mem_insertA_iff ps k p.1 v).mp hmem with hh | hh
        · exact hp hh
        · exact h.1 hh
      · exact ih h.2

/-! ## Variable-scan lemmas -/

/-- Whether a traversal's first step after the root is an attribute access. -/
def stepIsAttr : List TravStep → Bool
  | TravStep.attr _ :: _ => true
  | _ => false

/-- The caller contract of §4.2: every reference through the `let` namespace
has an attribute access as its first step. -/
def attrFirstLetRefs (e : Expr) : Bool :=
  e.expression.vars.all (fun t => t.root != "let" || stepIsAttr t.steps)

/-- The context evolves from `base` only through `SetNamespace("let", ...)`:
the `let` namespace stays present and every other root is untouched. -/
def ctxAgrees (base ctx : EvalContext) : Prop :=
  (lookupA ctx.namespaces "let").isSome = true ∧
  ∀ r, r ≠ "let" → lookupA ctx.namespaces r = lookupA base.namespaces r

theorem ctxAgrees_refl (base : EvalContext)
    (h : (lookupA base.namespaces "let").isSome = true) : ctxAgrees base base :=
  ⟨h, fun _ _ => rfl⟩

theorem ctxAgrees_setLet (base ctx : EvalContext) (m : NamespaceMap)
    (h : ctxAgrees base ctx) : ctxAgrees base (ctx.setNamespace "let" m) := by
  constructor
  · show (lookupA (insertA ctx.namespaces "let" m) "let").isSome = true
    rw [lookupA_insertA_self]
    rfl
  · intro r hr
    show lookupA (insertA ctx.namespaces "let" m) r = _
    rw [lookupA_insertA_ne _ _ _ _ hr]
    exact h.2 r hr

theorem ctxAgrees_hasLet (base ctx : EvalContext) (h : ctxAgrees base ctx) :
    ctx.hasNamespace "let" = true := h.1

theorem ctxAgrees_hasNamespace_ne (base ctx : EvalContext) (r : String)
    (h : ctxAgrees base ctx) (hr : r ≠ "let") :
    ctx.hasNamespace r = base.hasNamespace r := by
  show (lookupA ctx.namespaces r).isSome = (lookupA base.namespaces r).isSome
  rw [h.2 r hr]

/-- The unknown-namespace errors recorded while scanning a variable list. -/
def unknownErrsOf (ctx : EvalContext) (vars : List Traversal) : List TmError :=
  (vars.filter (fun t => ¬ ctx.hasNamespace t.root)).map unknownNamespaceErr

theorem checkVars_ne_aborted (ctx : EvalContext) (pend : Exprs) :
    ∀ vars acc, (∀ t ∈ vars, t.root = "let" → stepIsAttr t.steps = true) →
      checkVars ctx pend vars acc ≠ .aborted := by
  intro vars
  induction vars with
  | nil => intro acc _; simp [checkVars]
  | cons t rest ih =>
    intro acc hall
    simp only [checkVars]
    by_cases h1 : ctx.hasNamespace t.root = true
    · rw [if_neg (not_not_intro h1)]
      by_cases h2 : t.root = "let"
      · rw [if_neg (not_not_intro h2)]
        have hattr : stepIsAttr t.steps = true := hall t (List.mem_cons_self _ _) h2
        cases hsteps : t.steps with
        | nil => rw [hsteps] at hattr; simp [stepIsAttr] at hattr
        | cons s ss =>
          cases s with
          | attr n =>
            by_cases hp : (lookupA pend n).isSome = true
            · simp only [hp, if_true]
              intro hcontra
              cases hcontra
            · simp only [hp, if_false]
              exact ih acc (fun t' ht' => hall t' (List.mem_cons_of_mem _ ht'))
          | index i => rw [hsteps] at hattr; simp [stepIsAttr] at hattr
      · rw [if_pos h2]
        exact ih acc (fun t' ht' => hall t' (List.mem_cons_of_mem _ ht'))
    · rw [if_pos h1]
      exact ih _ (fun t' ht' => hall t' (List.mem_cons_of_mem _ ht'))

theorem checkVars_jumps (ctx : EvalContext) (pend : Exprs) :
    ∀ vars,
      (∀ t ∈ vars, ctx.hasNamespace t.root = true ∧
        (t.root = "let" → stepIsAttr t.steps = true)) →
      (∃ t ∈ vars, t.root = "let" ∧
        ∃ n rest, t.steps = TravStep.attr n :: rest ∧ (lookupA pend n).isSome = true) →
      checkVars ctx pend vars [] = .jumped [] := by
  intro vars
  induction vars with
  | nil => intro _ hex; simp at hex
  | cons t rest ih =>
    intro hall hex
    have ht := hall t (List.mem_cons_self _ _)
    simp only [checkVars]
    rw [if_neg (not_not_intro ht.1)]
    by_cases h2 : t.root = "let"
    · rw [if_neg (not_not_intro h2)]
      have hattr : stepIsAttr t.steps = true := ht.2 h2
      cases hsteps : t.steps with
      | nil => rw [hsteps] at hattr; simp [stepIsAttr] at hattr
      | cons s ss =>
        cases s with
        | attr n =>
          by_cases hp : (lookupA pend n).isSome = true
          · simp only [hp, if_true]
          · simp only [hp, if_false]
            apply ih (fun t' ht' => hall t' (List.mem_cons_of_mem _ ht'))
            rcases hex with ⟨t', ht', hroot, n', rest', hsteps', hpend'⟩
            rcases List.mem_cons.mp ht' with heq | hmem
            · subst heq
              rw [hsteps] at hsteps'
              cases hsteps'
              exact absurd hpend' hp
            · exact ⟨t', hmem, hroot, n', rest', hsteps', hpend'⟩
        | index i => rw [hsteps] at hattr; simp [stepIsAttr] at hattr
    · rw [if_pos h2]
      apply ih (fun t' ht' => hall t' (List.mem_cons_of_mem _ ht'))
      rcases hex with ⟨t', ht', hroot, rest⟩
      rcases List.mem_cons.mp ht' with heq | hmem
      · subst heq; exact absurd hroot h2
      · exact ⟨t', hmem, hroot, rest⟩

theorem checkVars_no_let (ctx : EvalContext) (pend : Exprs) :
    ∀ vars acc, (∀ t ∈ vars, t.root ≠ "let") →
      checkVars ctx pend vars acc = .fellThrough (acc ++ unknownErrsOf ctx vars) := by
  intro vars
  induction vars with
  | nil => intro acc _; simp [checkVars, unknownErrsOf]
  | cons t rest ih =>
    intro acc hall
    have ht := hall t (List.mem_cons_self _ _)
    simp only [checkVars]
    by_cases h1 : ctx.hasNamespace t.root = true
    · rw [if_neg (not_not_intro h1)]
      rw [if_pos ht]
      rw [ih acc (fun t' ht' => hall t' (List.mem_cons_of_mem _ ht'))]
      congr 1
      simp only [unknownErrsOf, List.filter_cons]
      rw [if_neg (by simpa using h1)]
    · rw [if_pos h1]
      rw [ih _ (fun t' ht' => hall t' (List.mem_cons_of_mem _ ht'))]
      congr 1
      simp only [unknownErrsOf, List.filter_cons]
      rw [if_pos (by simpa using h1)]
      simp

theorem checkVars_aborts (ctx : EvalContext) (pend : Exprs) :
    ∀ pre t post acc, (∀ t' ∈ pre, t'.root ≠ "let") → t.root = "let" →
      ctx.hasNamespace "let" = true → stepIsAttr t.steps = false →
      checkVars ctx pend (pre ++ t :: post) acc = .aborted := by
  intro pre
  induction pre with
  | nil =>
    intro t post acc _ hroot hlet hattr
    simp only [List.nil_append, checkVars]
    rw [if_neg (not_not_intro (hroot ▸ hlet))]
    rw [if_neg (not_not_intro hroot)]
    cases hsteps : t.steps with
    | nil => rfl
    | cons s ss =>
      cases s with
      | attr n => rw [hsteps] at hattr; simp [stepIsAttr] at hattr
      | index i => rfl
  | cons p ps ih =>
    intro t post acc hall hroot hlet hattr
    have hp := hall p (List.mem_cons_self _ _)
    simp only [List.cons_append, checkVars]
    by_cases h1 : ctx.hasNamespace p.root = true
    · rw [if_neg (not_not_intro h1), if_pos hp]
      exact ih t post acc (fun t' ht' => hall t' (List.mem_cons_of_mem _ ht')) hroot hlet hattr
    · rw [if_pos h1]
      exact ih t post _ (fun t' ht' => hall t' (List.mem_cons_of_mem _ ht')) hroot hlet hattr

theorem checkVars_falls_through (ctx : EvalContext) (pend : Exprs) :
    ∀ vars acc,
      (∀ t ∈ vars, t.root = "let" ∧ ctx.hasNamespace "let" = true ∧
        ∃ n rest, t.steps = TravStep.attr n :: rest ∧ lookupA pend n = none) →
      checkVars ctx pend vars acc = .fellThrough acc := by
  intro vars
  induction vars with
  | nil => intro acc _; simp [checkVars]
  | cons t rest ih =>
    intro acc hall
    rcases hall t (List.mem_cons_self _ _) with ⟨hroot, hlet, n, rest', hsteps, hnone⟩
    simp only [checkVars]
    rw [if_neg (not_not_intro (hroot ▸ hlet))]
    rw [if_neg (not_not_intro hroot), hsteps]
    simp only [hnone, Option.isSome_none, Bool.false_eq_true, if_false]
    exact ih acc (fun t' ht' => hall t' (List.mem_cons_of_mem _ ht'))

/-! ## Per-entry processing lemmas -/

theorem attrFirstLetRefs_iff (e : Expr) :
    attrFirstLetRefs e = true ↔
      ∀ t ∈ e.expression.vars, t.root = "let" → stepIsAttr t.steps = true := by
  simp only [attrFirstLetRefs, List.all_eq_true, Bool.or_eq_true, bne_iff_ne, ne_eq]
  constructor
  · intro h t ht hroot
    rcases h t ht with hh | hh
    · exact absurd hroot hh
    · exact hh
  · intro h t ht
    by_cases hroot : t.root = "let"
    · exact Or.inr (h t ht hroot)
    · exact Or.inl hroot

theorem processEntry_ne_aborted (ctx : EvalContext) (pend : Exprs) (name : String)
    (e : Expr) (h : attrFirstLetRefs e = true) :
    processEntry ctx pend name e ≠ .aborted := by
  have hne := checkVars_ne_aborted ctx pend e.expression.vars []
    ((attrFirstLetRefs_iff e).mp h)
  cases hcv : checkVars ctx pend e.expression.vars [] with
  | aborted => exact absurd hcv hne
  | jumped errs =>
    simp only [processEntry, hcv]
    intro hc; cases hc
  | fellThrough errs =>
    simp only [processEntry, hcv]
    by_cases he : errs.isEmpty
    · rw [if_pos he]
      cases ctx.evalExpr e.expression <;> intro hc <;> cases hc
    · rw [if_neg he]; intro hc; cases hc

theorem processEntry_stays_member (ctx : EvalContext) (pend : Exprs) (name : String)
    (e : Expr)
    (hall : ∀ t ∈ e.expression.vars, ctx.hasNamespace t.root = true ∧
      (t.root = "let" → stepIsAttr t.steps = true))
    (hex : ∃ t ∈ e.expression.vars, t.root = "let" ∧
      ∃ n rest, t.steps = TravStep.attr n :: rest ∧ (lookupA pend n).isSome = true) :
    processEntry ctx pend name e = .stays [] := by
  unfold processEntry
  rw [checkVars_jumps ctx pend e.expression.vars hall hex]

theorem processEntry_stays_unknown (ctx : EvalContext) (pend : Exprs) (name : String)
    (e : Expr) (hnl : ∀ t ∈ e.expression.vars, t.root ≠ "let")
    (hne : unknownErrsOf ctx e.expression.vars ≠ []) :
    processEntry ctx pend name e = .stays (unknownErrsOf ctx e.expression.vars) := by
  unfold processEntry
  rw [checkVars_no_let ctx pend e.expression.vars [] hnl]
  simp only [List.nil_append]
  rw [if_neg (by simpa [List.isEmpty_iff] using hne)]

theorem processEntry_aborted_of_bad_step (ctx : EvalContext) (pend : Exprs)
    (name : String) (e : Expr) (pre : List Traversal) (t : Traversal)
    (post : List Traversal) (hvars : e.expression.vars = pre ++ t :: post)
    (hpre : ∀ t' ∈ pre, t'.root ≠ "let") (hroot : t.root = "let")
    (hlet : ctx.hasNamespace "let" = true) (hattr : stepIsAttr t.steps = false) :
    processEntry ctx pend name e = .aborted := by
  unfold processEntry
  rw [hvars, checkVars_aborts ctx pend pre t post [] hpre hroot hlet hattr]

/-! ## Pass-level lemmas -/

theorem runPassAux_ctx (todo : List (String × Expr)) :
    ∀ st p st' p', runPassAux st p todo = .next st' p' →
      (∀ base, ctxAgrees base st.ctx → ctxAgrees base st'.ctx) ∧
      (st.ctx.hasNamespace "let" = true → st'.ctx.hasNamespace "let" = true) := by
  induction todo with
  | nil =>
    intro st p st' p' h
    cases h
    exact ⟨fun _ hh => hh, fun hh => hh⟩
  | cons q rest ih =>
    intro st p st' p' h
    simp only [runPassAux] at h
    cases hpe : processEntry st.ctx st.pending q.1 q.2 with
    | aborted => rw [hpe] at h; cases h
    | stays errs =>
      rw [hpe] at h
      have hih := ih _ _ _ _ h
      exact hih
    | resolved v =>
      rw [hpe] at h
      have hih := ih _ _ _ _ h
      refine ⟨fun base hb => hih.1 base (ctxAgrees_setLet base _ _ hb), fun _ => ?_⟩
      apply hih.2
      show (lookupA (insertA st.ctx.namespaces "let" _) "let").isSome = true
      rw [lookupA_insertA_self]
      rfl

theorem runPassAux_pending_subset (todo : List (String × Expr)) :
    ∀ st p st' p', runPassAux st p todo = .next st' p' →
      ∀ q ∈ st'.pending, q ∈ st.pending := by
  induction todo with
  | nil => intro st p st' p' h; cases h; exact fun q hq => hq
  | cons q rest ih =>
    intro st p st' p' h
    simp only [runPassAux] at h
    cases hpe : processEntry st.ctx st.pending q.1 q.2 with
    | aborted => rw [hpe] at h; cases h
    | stays errs =>
      rw [hpe] at h
      have hih := ih _ _ _ _ h
      exact hih
    | resolved v =>
      rw [hpe] at h
      have hih := ih _ _ _ _ h
      intro r hr
      exact mem_of_mem_removeA (hih r hr)

theorem runPassAux_nodup (todo : List (String × Expr)) :
    ∀ st p st' p', runPassAux st p todo = .next st' p' →
      (keysA st.pending).Nodup → (keysA st'.pending).Nodup := by
  induction todo with
  | nil => intro st p st' p' h hnd; cases h; exact hnd
  | cons q rest ih =>
    intro st p st' p' h hnd
    simp only [runPassAux] at h
    cases hpe : processEntry st.ctx st.pending q.1 q.2 with
    | aborted => rw [hpe] at h; cases h
    | stays errs =>
      rw [hpe] at h
      have hih := ih _ _ _ _ h hnd
      exact hih
    | resolved v =>
      rw [hpe] at h
      have hih := ih _ _ _ _ h (nodup_keysA_removeA _ hnd)
      exact hih

theorem runPassAux_no_abort (todo : List (String × Expr)) :
    ∀ st p, (∀ q ∈ todo, attrFirstLetRefs q.2 = true) →
      ∃ st' p', runPassAux st p todo = .next st' p' := by
  induction todo with
  | nil => intro st p _; exact ⟨st, p, rfl⟩
  | cons q rest ih =>
    intro st p hall
    simp only [runPassAux]
    cases hpe : processEntry st.ctx st.pending q.1 q.2 with
    | aborted =>
      exact absurd hpe (processEntry_ne_aborted _ _ _ _ (hall q (List.mem_cons_self _ _)))
    | stays errs =>
      exact ih _ _ (fun r hr => hall r (List.mem_cons_of_mem _ hr))
    | resolved v =>
      exact ih _ _ (fun r hr => hall r (List.mem_cons_of_mem _ hr))

theorem runPassAux_aborts (k : String) (e : Expr)
    (Habort : ∀ (ctx : EvalContext) (pend : Exprs), ctx.hasNamespace "let" = true →
      processEntry ctx pend k e = .aborted) :
    ∀ todo st p, (k, e) ∈ todo → st.ctx.hasNamespace "let" = true →
      runPassAux st p todo = .aborted := by
  intro todo
  induction todo with
  | nil => intro st p hmem; simp at hmem
  | cons q rest ih =>
    intro st p hmem hlet
    simp only [runPassAux]
    cases hpe : processEntry st.ctx st.pending q.1 q.2 with
    | aborted => rfl
    | stays errs =>
      rcases List.mem_cons.mp hmem with heq | hmem'
      · exfalso
        have : processEntry st.ctx st.pending q.1 q.2 = .aborted := by
          rw [← heq]
          exact Habort st.ctx st.pending hlet
        rw [this] at hpe
        cases hpe
      · exact ih _ _ hmem' hlet
    | resolved v =>
      rcases List.mem_cons.mp hmem with heq | hmem'
      · exfalso
        have : processEntry st.ctx st.pending q.1 q.2 = .aborted := by
          rw [← heq]
          exact Habort st.ctx st.pending hlet
        rw [this] at hpe
        cases hpe
      · apply ih _ _ hmem'
        show (lookupA (insertA st.ctx.namespaces "let" _) "let").isSome = true
        rw [lookupA_insertA_self]
        rfl

/-! ## Stable-set lemmas: a set of entries that always re-enters the pending map -/

/-- The entries of `S` (key, source expression, recorded error list) are all in
the live pending map. -/
def SInv (S : List (String × Expr × List TmError)) (st : EvalState) : Prop :=
  ∀ s ∈ S, lookupA st.pending s.1 = some s.2.1

theorem keysA_cons {α : Type} (q : String × α) (l : List (String × α)) :
    keysA (q :: l) = q.1 :: keysA l := rfl

theorem runPassAux_S (base : EvalContext) (S : List (String × Expr × List TmError))
    (HS : ∀ (pend : Exprs) (ctx : EvalContext),
        (∀ s ∈ S, lookupA pend s.1 = some s.2.1) → ctxAgrees base ctx →
        ∀ s ∈ S, processEntry ctx pend s.1 s.2.1 = .stays s.2.2) :
    ∀ todo, (keysA todo).Nodup →
      ∀ st p st' p', runPassAux st p todo = .next st' p' →
        ctxAgrees base st.ctx →
        (∀ q ∈ todo, lookupA st.pending q.1 = some q.2) →
        SInv S st →
        SInv S st' ∧
        ∀ s ∈ S, (lookupA st.errsMap s.1 = some s.2.2 ∨ s.1 ∈ keysA todo) →
          lookupA st'.errsMap s.1 = some s.2.2 := by
  intro todo
  induction todo with
  | nil =>
    intro _ st p st' p' h _ _ hS
    cases h
    refine ⟨hS, ?_⟩
    intro s _ hd
    rcases hd with hd | hd
    · exact hd
    · simp [keysA] at hd
  | cons q rest ih =>
    intro hnd st p st' p' h hctx htodo hS
    rw [keysA_cons, List.nodup_cons] at hnd
    have hqhead : lookupA st.pending q.1 = some q.2 := htodo q (List.mem_cons_self _ _)
    simp only [runPassAux] at h
    cases hpe : processEntry st.ctx st.pending q.1 q.2 with
    | aborted => rw [hpe] at h; cases h
    | stays errs =>
      rw [hpe] at h
      have hih := ih hnd.2 _ _ _ _ h hctx
        (fun r hr => htodo r (List.mem_cons_of_mem _ hr)) hS
      refine ⟨hih.1, ?_⟩
      intro s hs hd
      apply hih.2 s hs
      by_cases hks : s.1 = q.1
      · left
        show lookupA (insertA st.errsMap q.1 errs) s.1 = some s.2.2
        rw [hks, lookupA_insertA_self]
        have hsq : q.2 = s.2.1 := by
          have := hS s hs
          rw [hks] at this
          rw [hqhead] at this
          exact Option.some.inj this
        have hstays := HS st.pending st.ctx hS hctx s hs
        rw [hks, ← hsq] at hstays
        rw [hstays] at hpe
        exact congrArg _ (EntryRes.stays.inj hpe.symm)
      · rcases hd with hd | hd
        · left
          show lookupA (insertA st.errsMap q.1 errs) s.1 = some s.2.2
          rw [lookupA_insertA_ne _ _ _ _ hks]
          exact hd
        · rw [keysA_cons, List.mem_cons] at hd
          rcases hd with hd | hd
          · exact absurd hd hks
          · right; exact hd
    | resolved v =>
      rw [hpe] at h
      have hnoS : ∀ s ∈ S, s.1 ≠ q.1 := by
        intro s hs hks
        have hsq : q.2 = s.2.1 := by
          have := hS s hs
          rw [hks, hqhead] at this
          exact Option.some.inj this
        have hstays := HS st.pending st.ctx hS hctx s hs
        rw [hks, ← hsq] at hstays
        rw [hstays] at hpe
        cases hpe
      have hih := ih hnd.2 _ _ _ _ h (ctxAgrees_setLet base _ _ hctx)
        (fun r hr => ?_) (fun s hs => ?_)
      · refine ⟨hih.1, ?_⟩
        intro s hs hd
        apply hih.2 s hs
        rcases hd with hd | hd
        · left
          show lookupA (removeA st.errsMap q.1) s.1 = some s.2.2
          rw [lookupA_removeA_ne _ _ _ (hnoS s hs)]
          exact hd
        · rw [keysA_cons, List.mem_cons] at hd
          rcases hd with hd | hd
          · exact absurd hd (hnoS s hs)
          · right; exact hd
      · show lookupA (removeA st.pending q.1) r.1 = some r.2
        have hrq : r.1 ≠ q.1 := by
          intro hh
          exact hnd.1 (hh ▸ List.mem_map_of_mem Prod.fst hr)
        rw [lookupA_removeA_ne _ _ _ hrq]
        exact htodo r (List.mem_cons_of_mem _ hr)
      · show lookupA (removeA st.pending q.1) s.1 = some s.2.1
        rw [lookupA_removeA_ne _ _ _ (hnoS s hs)]
        exact hS s hs

theorem runPassAux_length (todo : List (String × Expr)) :
    (keysA todo).Nodup →
    ∀ st p st' p', (∀ q ∈ todo, lookupA st.pending q.1 = some q.2) →
      (keysA st.pending).Nodup →
      runPassAux st p todo = .next st' p' →
      st'.pending.length + p' = st.pending.length + p := by
  induction todo with
  | nil =>
    intro _ st p st' p' _ _ h
    cases h
    rfl
  | cons q rest ih =>
    intro hnd st p st' p' htodo hndp h
    rw [keysA_cons, List.nodup_cons] at hnd
    have hqhead : lookupA st.pending q.1 = some q.2 := htodo q (List.mem_cons_self _ _)
    simp only [runPassAux] at h
    cases hpe : processEntry st.ctx st.pending q.1 q.2 with
    | aborted => rw [hpe] at h; cases h
    | stays errs =>
      rw [hpe] at h
      have hih := ih hnd.2
        { pending := st.pending, errsMap := insertA st.errsMap q.1 errs,
          lets := st.lets, ctx := st.ctx }
        p st' p' (fun r hr => htodo r (List.mem_cons_of_mem _ hr)) hndp h
      exact hih
    | resolved v =>
      rw [hpe] at h
      have hlink : ∀ r ∈ rest, lookupA (removeA st.pending q.1) r.1 = some r.2 := by
        intro r hr
        have hrq : r.1 ≠ q.1 := fun hh => hnd.1 (hh ▸ List.mem_map_of_mem Prod.fst hr)
        rw [lookupA_removeA_ne _ _ _ hrq]
        exact htodo r (List.mem_cons_of_mem _ hr)
      have hih := ih hnd.2
        { pending := removeA st.pending q.1, errsMap := removeA st.errsMap q.1,
          lets := insertA st.lets q.1 v,
          ctx := st.ctx.setNamespace "let" (letsAttributes (insertA st.lets q.1 v)) }
        (p + 1) st' p' hlink (nodup_keysA_removeA _ hndp) h
      have hlen := length_removeA_of_key_mem hndp (key_mem_of_lookupA_some hqhead)
      simp only at hih
      omega

theorem evalLoopF_S (base : EvalContext) (S : List (String × Expr × List TmError))
    (HS : ∀ (pend : Exprs) (ctx : EvalContext),
        (∀ s ∈ S, lookupA pend s.1 = some s.2.1) → ctxAgrees base ctx →
        ∀ s ∈ S, processEntry ctx pend s.1 s.2.1 = .stays s.2.2) :
    ∀ fuel st, st.pending.length + 1 ≤ fuel →
      (keysA st.pending).Nodup →
      ctxAgrees base st.ctx →
      (∀ q ∈ st.pending, attrFirstLetRefs q.2 = true) →
      SInv S st →
      S ≠ [] →
      ∃ st', evalLoopF fuel st = some st' ∧ SInv S st' ∧
        ∀ s ∈ S, lookupA st'.errsMap s.1 = some s.2.2 := by
  intro fuel
  induction fuel with
  | zero => intro st hlen; omega
  | succ n ih =>
    intro st hlen hnd hctx hattr hS hSne
    simp only [evalLoopF]
    have hne : ¬ st.pending.isEmpty = true := by
      rcases S with _ | ⟨s, S'⟩
      · exact absurd rfl hSne
      · have hlook := hS s (List.mem_cons_self _ _)
        intro hemp
        rw [List.isEmpty_iff.mp hemp] at hlook
        simp [lookupA] at hlook
    rw [if_neg hne]
    obtain ⟨st1, p1, hpass⟩ := runPassAux_no_abort st.pending st 0 (fun q hq => hattr q hq)
    simp only [hpass]
    have hlink : ∀ q ∈ st.pending, lookupA st.pending q.1 = some q.2 :=
      fun q hq => lookupA_some_of_mem_nodup hnd hq
    have hSfacts := runPassAux_S base S HS st.pending hnd st 0 st1 p1 hpass hctx hlink hS
    have hctx1 := (runPassAux_ctx st.pending st 0 st1 p1 hpass).1 base hctx
    have hnd1 := runPassAux_nodup st.pending st 0 st1 p1 hpass hnd
    have hsub := runPassAux_pending_subset st.pending st 0 st1 p1 hpass
    have hattr1 : ∀ q ∈ st1.pending, attrFirstLetRefs q.2 = true :=
      fun q hq => hattr q (hsub q hq)
    have herrs1 : ∀ s ∈ S, lookupA st1.errsMap s.1 = some s.2.2 := by
      intro s hs
      apply hSfacts.2 s hs
      right
      exact key_mem_of_lookupA_some (hS s hs)
    by_cases hp0 : p1 = 0
    · rw [if_pos hp0]
      exact ⟨st1, rfl, hSfacts.1, herrs1⟩
    · rw [if_neg hp0]
      have hcnt := runPassAux_length st.pending hnd st 0 st1 p1 hlink hnd hpass
      exact ih st1 (by omega) hnd1 hctx1 hattr1 hSfacts.1 hSne

theorem evalLoop_S (base : EvalContext) (S : List (String × Expr × List TmError))
    (HS : ∀ (pend : Exprs) (ctx : EvalContext),
        (∀ s ∈ S, lookupA pend s.1 = some s.2.1) → ctxAgrees base ctx →
        ∀ s ∈ S, processEntry ctx pend s.1 s.2.1 = .stays s.2.2) :
    ∀ N st, st.pending.length ≤ N →
      (keysA st.pending).Nodup →
      ctxAgrees base st.ctx →
      (∀ q ∈ st.pending, attrFirstLetRefs q.2 = true) →
      SInv S st →
      S ≠ [] →
      ∃ st', evalLoop st = some st' ∧ SInv S st' ∧
        ∀ s ∈ S, lookupA st'.errsMap s.1 = some s.2.2 := by
  intro N st _ hnd hctx hattr hS hSne
  exact evalLoopF_S base S HS (st.pending.length + 1) st le_rfl hnd hctx hattr hS hSne

theorem evalLoopF_no_abort :
    ∀ fuel st, (∀ q ∈ st.pending, attrFirstLetRefs q.2 = true) →
      ∃ st', evalLoopF fuel st = some st' := by
  intro fuel
  induction fuel with
  | zero => intro st _; exact ⟨st, rfl⟩
  | succ n ih =>
    intro st hattr
    simp only [evalLoopF]
    by_cases hemp : st.pending.isEmpty = true
    · rw [if_pos hemp]; exact ⟨st, rfl⟩
    · rw [if_neg hemp]
      obtain ⟨st1, p1, hpass⟩ := runPassAux_no_abort st.pending st 0 hattr
      simp only [hpass]
      have hsub := runPassAux_pending_subset st.pending st 0 st1 p1 hpass
      by_cases hp0 : p1 = 0
      · rw [if_pos hp0]; exact ⟨st1, rfl⟩
      · rw [if_neg hp0]
        exact ih st1 (fun q hq => hattr q (hsub q hq))

theorem evalLoop_no_abort :
    ∀ N st, st.pending.length ≤ N →
      (∀ q ∈ st.pending, attrFirstLetRefs q.2 = true) →
      ∃ st', evalLoop st = some st' := by
  intro _ st _ hattr
  exact evalLoopF_no_abort (st.pending.length + 1) st hattr

theorem evalLoop_aborts (k : String) (e : Expr)
    (Habort : ∀ (ctx : EvalContext) (pend : Exprs), ctx.hasNamespace "let" = true →
      processEntry ctx pend k e = .aborted)
    (st : EvalState) (hmem : (k, e) ∈ st.pending)
    (hlet : st.ctx.hasNamespace "let" = true) :
    evalLoop st = none := by
  unfold evalLoop
  simp only [evalLoopF]
  have hne : ¬ st.pending.isEmpty = true := by
    intro hh
    rw [List.isEmpty_iff.mp hh] at hmem
    simp at hmem
  rw [if_neg hne]
  simp only [runPassAux_aborts k e Habort st.pending st 0 hmem hlet]

/-! ## String message helpers -/

theorem str_append_left_cancel (a b c : String) (h : a ++ b = a ++ c) : b = c := by
  have hd : a.data ++ b.data = a.data ++ c.data := by
    rw [← String.data_append, ← String.data_append, h]
  have := List.append_cancel_left hd
  calc b = String.mk b.data := rfl
    _ = String.mk c.data := by rw [this]
    _ = c := rfl

theorem str_append_ne_at (c₁ c₂ : String) (i : Nat) (h₁ : i < c₁.data.length)
    (h₂ : i < c₂.data.length) (hne : c₁.data[i]? ≠ c₂.data[i]?) (x y : String) :
    c₁ ++ x ≠ c₂ ++ y := by
  intro h
  have hd : c₁.data ++ x.data = c₂.data ++ y.data := by
    rw [← String.data_append, ← String.data_append, h]
  have hg : (c₁.data ++ x.data)[i]? = (c₂.data ++ y.data)[i]? := by rw [hd]
  rw [List.getElem?_append, List.getElem?_append, if_pos h₁, if_pos h₂] at hg
  exact hne hg

/-! ## Composite-error membership and shape lemmas -/

theorem buildErrs_mem_undefined (pending : Exprs)
    (errsMap : List (String × List TmError)) (k : String) (e : Expr)
    (hmem : (k, e) ∈ pending)
    (hl : lookupA errsMap k = some [] ∨ lookupA errsMap k = none) :
    wrapEval (undefinedLetErr e k) ∈ buildErrs pending errsMap := by
  induction pending with
  | nil => simp at hmem
  | cons p rest ih =>
    rcases List.mem_cons.mp hmem with heq | hmem'
    · subst heq
      simp only [buildErrs]
      apply List.mem_append_left
      rcases hl with hl | hl <;> rw [hl] <;> exact List.mem_singleton_self _
    · cases p with
      | mk name e' =>
        simp only [buildErrs]
        exact List.mem_append_right _ (ih hmem')

theorem buildErrs_mem_recorded (pending : Exprs)
    (errsMap : List (String × List TmError)) (k : String) (e : Expr)
    (err0 : TmError) (errs0 : List TmError)
    (hmem : (k, e) ∈ pending) (hl : lookupA errsMap k = some (err0 :: errs0)) :
    ∀ err ∈ err0 :: errs0, wrapEval err ∈ buildErrs pending errsMap := by
  induction pending with
  | nil => simp at hmem
  | cons p rest ih =>
    intro err herr
    rcases List.mem_cons.mp hmem with heq | hmem'
    · subst heq
      simp only [buildErrs]
      apply List.mem_append_left
      rw [hl]
      exact List.mem_map_of_mem wrapEval herr
    · cases p with
      | mk name e' =>
        simp only [buildErrs]
        exact List.mem_append_right _ (ih hmem' err herr)

theorem buildErrs_shape (pending : Exprs) (errsMap : List (String × List TmError)) :
    ∀ err ∈ buildErrs pending errsMap, ∃ p ∈ pending,
      err = wrapEval (undefinedLetErr p.2 p.1) ∨
      ∃ l, lookupA errsMap p.1 = some l ∧ ∃ e' ∈ l, err = wrapEval e' := by
  induction pending with
  | nil => intro err herr; simp [buildErrs] at herr
  | cons p rest ih =>
    intro err herr
    simp only [buildErrs] at herr
    rcases List.mem_append.mp herr with hh | hh
    · refine ⟨p, List.mem_cons_self _ _, ?_⟩
      cases hl : lookupA errsMap p.1 with
      | none =>
        rw [hl] at hh
        left
        exact List.mem_singleton.mp (by simpa using hh)
      | some l =>
        cases l with
        | nil =>
          rw [hl] at hh
          left
          exact (List.mem_singleton.mp (by simpa using hh))
        | cons e0 es =>
          rw [hl] at hh
          right
          rcases List.mem_map.mp hh with ⟨e', he', heq⟩
          exact ⟨e0 :: es, rfl, e', he', heq.symm⟩
    · rcases ih err hh with ⟨q, hq, hcase⟩
      exact ⟨q, List.mem_cons_of_mem _ hq, hcase⟩

/-- The shapes an error recorded against `name` in `pendingExprsErrs` can take:
an unknown-namespace error from the variable scan, or the evaluation-failure
error `let.<name>`. -/
def errShapeFor (name : String) (err : TmError) : Prop :=
  (∃ t : Traversal, err = unknownNamespaceErr t) ∨ err = evalFailureErr name

def errsMapShaped (m : List (String × List TmError)) : Prop :=
  ∀ name l, lookupA m name = some l → ∀ err ∈ l, errShapeFor name err

theorem checkVars_acc_shape (ctx : EvalContext) (pend : Exprs) :
    ∀ vars acc l,
      (checkVars ctx pend vars acc = .jumped l ∨
        checkVars ctx pend vars acc = .fellThrough l) →
      ∀ e ∈ l, e ∈ acc ∨ ∃ t, e = unknownNamespaceErr t := by
  intro vars
  induction vars with
  | nil =>
    intro acc l h e he
    rcases h with h | h
    · simp only [checkVars] at h; cases h
    · simp only [checkVars] at h
      cases h
      exact Or.inl he
  | cons t rest ih =>
    intro acc l h e he
    simp only [checkVars] at h
    by_cases h1 : ctx.hasNamespace t.root = true
    · rw [if_neg (not_not_intro h1)] at h
      by_cases h2 : t.root = "let"
      · rw [if_neg (not_not_intro h2)] at h
        cases hsteps : t.steps with
        | nil =>
          rw [hsteps] at h
          rcases h with h | h <;> cases h
        | cons s ss =>
          rw [hsteps] at h
          cases s with
          | attr n =>
            by_cases hp : (lookupA pend n).isSome = true
            · simp only [hp, if_true] at h
              rcases h with h | h
              · cases h; exact Or.inl he
              · cases h
            · simp only [hp, if_false] at h
              exact ih acc l h e he
          | index i => rcases h with h | h <;> cases h
      · rw [if_pos h2] at h
        exact ih acc l h e he
    · rw [if_pos h1] at h
      rcases ih _ l h e he with hin | hin
      · rcases List.mem_append.mp hin with hin | hin
        · exact Or.inl hin
        · exact Or.inr ⟨t, List.mem_singleton.mp hin⟩
      · exact Or.inr hin

theorem processEntry_stays_shape (ctx : EvalContext) (pend : Exprs) (name : String)
    (e : Expr) (l : List TmError) (h : processEntry ctx pend name e = .stays l) :
    ∀ err ∈ l, errShapeFor name err := by
  intro err herr
  cases hcv : checkVars ctx pend e.expression.vars [] with
  | aborted => simp only [processEntry, hcv] at h; cases h
  | jumped errs =>
    simp only [processEntry, hcv] at h
    cases h
    rcases checkVars_acc_shape ctx pend e.expression.vars [] l (Or.inl hcv) err herr
      with hin | hin
    · simp at hin
    · exact Or.inl hin
  | fellThrough errs =>
    simp only [processEntry, hcv] at h
    by_cases hemp : errs.isEmpty
    · rw [if_pos hemp] at h
      cases hev : ctx.evalExpr e.expression with
      | none =>
        rw [hev] at h
        cases h
        rw [List.mem_singleton.mp herr]
        exact Or.inr rfl
      | some v => rw [hev] at h; cases h
    · rw [if_neg hemp] at h
      cases h
      rcases checkVars_acc_shape ctx pend e.expression.vars [] l (Or.inr hcv) err herr
        with hin | hin
      · simp at hin
      · exact Or.inl hin

theorem lookupA_removeA_cases {α : Type} (l : List (String × α)) (k m : String) (v : α)
    (h : lookupA (removeA l k) m = some v) : lookupA l m = some v := by
  by_cases hm : m = k
  · rw [hm, lookupA_removeA_self] at h; cases h
  · rw [lookupA_removeA_ne _ _ _ hm] at h; exact h

theorem lookupA_insertA_cases {α : Type} (l : List (String × α)) (k m : String)
    (v w : α) (h : lookupA (insertA l k v) m = some w) :
    (m = k ∧ w = v) ∨ lookupA l m = some w := by
  by_cases hm : m = k
  · rw [hm, lookupA_insertA_self] at h
    exact Or.inl ⟨hm, (Option.some.inj h).symm⟩
  · rw [lookupA_insertA_ne _ _ _ _ hm] at h
    exact Or.inr h

theorem runPassAux_shaped (todo : List (String × Expr)) :
    ∀ st p st' p', runPassAux st p todo = .next st' p' →
      errsMapShaped st.errsMap → errsMapShaped st'.errsMap := by
  induction todo with
  | nil => intro st p st' p' h hs; cases h; exact hs
  | cons q rest ih =>
    intro st p st' p' h hs
    simp only [runPassAux] at h
    cases hpe : processEntry st.ctx st.pending q.1 q.2 with
    | aborted => rw [hpe] at h; cases h
    | stays errs =>
      rw [hpe] at h
      have hsh : errsMapShaped (insertA st.errsMap q.1 errs) := by
        intro name l hl err herr
        rcases lookupA_insertA_cases st.errsMap q.1 name errs l hl with ⟨hm, hw⟩ | hl'
        · subst hm hw
          exact processEntry_stays_shape st.ctx st.pending q.1 q.2 _ hpe err herr
        · exact hs name l hl' err herr
      have hih := ih _ _ _ _ h hsh
      exact hih
    | resolved v =>
      rw [hpe] at h
      have hsh : errsMapShaped (removeA st.errsMap q.1) := by
        intro name l hl err herr
        exact hs name l (lookupA_removeA_cases _ _ _ _ hl) err herr
      have hih := ih _ _ _ _ h hsh
      exact hih

theorem notMem_keysA_removeA {α : Type} {l : List (String × α)} {k k' : String}
    (h : k ∉ keysA l) : k ∉ keysA (removeA l k') :=
  fun hmem => h ((keysA_removeA_sublist l k').subset hmem)

theorem runPassAux_key_free (k : String) (todo : List (String × Expr)) :
    ∀ st p st' p', runPassAux st p todo = .next st' p' →
      k ∉ keysA todo →
      k ∉ keysA st.pending → k ∉ keysA st.lets → k ∉ keysA st.errsMap →
      k ∉ keysA st'.pending ∧ k ∉ keysA st'.lets ∧ k ∉ keysA st'.errsMap := by
  induction todo with
  | nil =>
    intro st p st' p' h _ h1 h2 h3
    cases h
    exact ⟨h1, h2, h3⟩
  | cons q rest ih =>
    intro st p st' p' h htodo h1 h2 h3
    rw [keysA_cons] at htodo
    have hkq : k ≠ q.1 := fun hh => htodo (hh ▸ List.mem_cons_self _ _)
    have htodo' : k ∉ keysA rest := fun hh => htodo (List.mem_cons_of_mem _ hh)
    simp only [runPassAux] at h
    cases hpe : processEntry st.ctx st.pending q.1 q.2 with
    | aborted => rw [hpe] at h; cases h
    | stays errs =>
      rw [hpe] at h
      have hih := ih _ _ _ _ h htodo' h1 h2 ?_
      · exact hih
      · intro hmem
        rcases (key_mem_insertA_iff st.errsMap q.1 k errs).mp hmem with hh | hh
        · exact hkq hh
        · exact h3 hh
    | resolved v =>
      rw [hpe] at h
      have hih := ih _ _ _ _ h htodo' (notMem_keysA_removeA h1) ?_ (notMem_keysA_removeA h3)
      · exact hih
      · intro hmem
        rcases (key_mem_insertA_iff st.lets q.1 k v).mp hmem with hh | hh
        · exact hkq hh
        · exact h2 hh

theorem evalLoopF_preserves (k : String) :
    ∀ fuel st st', evalLoopF fuel st = some st' →
      (errsMapShaped st.errsMap → errsMapShaped st'.errsMap) ∧
      ((k ∉ keysA st.pending ∧ k ∉ keysA st.lets ∧ k ∉ keysA st.errsMap) →
        (k ∉ keysA st'.pending ∧ k ∉ keysA st'.lets ∧ k ∉ keysA st'.errsMap)) := by
  intro fuel
  induction fuel with
  | zero =>
    intro st st' h
    cases h
    exact ⟨fun hh => hh, fun hh => hh⟩
  | succ n ih =>
    intro st st' h
    simp only [evalLoopF] at h
    by_cases hemp : st.pending.isEmpty = true
    · rw [if_pos hemp] at h
      cases h
      exact ⟨fun hh => hh, fun hh => hh⟩
    · rw [if_neg hemp] at h
      cases hpass : runPassAux st 0 st.pending with
      | aborted => rw [hpass] at h; cases h
      | next st1 p1 =>
        rw [hpass] at h
        simp only at h
        have hsh1 := runPassAux_shaped st.pending st 0 st1 p1 hpass
        have hstep : (errsMapShaped st.errsMap → errsMapShaped st1.errsMap) ∧
            ((k ∉ keysA st.pending ∧ k ∉ keysA st.lets ∧ k ∉ keysA st.errsMap) →
              (k ∉ keysA st1.pending ∧ k ∉ keysA st1.lets ∧ k ∉ keysA st1.errsMap)) := by
          refine ⟨hsh1, ?_⟩
          rintro ⟨ha, hb, hc⟩
          exact runPassAux_key_free k st.pending st 0 st1 p1 hpass ha ha hb hc
        by_cases hp0 : p1 = 0
        · rw [if_pos hp0] at h
          cases h
          exact hstep
        · rw [if_neg hp0] at h
          have hih := ih st1 st' h
          exact ⟨fun hh => hih.1 (hstep.1 hh), fun hh => hih.2 (hstep.2 hh)⟩

theorem evalLoop_preserves (k : String) :
    ∀ N st, st.pending.length ≤ N →
      ∀ st', evalLoop st = some st' →
        (errsMapShaped st.errsMap → errsMapShaped st'.errsMap) ∧
        ((k ∉ keysA st.pending ∧ k ∉ keysA st.lets ∧ k ∉ keysA st.errsMap) →
          (k ∉ keysA st'.pending ∧ k ∉ keysA st'.lets ∧ k ∉ keysA st'.errsMap)) := by
  intro _ st _ st' h
  exact evalLoopF_preserves k (st.pending.length + 1) st st' h

theorem mem_unique_of_nodup_keysA {α : Type} {l : List (String × α)} {k : String}
    {a b : α} (hnd : (keysA l).Nodup) (ha : (k, a) ∈ l) (hb : (k, b) ∈ l) : a = b := by
  have h1 := lookupA_some_of_mem_nodup hnd ha
  have h2 := lookupA_some_of_mem_nodup hnd hb
  rw [h1] at h2
  exact Option.some.inj h2

theorem keysA_removeUnset_notMem (E : Exprs) (k : String) (e : Expr)
    (hnd : (keysA E).Nodup) (hmem : (k, e) ∈ E) (hu : isUnsetExpr e = true) :
    k ∉ keysA (removeUnset E) := by
  intro hk
  rcases List.mem_map.mp hk with ⟨p, hp, hpk⟩
  have hpE := List.mem_filter.mp hp
  have hpe : p.2 = e := by
    apply mem_unique_of_nodup_keysA hnd _ hmem
    have : p = (k, p.2) := by rw [← hpk]
    rw [← this]
    exact hpE.1
  have := hpE.2
  rw [hpe] at this
  simp [hu] at this

theorem wrapEval_msg (e : TmError) : (wrapEval e).msg = e.msg := rfl

theorem buildErrs_msg_avoids (pending : Exprs) (errsMap : List (String × List TmError))
    (k : String) (hk : k ∉ keysA pending) (hsh : errsMapShaped errsMap) :
    ∀ err ∈ buildErrs pending errsMap,
      err.msg ≠ "undefined let " ++ k ∧ err.msg ≠ "let." ++ k := by
  intro err herr
  rcases buildErrs_shape pending errsMap err herr with ⟨p, hp, hcase⟩
  have hpk : p.1 ≠ k := fun hh => hk (hh ▸ List.mem_map_of_mem Prod.fst hp)
  rcases hcase with hcase | ⟨l, hl, e', he', hcase⟩
  · rw [hcase, wrapEval_msg]
    show "undefined let " ++ p.1 ≠ _ ∧ "undefined let " ++ p.1 ≠ _
    constructor
    · intro hh
      exact hpk (str_append_left_cancel _ _ _ hh)
    · exact str_append_ne_at "undefined let " "let." 0 (by decide) (by decide)
        (by decide) p.1 k
  · rcases hsh p.1 l hl e' he' with ⟨t, ht⟩ | ht
    · rw [hcase, ht, wrapEval_msg]
      show "unknown variable namespace: " ++ t.root ≠ _ ∧
        "unknown variable namespace: " ++ t.root ≠ _
      constructor
      · exact str_append_ne_at "unknown variable namespace: " "undefined let " 2
          (by decide) (by decide) (by decide) t.root k
      · exact str_append_ne_at "unknown variable namespace: " "let." 0
          (by decide) (by decide) (by decide) t.root k
    · rw [hcase, ht, wrapEval_msg]
      show "let." ++ p.1 ≠ _ ∧ "let." ++ p.1 ≠ _
      constructor
      · exact str_append_ne_at "let." "undefined let " 0 (by decide) (by decide)
          (by decide) p.1 k
      · intro hh
        exact hpk (str_append_left_cancel _ _ _ hh)

/-- C6: an `Exprs` entry whose expression is the bare identifier `unset` is
dropped before evaluation: it is removed from the pending set, the resulting
let map has no entry for it, and the composite error contains no error
attributed to it (neither `undefined let k` nor the eval-failure `let.k`). -/
theorem c6_unset_dropped (E : Exprs) (ctx : EvalContext) (k : String) (e : Expr)
    (hnd : (keysA E).Nodup) (hmem : (k, e) ∈ E) (hu : isUnsetExpr e = true) :
    k ∉ keysA (removeUnset E) ∧
    ∀ st errs, Exprs.Eval E ctx = .done st errs →
      k ∉ keysA st.lets ∧ k ∉ keysA st.pending ∧
      ∀ err ∈ errs, err.msg ≠ "undefined let " ++ k ∧ err.msg ≠ "let." ++ k := by
  have hk0 := keysA_removeUnset_notMem E k e hnd hmem hu
  refine ⟨hk0, ?_⟩
  intro st errs h
  simp only [Exprs.Eval] at h
  cases hloop : evalLoop
      { pending := removeUnset E
        errsMap := []
        lets := []
        ctx := ensureLetNamespace ctx } with
  | none => rw [hloop] at h; cases h
  | some stf =>
    rw [hloop] at h
    injection h with h1 h2
    subst h1 h2
    have hpres := evalLoop_preserves k (removeUnset E).length _ le_rfl stf hloop
    have hfree := hpres.2 ⟨hk0, by simp [keysA], by simp [keysA]⟩
    have hshape := hpres.1 (fun name l hl => by simp [lookupA] at hl)
    exact ⟨hfree.2.1, hfree.1,
      buildErrs_msg_avoids stf.pending stf.errsMap k hfree.1 hshape⟩

/-! ## Concrete fixtures used by witnesses and counterexamples -/

def rg (n : Nat) : SrcRange := ⟨"f.tm", n, n + 1⟩

def letRef (n : String) (r : Nat) : HclExpr :=
  HclExpr.varRef ⟨"let", [TravStep.attr n], rg r⟩

def ctxG : EvalContext := ⟨[("global", [("x", CtyValue.num 7)])]⟩

/-- `let { a = let.b + 1  b = 2 }` (scenario S1 of the spec). -/
def eS1 : Exprs :=
  [("a", ⟨rg 0, HclExpr.add (letRef "b" 1) (HclExpr.lit (CtyValue.num 1) (rg 2)) (rg 3)⟩),
   ("b", ⟨rg 4, HclExpr.lit (CtyValue.num 2) (rg 5)⟩)]

/-- `let { a = 1  b = unset }` (scenario S2 of the spec). -/
def eS2 : Exprs :=
  [("a", ⟨rg 0, HclExpr.lit (CtyValue.num 1) (rg 1)⟩),
   ("b", ⟨rg 2, HclExpr.varRef ⟨"unset", [], rg 3⟩⟩)]

/-- `let { a = let.b  b = let.a }` (scenario S3 of the spec). -/
def eS3 : Exprs :=
  [("a", ⟨rg 0, letRef "b" 1⟩), ("b", ⟨rg 2, letRef "a" 3⟩)]

theorem c6_unset_dropped_witness :
    ("b", ⟨rg 2, HclExpr.varRef ⟨"unset", [], rg 3⟩⟩) ∈ eS2 ∧
    "b" ∉ keysA (removeUnset eS2) := by
  have h := c6_unset_dropped eS2 ctxG "b" ⟨rg 2, HclExpr.varRef ⟨"unset", [], rg 3⟩⟩
    (by decide) (by decide) (by decide)
  exact ⟨by decide, h.1⟩

/-! ## C3: dependency cycles -/

theorem ensureLet_hasLet (ctx : EvalContext) :
    (lookupA (ensureLetNamespace ctx).namespaces "let").isSome = true := by
  unfold ensureLetNamespace
  by_cases h : ctx.hasNamespace "let" = true
  · rw [if_pos h]; exact h
  · rw [if_neg h]
    show (lookupA (insertA ctx.namespaces "let" []) "let").isSome = true
    rw [lookupA_insertA_self]
    rfl

theorem ensureLet_hasNamespace_ne (ctx : EvalContext) (r : String) (hr : r ≠ "let") :
    (ensureLetNamespace ctx).hasNamespace r = ctx.hasNamespace r := by
  unfold ensureLetNamespace
  by_cases h : ctx.hasNamespace "let" = true
  · rw [if_pos h]
  · rw [if_neg h]
    show (lookupA (insertA ctx.namespaces "let" []) r).isSome = _
    rw [lookupA_insertA_ne _ _ _ _ hr]
    rfl

theorem keysA_removeUnset_nodup (E : Exprs) (hnd : (keysA E).Nodup) :
    (keysA (removeUnset E)).Nodup :=
  ((List.filter_sublist E).map Prod.fst).nodup hnd

theorem mem_removeUnset (E : Exprs) (p : String × Expr) (hp : p ∈ E)
    (hu : isUnsetExpr p.2 = false) : p ∈ removeUnset E := by
  apply List.mem_filter.mpr
  exact ⟨hp, by simp [hu]⟩

theorem mem_of_mem_removeUnset (E : Exprs) (p : String × Expr)
    (hp : p ∈ removeUnset E) : p ∈ E :=
  (List.mem_filter.mp hp).1

theorem isUnsetExpr_false_of_letVar (e : Expr) (t : Traversal)
    (ht : t ∈ e.expression.vars) (hroot : t.root = "let") :
    isUnsetExpr e = false := by
  cases hex : e.expression with
  | lit v r => rw [isUnsetExpr, hex]; rfl
  | varRef t' =>
    rw [hex] at ht
    simp only [HclExpr.vars, List.mem_singleton] at ht
    subst ht
    rw [isUnsetExpr, hex]
    simp only [absTraversalFor]
    rw [hroot]
    simp
  | add a b r => rw [isUnsetExpr, hex]; rfl

/-- C3 (amended): for every `Exprs` map obeying the attribute-first caller
contract that contains a nonempty set `c` of entries each of which references
(through `let.`) another member of the set, and whose members reference only
existing namespaces, `Exprs.Eval` terminates with a composite error that, for
every member, contains the synthesized `undefined let <name>` error at the
member expression's range, wrapped with kind `lets eval`. -/
theorem c3_cycle_named (E : Exprs) (ctx : EvalContext) (c : List (String × Expr))
    (hnd : (keysA E).Nodup)
    (hcne : c ≠ [])
    (hcE : ∀ p ∈ c, p ∈ E)
    (hcyc : ∀ p ∈ c, ∃ t ∈ p.2.expression.vars, t.root = "let" ∧
      ∃ k' rest, t.steps = TravStep.attr k' :: rest ∧ k' ∈ keysA c)
    (hcontract : ∀ p ∈ E, attrFirstLetRefs p.2 = true)
    (hroots : ∀ p ∈ c, ∀ t ∈ p.2.expression.vars,
      t.root = "let" ∨ ctx.hasNamespace t.root = true) :
    ∃ st errs, Exprs.Eval E ctx = .done st errs ∧ errs ≠ [] ∧
      ∀ p ∈ c, wrapEval (undefinedLetErr p.2 p.1) ∈ errs ∧
        (wrapEval (undefinedLetErr p.2 p.1)).kind = some ErrKind.letsEval := by
  classical
  set base := ensureLetNamespace ctx with hbase
  set S : List (String × Expr × List TmError) :=
    c.map (fun p => (p.1, p.2, ([] : List TmError))) with hSdef
  have hSmem : ∀ p ∈ c, (p.1, p.2, ([] : List TmError)) ∈ S := by
    intro p hp
    rw [hSdef]
    exact List.mem_map_of_mem _ hp
  have HS : ∀ (pend : Exprs) (ctx' : EvalContext),
      (∀ s ∈ S, lookupA pend s.1 = some s.2.1) → ctxAgrees base ctx' →
      ∀ s ∈ S, processEntry ctx' pend s.1 s.2.1 = .stays s.2.2 := by
    intro pend ctx' hpend hagree s hs
    rw [hSdef] at hs
    rcases List.mem_map.mp hs with ⟨p, hpc, hps⟩
    subst hps
    apply processEntry_stays_member
    · intro t ht
      constructor
      · rcases hroots p hpc t ht with hr | hr
        · rw [hr]
          exact ctxAgrees_hasLet base ctx' hagree
        · by_cases hrl : t.root = "let"
          · rw [hrl]
            exact ctxAgrees_hasLet base ctx' hagree
          · rw [ctxAgrees_hasNamespace_ne base ctx' t.root hagree hrl, hbase]
            rw [ensureLet_hasNamespace_ne ctx t.root hrl]
            exact hr
      · intro hrl
        exact (attrFirstLetRefs_iff p.2).mp (hcontract p (hcE p hpc)) t ht hrl
    · rcases hcyc p hpc with ⟨t, ht, hroot, k', rest, hsteps, hk'⟩
      refine ⟨t, ht, hroot, k', rest, hsteps, ?_⟩
      rcases List.mem_map.mp hk' with ⟨q, hqc, hqk⟩
      have := hpend (q.1, q.2, []) (hSmem q hqc)
      rw [hqk] at this
      rw [this]
      rfl
  have hndp : (keysA (removeUnset E)).Nodup := keysA_removeUnset_nodup E hnd
  have hcpend : ∀ p ∈ c, p ∈ removeUnset E := by
    intro p hp
    rcases hcyc p hp with ⟨t, ht, hroot, _⟩
    exact mem_removeUnset E p (hcE p hp) (isUnsetExpr_false_of_letVar p.2 t ht hroot)
  have hS0 : SInv S { pending := removeUnset E, errsMap := [], lets := [], ctx := base } := by
    intro s hs
    rw [hSdef] at hs
    rcases List.mem_map.mp hs with ⟨p, hpc, hps⟩
    subst hps
    exact lookupA_some_of_mem_nodup hndp (hcpend p hpc)
  obtain ⟨st', hloop, hSf, herrsf⟩ := evalLoop_S base S HS
    (removeUnset E).length
    { pending := removeUnset E, errsMap := [], lets := [], ctx := base }
    le_rfl hndp (ctxAgrees_refl base (ensureLet_hasLet ctx))
    (fun q hq => hcontract q (mem_of_mem_removeUnset E q hq))
    hS0
    (by
      rw [hSdef]
      intro hh
      rcases c with _ | ⟨p, c'⟩
      · exact hcne rfl
      · simp at hh)
  refine ⟨st', buildErrs st'.pending st'.errsMap, ?_, ?_, ?_⟩
  · simp only [Exprs.Eval, ← hbase, hloop]
  · rcases c with _ | ⟨p, c'⟩
    · exact absurd rfl hcne
    · have hp := hSf (p.1, p.2, []) (hSmem p (List.mem_cons_self _ _))
      have := buildErrs_mem_undefined st'.pending st'.errsMap p.1 p.2
        (mem_of_lookupA_some hp)
        (Or.inl (herrsf (p.1, p.2, []) (hSmem p (List.mem_cons_self _ _))))
      intro hemp
      rw [hemp] at this
      simp at this
  · intro p hp
    have hpend := hSf (p.1, p.2, []) (hSmem p hp)
    refine ⟨buildErrs_mem_undefined st'.pending st'.errsMap p.1 p.2
      (mem_of_lookupA_some hpend)
      (Or.inl (herrsf (p.1, p.2, []) (hSmem p hp))), rfl⟩

/-- Fuel adequacy: with unique pending keys (as in a Go map), supplying more
fuel than `pending.length + 1` never changes the result, i.e. the loop always
stops by exhausting `pending` or making no progress, never by running out of
fuel. -/
theorem evalLoopF_stable :
    ∀ fuel st, (keysA st.pending).Nodup → st.pending.length + 1 ≤ fuel →
      evalLoopF fuel st = evalLoopF (fuel + 1) st := by
  intro fuel
  induction fuel with
  | zero => intro st _ hlen; omega
  | succ n ih =>
    intro st hnd hlen
    show evalLoopF (n + 1) st = evalLoopF (n + 1 + 1) st
    simp only [evalLoopF]
    by_cases hemp : st.pending.isEmpty = true
    · rw [if_pos hemp, if_pos hemp]
    · rw [if_neg hemp, if_neg hemp]
      cases hpass : runPassAux st 0 st.pending with
      | aborted => rfl
      | next st1 p1 =>
        simp only
        by_cases hp0 : p1 = 0
        · rw [if_pos hp0, if_pos hp0]
        · rw [if_neg hp0, if_neg hp0]
          have hnd1 := runPassAux_nodup st.pending st 0 st1 p1 hpass hnd
          have hcnt := runPassAux_length st.pending hnd st 0 st1 p1
            (fun q hq => lookupA_some_of_mem_nodup hnd hq) hnd hpass
          exact ih st1 hnd1 (by omega)

/-! ## Projections on evaluation outcomes -/

def evalOutcomeErrs : EvalOutcome → Option (List TmError)
  | .aborted => none
  | .done _ errs => some errs

def evalOutcomeLets : EvalOutcome → Option LetMap
  | .aborted => none
  | .done st _ => some st.lets

/-! ## C7: references to missing namespaces -/

theorem unknownErrsOf_agrees (base ctx' : EvalContext) (vars : List Traversal)
    (hnl : ∀ t ∈ vars, t.root ≠ "let") (hag : ctxAgrees base ctx') :
    unknownErrsOf ctx' vars = unknownErrsOf base vars := by
  unfold unknownErrsOf
  congr 1
  apply List.filter_congr
  intro t ht
  have := ctxAgrees_hasNamespace_ne base ctx' t.root hag (hnl t ht)
  simp [this]

/-- C7 (amended): if an entry's expression contains a reference to a namespace
missing from the context and no `let`-namespace references at all (and the map
obeys the attribute-first contract and the entry is not the `unset` sentinel),
the composite error contains the unknown-namespace error, with the offending
reference's source range and kind `lets eval`. -/
theorem c7_unknown_namespace (E : Exprs) (ctx : EvalContext) (k : String) (e : Expr)
    (t : Traversal)
    (hnd : (keysA E).Nodup)
    (hmem : (k, e) ∈ E)
    (hu : isUnsetExpr e = false)
    (ht : t ∈ e.expression.vars)
    (hnolet : ∀ t' ∈ e.expression.vars, t'.root ≠ "let")
    (hunk : ctx.hasNamespace t.root = false)
    (hcontract : ∀ p ∈ E, attrFirstLetRefs p.2 = true) :
    ∃ st errs, Exprs.Eval E ctx = .done st errs ∧
      ∃ err ∈ errs, err.msg = "unknown variable namespace: " ++ t.root ∧
        err.range = some t.srcRange ∧ err.kind = some ErrKind.letsEval := by
  set base := ensureLetNamespace ctx with hbase
  set L := unknownErrsOf base e.expression.vars with hL
  have hbaseunk : base.hasNamespace t.root = false := by
    rw [hbase, ensureLet_hasNamespace_ne ctx t.root (hnolet t ht)]
    exact hunk
  have htL : unknownNamespaceErr t ∈ L := by
    rw [hL]
    apply List.mem_map_of_mem unknownNamespaceErr
    apply List.mem_filter.mpr
    refine ⟨ht, ?_⟩
    simp [hbaseunk]
  have HS : ∀ (pend : Exprs) (ctx' : EvalContext),
      (∀ s ∈ [(k, e, L)], lookupA pend s.1 = some s.2.1) → ctxAgrees base ctx' →
      ∀ s ∈ [(k, e, L)], processEntry ctx' pend s.1 s.2.1 = .stays s.2.2 := by
    intro pend ctx' _ hagree s hs
    rw [List.mem_singleton.mp hs]
    have hLag := unknownErrsOf_agrees base ctx' e.expression.vars hnolet hagree
    have := processEntry_stays_unknown ctx' pend k e hnolet (by
      rw [hLag, ← hL]
      intro hemp
      rw [hemp] at htL
      simp at htL)
    rw [this, hLag, ← hL]
  have hndp := keysA_removeUnset_nodup E hnd
  have hS0 : SInv [(k, e, L)]
      { pending := removeUnset E, errsMap := [], lets := [], ctx := base } := by
    intro s hs
    rw [List.mem_singleton.mp hs]
    exact lookupA_some_of_mem_nodup hndp (mem_removeUnset E (k, e) hmem hu)
  obtain ⟨st', hloop, hSf, herrsf⟩ := evalLoop_S base [(k, e, L)] HS
    (removeUnset E).length
    { pending := removeUnset E, errsMap := [], lets := [], ctx := base }
    le_rfl hndp (ctxAgrees_refl base (ensureLet_hasLet ctx))
    (fun q hq => hcontract q (mem_of_mem_removeUnset E q hq))
    hS0 (by simp)
  refine ⟨st', buildErrs st'.pending st'.errsMap, ?_, ?_⟩
  · simp only [Exprs.Eval, ← hbase, hloop]
  · have hpend := hSf (k, e, L) (List.mem_singleton_self _)
    have herrk := herrsf (k, e, L) (List.mem_singleton_self _)
    cases hLc : L with
    | nil => rw [hLc] at htL; simp at htL
    | cons err0 errs0 =>
      rw [hLc] at herrk htL
      refine ⟨wrapEval (unknownNamespaceErr t), ?_, rfl, rfl, rfl⟩
      exact buildErrs_mem_recorded st'.pending st'.errsMap k e err0 errs0
        (mem_of_lookupA_some hpend) herrk (unknownNamespaceErr t) htL

/-! ## C9: non-attribute access through the let namespace -/

/-- C9 (amended): if some entry's expression contains a `let`-namespace
reference whose first step is not an attribute access and which is not
preceded in the variable list by any other `let` reference, then `Exprs.Eval`
aborts (Go panic); and conversely, under the caller contract that every `let`
reference starts with an attribute access, the abort branch is unreachable. -/
theorem c9_let_nonattr_aborts (E : Exprs) (ctx : EvalContext) :
    (∀ (k : String) (e : Expr) (pre : List Traversal) (t : Traversal)
        (post : List Traversal),
      (k, e) ∈ E → e.expression.vars = pre ++ t :: post →
      (∀ t' ∈ pre, t'.root ≠ "let") → t.root = "let" → stepIsAttr t.steps = false →
      Exprs.Eval E ctx = .aborted) ∧
    ((∀ p ∈ E, attrFirstLetRefs p.2 = true) → Exprs.Eval E ctx ≠ .aborted) := by
  constructor
  · intro k e pre t post hmem hvars hpre hroot hbad
    have Habort : ∀ (ctx' : EvalContext) (pend : Exprs),
        ctx'.hasNamespace "let" = true → processEntry ctx' pend k e = .aborted :=
      fun ctx' pend hlet =>
        processEntry_aborted_of_bad_step ctx' pend k e pre t post hvars hpre hroot hlet hbad
    have hu : isUnsetExpr e = false := by
      apply isUnsetExpr_false_of_letVar e t _ hroot
      rw [hvars]
      exact List.mem_append_right _ (List.mem_cons_self _ _)
    have hmem0 : (k, e) ∈ removeUnset E := mem_removeUnset E (k, e) hmem hu
    have hloop := evalLoop_aborts k e Habort
      { pending := removeUnset E, errsMap := [], lets := [],
        ctx := ensureLetNamespace ctx }
      hmem0 (ensureLet_hasLet ctx)
    simp only [Exprs.Eval, hloop]
  · intro hcontract
    obtain ⟨st', hloop⟩ := evalLoop_no_abort (removeUnset E).length
      { pending := removeUnset E, errsMap := [], lets := [],
        ctx := ensureLetNamespace ctx }
      le_rfl (fun q hq => hcontract q (mem_of_mem_removeUnset E q hq))
    simp only [Exprs.Eval, hloop]
    intro hc
    cases hc

/-! ## Concrete counterexample inputs -/

def badRef : Traversal := ⟨"bad", [TravStep.attr "x"], rg 6⟩

def letIdxRef : Traversal := ⟨"let", [TravStep.index 0], rg 8⟩

/-- `let { a = "x" + 1 }`: no variable references at all. -/
def eC2 : Exprs :=
  [("a", ⟨rg 0, HclExpr.add (HclExpr.lit (CtyValue.str "x") (rg 1))
      (HclExpr.lit (CtyValue.num 1) (rg 2)) (rg 3)⟩)]

/-- `let { a = bad.x + let.b  b = let.a }`: a two-cycle whose member `a` also
references a missing namespace before its cycle reference. -/
def eC3x : Exprs :=
  [("a", ⟨rg 0, HclExpr.add (HclExpr.varRef badRef) (letRef "b" 1) (rg 7)⟩),
   ("b", ⟨rg 2, letRef "a" 3⟩)]

/-- `let { a = let.b + bad.x  b = let.a }`: the missing-namespace reference
comes after the cycle reference. -/
def eC7 : Exprs :=
  [("a", ⟨rg 0, HclExpr.add (letRef "b" 1) (HclExpr.varRef badRef) (rg 7)⟩),
   ("b", ⟨rg 2, letRef "a" 3⟩)]

/-- `let { a = bad.x }`: a single entry referencing only a missing namespace. -/
def eC7w : Exprs := [("a", ⟨rg 0, HclExpr.varRef badRef⟩)]

/-- `let { a = let.b + let[0]  b = let.a }`: the non-attribute let reference is
guarded by a forward reference into a cycle. -/
def eC9 : Exprs :=
  [("a", ⟨rg 0, HclExpr.add (letRef "b" 1) (HclExpr.varRef letIdxRef) (rg 7)⟩),
   ("b", ⟨rg 2, letRef "a" 3⟩)]

/-- `let { a = let[0] }`. -/
def eC9b : Exprs := [("a", ⟨rg 0, HclExpr.varRef letIdxRef⟩)]

theorem c3_cycle_named_witness :
    ∃ st errs, Exprs.Eval eS3 ctxG = .done st errs ∧ errs ≠ [] ∧
      ∀ p ∈ eS3, wrapEval (undefinedLetErr p.2 p.1) ∈ errs ∧
        (wrapEval (undefinedLetErr p.2 p.1)).kind = some ErrKind.letsEval := by
  refine c3_cycle_named eS3 ctxG eS3 (by decide) (by decide) (fun p hp => hp)
    ?_ (by decide) (by decide)
  intro p hp
  simp only [eS3, List.mem_cons, List.not_mem_nil, or_false] at hp
  rcases hp with heq | heq
  · subst heq
    exact ⟨⟨"let", [TravStep.attr "b"], rg 1⟩, by decide, rfl, "b", [], rfl, by decide⟩
  · subst heq
    exact ⟨⟨"let", [TravStep.attr "a"], rg 3⟩, by decide, rfl, "a", [], rfl, by decide⟩

theorem c3_counterexample :
    (Traversal.mk "let" [TravStep.attr "b"] (rg 1)) ∈
      (HclExpr.add (HclExpr.varRef badRef) (letRef "b" 1) (rg 7)).vars ∧
    (Traversal.mk "let" [TravStep.attr "a"] (rg 3)) ∈ (letRef "a" 3).vars ∧
    lookupA eC3x "a" =
      some ⟨rg 0, HclExpr.add (HclExpr.varRef badRef) (letRef "b" 1) (rg 7)⟩ ∧
    lookupA eC3x "b" = some ⟨rg 2, letRef "a" 3⟩ ∧
    evalOutcomeErrs (Exprs.Eval eC3x ctxG) =
      some [wrapEval (unknownNamespaceErr badRef),
            wrapEval (undefinedLetErr ⟨rg 2, letRef "a" 3⟩ "b")] ∧
    ∀ errs, evalOutcomeErrs (Exprs.Eval eC3x ctxG) = some errs →
      ∀ err ∈ errs, err.msg ≠ "undefined let a" ∧ err.msg ≠ "let.a" := by
  refine ⟨by decide, by decide, by decide, by decide, by decide, ?_⟩
  decide

theorem c7_unknown_namespace_witness :
    ∃ st errs, Exprs.Eval eC7w ctxG = .done st errs ∧
      ∃ err ∈ errs, err.msg = "unknown variable namespace: " ++ badRef.root ∧
        err.range = some badRef.srcRange ∧ err.kind = some ErrKind.letsEval :=
  c7_unknown_namespace eC7w ctxG "a" ⟨rg 0, HclExpr.varRef badRef⟩ badRef
    (by decide) (by decide) (by decide) (by decide) (by decide) (by decide) (by decide)

theorem c7_counterexample :
    badRef ∈ (HclExpr.add (letRef "b" 1) (HclExpr.varRef badRef) (rg 7)).vars ∧
    ctxG.hasNamespace badRef.root = false ∧
    lookupA eC7 "a" =
      some ⟨rg 0, HclExpr.add (letRef "b" 1) (HclExpr.varRef badRef) (rg 7)⟩ ∧
    evalOutcomeErrs (Exprs.Eval eC7 ctxG) =
      some [wrapEval (undefinedLetErr ⟨rg 0,
              HclExpr.add (letRef "b" 1) (HclExpr.varRef badRef) (rg 7)⟩ "a"),
            wrapEval (undefinedLetErr ⟨rg 2, letRef "a" 3⟩ "b")] ∧
    ∀ errs, evalOutcomeErrs (Exprs.Eval eC7 ctxG) = some errs →
      ∀ err ∈ errs,
        ¬ (err.msg = "unknown variable namespace: " ++ badRef.root ∧
           err.range = some badRef.srcRange) := by
  refine ⟨by decide, by decide, by decide, by decide, ?_⟩
  decide

theorem c9_let_nonattr_aborts_witness :
    Exprs.Eval eC9b ctxG = .aborted ∧ Exprs.Eval eS1 ctxG ≠ .aborted := by
  constructor
  · exact (c9_let_nonattr_aborts eC9b ctxG).1 "a" ⟨rg 0, HclExpr.varRef letIdxRef⟩
      [] letIdxRef [] (by decide) rfl (fun t' ht' => absurd ht' (List.not_mem_nil _))
      rfl rfl
  · exact (c9_let_nonattr_aborts eS1 ctxG).2 (by decide)

theorem c9_counterexample :
    letIdxRef ∈ (HclExpr.add (letRef "b" 1) (HclExpr.varRef letIdxRef) (rg 7)).vars ∧
    letIdxRef.root = "let" ∧
    stepIsAttr letIdxRef.steps = false ∧
    lookupA eC9 "a" =
      some ⟨rg 0, HclExpr.add (letRef "b" 1) (HclExpr.varRef letIdxRef) (rg 7)⟩ ∧
    evalOutcomeErrs (Exprs.Eval eC9 ctxG) =
      some [wrapEval (undefinedLetErr ⟨rg 0,
              HclExpr.add (letRef "b" 1) (HclExpr.varRef letIdxRef) (rg 7)⟩ "a"),
            wrapEval (undefinedLetErr ⟨rg 2, letRef "a" 3⟩ "b")] ∧
    Exprs.Eval eC9 ctxG ≠ .aborted := by
  refine ⟨by decide, by decide, by decide, by decide, by decide, ?_⟩
  intro habs
  have h : evalOutcomeErrs (Exprs.Eval eC9 ctxG) =
      some [wrapEval (undefinedLetErr ⟨rg 0,
              HclExpr.add (letRef "b" 1) (HclExpr.varRef letIdxRef) (rg 7)⟩ "a"),
            wrapEval (undefinedLetErr ⟨rg 2, letRef "a" 3⟩ "b")] := by decide
  rw [habs] at h
  cases h

theorem c2_counterexample :
    (∀ p ∈ eC2, p.2.expression.vars = []) ∧
    evalOutcomeErrs (Exprs.Eval eC2 ctxG) = some [wrapEval (evalFailureErr "a")] ∧
    evalOutcomeLets (Exprs.Eval eC2 ctxG) = some [] := by
  refine ⟨by decide, by decide, by decide⟩

/-! ## C8: map label colliding with an attribute -/

theorem loadMapBlocks_redefined (attrs : List (String × Attribute)) :
    ∀ blocks acc, (∃ b ∈ blocks, (lookupA attrs b.label).isSome = true) →
      ∃ e, loadMapBlocks attrs blocks acc = .failed e ∧
        e.kind = some ErrKind.letsRedefined := by
  intro blocks
  induction blocks with
  | nil => intro acc h; simp at h
  | cons b rest ih =>
    intro acc h
    simp only [loadMapBlocks]
    by_cases hb : (lookupA attrs b.label).isSome = true
    · rw [if_pos hb]
      exact ⟨redefinedErr b.label, rfl, rfl⟩
    · rw [if_neg hb]
      apply ih
      rcases h with ⟨b', hb', hlook⟩
      rcases List.mem_cons.mp hb' with heq | hmem
      · subst heq; exact absurd hlook hb
      · exact ⟨b', hmem, hlook⟩

/-- C8: a merged `let` block in which some `map` sub-block's label equals an
attribute name is rejected by `loadExprs` with an error of kind
`lets redefined`, and hence `Load` produces no evaluation at all. -/
theorem c8_redefined_label (letblock : MergedBlock)
    (h : ∃ b ∈ letblock.blocks, (lookupA letblock.attributes b.label).isSome = true) :
    (∃ e, loadExprs letblock = .failed e ∧ e.kind = some ErrKind.letsRedefined) ∧
    ∀ ctx, Load letblock ctx = none := by
  obtain ⟨e, hfail, hkind⟩ := loadMapBlocks_redefined letblock.attributes
    letblock.blocks _ h
  have hload : loadExprs letblock = .failed e := hfail
  refine ⟨⟨e, hload, hkind⟩, ?_⟩
  intro ctx
  simp only [Load, hload]

/-- A merged block `let { x = 1  map x { ... } }`. -/
def blockC8 : MergedBlock :=
  { attributes := [("x", ⟨rg 0, HclExpr.lit (CtyValue.num 1) (rg 1)⟩)]
    blocks := [⟨"x", rg 2, CtyValue.num 2⟩] }

theorem c8_redefined_label_witness :
    (∃ e, loadExprs blockC8 = .failed e ∧ e.kind = some ErrKind.letsRedefined) ∧
    ∀ ctx, Load blockC8 ctx = none :=
  c8_redefined_label blockC8 ⟨⟨"x", rg 2, CtyValue.num 2⟩, by decide, by decide⟩

/-! ## C2: the numeric let fragment with acyclic dependencies -/

/-- The numeric let fragment: number literals, additions, and one-step
`let.<name>` references. -/
def numericLetExpr : HclExpr → Bool
  | .lit (CtyValue.num _) _ => true
  | .lit _ _ => false
  | .varRef t => t.root == "let" &&
      (match t.steps with | [TravStep.attr _] => true | _ => false)
  | .add a b _ => numericLetExpr a && numericLetExpr b

/-- The let-dependency projection of an expression: the names accessed as the
first attribute step under the `let` root (the names whose pending status
drives the forward-reference skip). -/
def letDeps (e : Expr) : List String :=
  e.expression.vars.filterMap (fun t =>
    match t.steps with
    | TravStep.attr n :: _ => if t.root = "let" then some n else none
    | _ => none)

theorem numeric_vars (ex : HclExpr) (h : numericLetExpr ex = true) :
    ∀ t ∈ ex.vars, t.root = "let" ∧ ∃ n, t.steps = [TravStep.attr n] := by
  induction ex with
  | lit v r => intro t ht; simp [HclExpr.vars] at ht
  | varRef t' =>
    intro t ht
    simp only [HclExpr.vars, List.mem_singleton] at ht
    subst ht
    simp only [numericLetExpr, Bool.and_eq_true, beq_iff_eq] at h
    refine ⟨h.1, ?_⟩
    rcases hsteps : t.steps with _ | ⟨s, ss⟩
    · rw [hsteps] at h; simp at h
    · cases s with
      | attr n =>
        cases ss with
        | nil => exact ⟨n, rfl⟩
        | cons s2 ss2 => rw [hsteps] at h; simp at h
      | index i => rw [hsteps] at h; simp at h
  | add a b r iha ihb =>
    intro t ht
    simp only [numericLetExpr, Bool.and_eq_true] at h
    simp only [HclExpr.vars, List.mem_append] at ht
    rcases ht with ht | ht
    · exact iha h.1 t ht
    · exact ihb h.2 t ht

theorem numeric_attrFirst (e : Expr) (h : numericLetExpr e.expression = true) :
    attrFirstLetRefs e = true := by
  rw [attrFirstLetRefs_iff]
  intro t ht _
  rcases (numeric_vars e.expression h t ht).2 with ⟨n, hn⟩
  rw [hn]
  rfl

theorem mem_letDeps_of_var (e : Expr) (t : Traversal) (n : String)
    (rest : List TravStep) (ht : t ∈ e.expression.vars) (hroot : t.root = "let")
    (hsteps : t.steps = TravStep.attr n :: rest) : n ∈ letDeps e := by
  unfold letDeps
  apply List.mem_filterMap.mpr
  refine ⟨t, ht, ?_⟩
  simp only [hsteps]
  rw [if_pos hroot]

theorem lookupA_letsAttributes (lets : LetMap) (n : String) :
    lookupA (letsAttributes lets) n = Option.map Value.value (lookupA lets n) := by
  induction lets with
  | nil => simp [letsAttributes, lookupA]
  | cons p rest ih =>
    simp only [letsAttributes, List.map_cons, lookupA]
    by_cases hp : p.1 = n
    · rw [if_pos hp, if_pos hp]; rfl
    · rw [if_neg hp, if_neg hp]; exact ih

theorem evalExpr_numeric (ctx : EvalContext) (lets : LetMap)
    (hctx : lookupA ctx.namespaces "let" = some (letsAttributes lets) ∨ lets = []) :
    ∀ ex, numericLetExpr ex = true →
      (∀ t ∈ ex.vars, ∀ n rest, t.steps = TravStep.attr n :: rest →
        ∃ v, lookupA lets n = some v ∧ ∃ i, v.value = CtyValue.num i) →
      ∃ i, ctx.evalExpr ex = some (CtyValue.num i) := by
  intro ex
  induction ex with
  | lit v r =>
    intro h _
    cases v with
    | num i => exact ⟨i, rfl⟩
    | str s => simp [numericLetExpr] at h
    | boolV b => simp [numericLetExpr] at h
  | varRef t =>
    intro h hdeps
    rcases numeric_vars _ h t (List.mem_singleton_self _) with ⟨hroot, n, hsteps⟩
    rcases hdeps t (List.mem_singleton_self _) n [] hsteps with ⟨v, hv, i, hvi⟩
    rcases hctx with hctx | hctx
    · refine ⟨i, ?_⟩
      show evalTraversal ctx t = _
      unfold evalTraversal
      rw [hroot, hctx, hsteps]
      simp only
      rw [lookupA_letsAttributes, hv]
      simp [hvi]
    · rw [hctx] at hv
      simp [lookupA] at hv
  | add a b r iha ihb =>
    intro h hdeps
    simp only [numericLetExpr, Bool.and_eq_true] at h
    have hda : ∀ t ∈ a.vars, ∀ n rest, t.steps = TravStep.attr n :: rest →
        ∃ v, lookupA lets n = some v ∧ ∃ i, v.value = CtyValue.num i :=
      fun t ht => hdeps t (by simp [HclExpr.vars]; exact Or.inl ht)
    have hdb : ∀ t ∈ b.vars, ∀ n rest, t.steps = TravStep.attr n :: rest →
        ∃ v, lookupA lets n = some v ∧ ∃ i, v.value = CtyValue.num i :=
      fun t ht => hdeps t (by simp [HclExpr.vars]; exact Or.inr ht)
    rcases iha h.1 hda with ⟨i, hi⟩
    rcases ihb h.2 hdb with ⟨j, hj⟩
    refine ⟨i + j, ?_⟩
    show EvalContext.evalExpr ctx (HclExpr.add a b r) = _
    unfold EvalContext.evalExpr
    rw [hi, hj]

theorem checkVars_fellThrough_deps (ctx : EvalContext) (pend : Exprs)
    (hlet : ctx.hasNamespace "let" = true) :
    ∀ vars acc acc', checkVars ctx pend vars acc = .fellThrough acc' →
      ∀ t ∈ vars, t.root = "let" → ∀ n rest, t.steps = TravStep.attr n :: rest →
        lookupA pend n = none := by
  intro vars
  induction vars with
  | nil => intro acc acc' _ t ht; simp at ht
  | cons t0 rest0 ih =>
    intro acc acc' h t ht hroot n rest hsteps
    simp only [checkVars] at h
    by_cases h1 : ctx.hasNamespace t0.root = true
    · rw [if_neg (not_not_intro h1)] at h
      by_cases h2 : t0.root = "let"
      · rw [if_neg (not_not_intro h2)] at h
        rcases List.mem_cons.mp ht with heq | hmem
        · subst heq
          rw [hsteps] at h
          by_cases hp : (lookupA pend n).isSome = true
          · simp only [hp, if_true] at h; cases h
          · cases hl : lookupA pend n with
            | none => rfl
            | some v => rw [hl] at hp; simp at hp
        · cases hsteps0 : t0.steps with
          | nil => rw [hsteps0] at h; cases h
          | cons s ss =>
            rw [hsteps0] at h
            cases s with
            | attr m =>
              by_cases hp : (lookupA pend m).isSome = true
              · simp only [hp, if_true] at h; cases h
              · simp only [hp, if_false] at h
                exact ih _ _ h t hmem hroot n rest hsteps
            | index i => cases h
      · rw [if_pos h2] at h
        rcases List.mem_cons.mp ht with heq | hmem
        · subst heq; exact absurd hroot h2
        · exact ih _ _ h t hmem hroot n rest hsteps
    · rw [if_pos h1] at h
      rcases List.mem_cons.mp ht with heq | hmem
      · subst heq
        rw [hroot] at h1
        exact absurd hlet h1
      · exact ih _ _ h t hmem hroot n rest hsteps

theorem processEntry_resolved_inv (ctx : EvalContext) (pend : Exprs) (name : String)
    (e : Expr) (v : Value) (h : processEntry ctx pend name e = .resolved v) :
    v.origin = e.origin ∧ ctx.evalExpr e.expression = some v.value := by
  cases hcv : checkVars ctx pend e.expression.vars [] with
  | aborted => simp only [processEntry, hcv] at h; cases h
  | jumped errs => simp only [processEntry, hcv] at h; cases h
  | fellThrough errs =>
    simp only [processEntry, hcv] at h
    by_cases hemp : errs.isEmpty
    · rw [if_pos hemp] at h
      cases hev : ctx.evalExpr e.expression with
      | none => rw [hev] at h; cases h
      | some val =>
        rw [hev] at h
        cases h
        exact ⟨rfl, rfl⟩
    · rw [if_neg hemp] at h
      cases h

theorem processEntry_resolves (ctx : EvalContext) (pend : Exprs) (name : String)
    (e : Expr) (lets : LetMap)
    (hctx : lookupA ctx.namespaces "let" = some (letsAttributes lets) ∨ lets = [])
    (hlet : ctx.hasNamespace "let" = true)
    (hfrag : numericLetExpr e.expression = true)
    (hdeps : ∀ n ∈ letDeps e, lookupA pend n = none ∧
      ∃ v, lookupA lets n = some v ∧ ∃ i, v.value = CtyValue.num i) :
    ∃ i, processEntry ctx pend name e =
      .resolved { origin := e.origin, value := CtyValue.num i } := by
  have hvars := numeric_vars e.expression hfrag
  have hfall : checkVars ctx pend e.expression.vars [] = .fellThrough [] := by
    apply checkVars_falls_through
    intro t ht
    rcases hvars t ht with ⟨hroot, n, hsteps⟩
    refine ⟨hroot, hlet, n, [], hsteps, ?_⟩
    exact (hdeps n (mem_letDeps_of_var e t n [] ht hroot hsteps)).1
  have heval : ∃ i, ctx.evalExpr e.expression = some (CtyValue.num i) := by
    apply evalExpr_numeric ctx lets hctx e.expression hfrag
    intro t ht n rest hsteps
    rcases hvars t ht with ⟨hroot, n', hsteps'⟩
    rw [hsteps'] at hsteps
    injection hsteps with hn hrest
    injection hn with hn
    subst hn
    exact (hdeps _ (mem_letDeps_of_var e t _ [] ht hroot hsteps')).2
  rcases heval with ⟨i, hi⟩
  refine ⟨i, ?_⟩
  simp only [processEntry, hfall, List.isEmpty_nil, if_true, hi]

theorem exists_min_by {α : Type} (f : α → Nat) :
    ∀ (l : List α), l ≠ [] → ∃ a ∈ l, ∀ b ∈ l, f a ≤ f b := by
  intro l
  induction l with
  | nil => intro h; exact absurd rfl h
  | cons x xs ih =>
    intro _
    rcases xs with _ | ⟨y, ys⟩
    · exact ⟨x, List.mem_singleton_self _, fun b hb => by
        rw [List.mem_singleton.mp hb]⟩
    · rcases ih (by simp) with ⟨a, ha, hmin⟩
      by_cases hle : f x ≤ f a
      · refine ⟨x, List.mem_cons_self _ _, ?_⟩
        intro b hb
        rcases List.mem_cons.mp hb with heq | hmem
        · rw [heq]
        · exact le_trans hle (hmin b hmem)
      · refine ⟨a, List.mem_cons_of_mem _ ha, ?_⟩
        intro b hb
        rcases List.mem_cons.mp hb with heq | hmem
        · rw [heq]; omega
        · exact hmin b hmem

/-- The evaluator invariant for the numeric acyclic fragment: pending entries
are source entries with unique keys, resolved entries carry the source origin
and a number value, the `let` namespace mirrors the accumulated values (or is
the untouched initial namespace while no value has been bound), and sizes
account exactly. -/
def C2Inv (E : Exprs) (st : EvalState) : Prop :=
  (keysA st.pending).Nodup ∧
  (keysA st.lets).Nodup ∧
  (∀ q ∈ st.pending, q ∈ E) ∧
  (∀ p ∈ E, lookupA st.pending p.1 = none →
    ∃ v, lookupA st.lets p.1 = some v ∧ v.origin = p.2.origin ∧
      ∃ i, v.value = CtyValue.num i) ∧
  (∀ m v, lookupA st.lets m = some v → m ∈ keysA E ∧ lookupA st.pending m = none) ∧
  (lookupA st.ctx.namespaces "let" = some (letsAttributes st.lets) ∨
    (st.lets = [] ∧ (lookupA st.ctx.namespaces "let").isSome = true)) ∧
  st.lets.length + st.pending.length = E.length

theorem C2Inv_hasLet (E : Exprs) (st : EvalState) (h : C2Inv E st) :
    st.ctx.hasNamespace "let" = true := by
  rcases h.2.2.2.2.2.1 with hc | hc
  · show (lookupA st.ctx.namespaces "let").isSome = true
    rw [hc]
    rfl
  · exact hc.2

theorem lookupA_removeA_none {α : Type} (l : List (String × α)) (k m : String)
    (h : lookupA l m = none) : lookupA (removeA l k) m = none := by
  by_cases hm : m = k
  · rw [hm, lookupA_removeA_self]
  · rw [lookupA_removeA_ne _ _ _ hm]; exact h

theorem letDeps_mem_char (e : Expr) (n : String) (h : n ∈ letDeps e) :
    ∃ t ∈ e.expression.vars, t.root = "let" ∧
      ∃ rest, t.steps = TravStep.attr n :: rest := by
  unfold letDeps at h
  rcases List.mem_filterMap.mp h with ⟨t, ht, hmatch⟩
  refine ⟨t, ht, ?_⟩
  cases hsteps : t.steps with
  | nil => rw [hsteps] at hmatch; cases hmatch
  | cons s ss =>
    cases s with
    | attr m =>
      rw [hsteps] at hmatch
      simp only at hmatch
      by_cases hroot : t.root = "let"
      · rw [if_pos hroot] at hmatch
        injection hmatch with hm
        subst hm
        exact ⟨hroot, ss, rfl⟩
      · rw [if_neg hroot] at hmatch; cases hmatch
    | index i => rw [hsteps] at hmatch; cases hmatch

theorem processEntry_resolved_fellThrough (ctx : EvalContext) (pend : Exprs)
    (name : String) (e : Expr) (v : Value)
    (h : processEntry ctx pend name e = .resolved v) :
    ∃ acc, checkVars ctx pend e.expression.vars [] = .fellThrough acc := by
  cases hcv : checkVars ctx pend e.expression.vars [] with
  | aborted => simp only [processEntry, hcv] at h; cases h
  | jumped errs => simp only [processEntry, hcv] at h; cases h
  | fellThrough errs => exact ⟨errs, rfl⟩

theorem c2_pass (E : Exprs) (hndE : (keysA E).Nodup)
    (hfragE : ∀ p ∈ E, numericLetExpr p.2.expression = true)
    (hdepsE : ∀ p ∈ E, ∀ n ∈ letDeps p.2, n ∈ keysA E) :
    ∀ todo, (keysA todo).Nodup →
      ∀ st p st' p', runPassAux st p todo = .next st' p' →
        (∀ q ∈ todo, lookupA st.pending q.1 = some q.2) →
        C2Inv E st →
        C2Inv E st' ∧ p ≤ p' ∧
        (∀ m, lookupA st.pending m = none → lookupA st'.pending m = none) := by
  intro todo
  induction todo with
  | nil =>
    intro _ st p st' p' h _ hinv
    cases h
    exact ⟨hinv, le_rfl, fun m hm => hm⟩
  | cons q rest ih =>
    intro hnd st p st' p' h htodo hinv
    rw [keysA_cons, List.nodup_cons] at hnd
    have hqhead : lookupA st.pending q.1 = some q.2 := htodo q (List.mem_cons_self _ _)
    have hqmem : (q.1, q.2) ∈ st.pending := mem_of_lookupA_some hqhead
    have hqE : (q.1, q.2) ∈ E := hinv.2.2.1 _ hqmem
    simp only [runPassAux] at h
    cases hpe : processEntry st.ctx st.pending q.1 q.2 with
    | aborted => rw [hpe] at h; cases h
    | stays errs =>
      rw [hpe] at h
      have hih := ih hnd.2
        { pending := st.pending, errsMap := insertA st.errsMap q.1 errs,
          lets := st.lets, ctx := st.ctx }
        p st' p' h (fun r hr => htodo r (List.mem_cons_of_mem _ hr)) hinv
      exact hih
    | resolved v =>
      rw [hpe] at h
      obtain ⟨hnd1, hnd2, hsub, hpart, hinvv, hctx, hlen⟩ := hinv
      have hlet : st.ctx.hasNamespace "let" = true :=
        C2Inv_hasLet E st ⟨hnd1, hnd2, hsub, hpart, hinvv, hctx, hlen⟩
      obtain ⟨acc, hfall⟩ := processEntry_resolved_fellThrough _ _ _ _ _ hpe
      have hdepsq : ∀ n ∈ letDeps q.2, lookupA st.pending n = none := by
        intro n hn
        rcases letDeps_mem_char q.2 n hn with ⟨t, ht, hroot, rest', hsteps⟩
        exact checkVars_fellThrough_deps st.ctx st.pending hlet
          q.2.expression.vars [] acc hfall t ht hroot n rest' hsteps
      have hdepslets : ∀ n ∈ letDeps q.2,
          ∃ w, lookupA st.lets n = some w ∧ ∃ i, w.value = CtyValue.num i := by
        intro n hn
        have hnE : n ∈ keysA E := hdepsE (q.1, q.2) hqE n hn
        rcases List.mem_map.mp hnE with ⟨pE, hpE, hpEk⟩
        have := hpart pE hpE (hpEk ▸ hdepsq n hn)
        rcases this with ⟨w, hw, _, i, hwi⟩
        exact ⟨w, hpEk ▸ hw, i, hwi⟩
      have hq1notlets : lookupA st.lets q.1 = none := by
        cases hl : lookupA st.lets q.1 with
        | none => rfl
        | some w =>
          have := (hinvv q.1 w hl).2
          rw [hqhead] at this
          cases this
      have hres := processEntry_resolved_inv _ _ _ _ _ hpe
      have hfragq : numericLetExpr q.2.expression = true := hfragE (q.1, q.2) hqE
      have hvnum : ∃ i, v.value = CtyValue.num i := by
        have hev := evalExpr_numeric st.ctx st.lets ?_ q.2.expression hfragq ?_
        · rcases hev with ⟨i, hi⟩
          rw [hres.2] at hi
          exact ⟨i, Option.some.inj hi⟩
        · rcases hctx with hc | hc
          · exact Or.inl hc
          · exact Or.inr hc.1
        · intro t ht n rest' hsteps
          rcases numeric_vars q.2.expression hfragq t ht with ⟨hroot, n', hsteps'⟩
          rw [hsteps'] at hsteps
          injection hsteps with hn hrest
          injection hn with hn
          subst hn
          exact hdepslets _ (mem_letDeps_of_var q.2 t _ [] ht hroot hsteps')
      have hinv' : C2Inv E
          { pending := removeA st.pending q.1, errsMap := removeA st.errsMap q.1,
            lets := insertA st.lets q.1 v,
            ctx := st.ctx.setNamespace "let" (letsAttributes (insertA st.lets q.1 v)) } := by
        have hq1notletsK : q.1 ∉ keysA st.lets := key_notMem_of_lookupA_none hq1notlets
        refine ⟨nodup_keysA_removeA _ hnd1, nodup_keysA_insertA _ _ hnd2, ?_, ?_, ?_, ?_, ?_⟩
        · intro r hr
          exact hsub r (mem_of_mem_removeA hr)
        · intro pE hpE hnone
          by_cases hpq : pE.1 = q.1
          · refine ⟨v, ?_, ?_, hvnum⟩
            · show lookupA (insertA st.lets q.1 v) pE.1 = some v
              rw [hpq, lookupA_insertA_self]
            · have hpq2 : pE.2 = q.2 := by
                apply mem_unique_of_nodup_keysA hndE _ hqE
                have : pE = (pE.1, pE.2) := rfl
                rw [← hpq]
                rw [← this]
                exact hpE
              rw [hres.1, hpq2]
          · show ∃ w, lookupA (insertA st.lets q.1 v) pE.1 = some w ∧ _
            rw [lookupA_insertA_ne _ _ _ _ hpq]
            apply hpart pE hpE
            have : lookupA (removeA st.pending q.1) pE.1 = lookupA st.pending pE.1 :=
              lookupA_removeA_ne _ _ _ hpq
            rw [← this]
            exact hnone
        · intro m w hw
          rcases lookupA_insertA_cases st.lets q.1 m v w hw with ⟨hm, _⟩ | hw'
          · subst hm
            exact ⟨List.mem_map_of_mem Prod.fst hqE, lookupA_removeA_self _ _⟩
          · rcases hinvv m w hw' with ⟨hmE, hmnone⟩
            exact ⟨hmE, lookupA_removeA_none _ _ _ hmnone⟩
        · left
          show lookupA (insertA st.ctx.namespaces "let" _) "let" = _
          rw [lookupA_insertA_self]
        · have h1 : (insertA st.lets q.1 v).length = st.lets.length + 1 :=
            length_insertA_of_none v hq1notlets
          have h2 := length_removeA_of_key_mem hnd1 (key_mem_of_lookupA_some hqhead)
          simp only [h1]
          omega
      have hih := ih hnd.2
        { pending := removeA st.pending q.1, errsMap := removeA st.errsMap q.1,
          lets := insertA st.lets q.1 v,
          ctx := st.ctx.setNamespace "let" (letsAttributes (insertA st.lets q.1 v)) }
        (p + 1) st' p' h (fun r hr => ?_) hinv'
      · refine ⟨hih.1, by omega, ?_⟩
        intro m hm
        exact hih.2.2 m (lookupA_removeA_none _ _ _ hm)
      · show lookupA (removeA st.pending q.1) r.1 = some r.2
        have hrq : r.1 ≠ q.1 := fun hh => hnd.1 (hh ▸ List.mem_map_of_mem Prod.fst hr)
        rw [lookupA_removeA_ne _ _ _ hrq]
        exact htodo r (List.mem_cons_of_mem _ hr)

theorem runPassAux_progress_mono (todo : List (String × Expr)) :
    ∀ st p st' p', runPassAux st p todo = .next st' p' → p ≤ p' := by
  induction todo with
  | nil => intro st p st' p' h; cases h; exact le_rfl
  | cons q rest ih =>
    intro st p st' p' h
    simp only [runPassAux] at h
    cases hpe : processEntry st.ctx st.pending q.1 q.2 with
    | aborted => rw [hpe] at h; cases h
    | stays errs =>
      rw [hpe] at h
      have hih := ih _ _ _ _ h
      exact hih
    | resolved v =>
      rw [hpe] at h
      have hih := ih _ _ _ _ h
      omega

theorem c2_pass_progress (E : Exprs) (hndE : (keysA E).Nodup)
    (hfragE : ∀ p ∈ E, numericLetExpr p.2.expression = true)
    (hdepsE : ∀ p ∈ E, ∀ n ∈ letDeps p.2, n ∈ keysA E) :
    ∀ todo, (keysA todo).Nodup →
      ∀ st p st' p', runPassAux st p todo = .next st' p' →
        (∀ q ∈ todo, lookupA st.pending q.1 = some q.2) →
        C2Inv E st →
        (∃ q ∈ todo, ∀ n ∈ letDeps q.2, lookupA st.pending n = none) →
        p < p' := by
  intro todo
  induction todo with
  | nil =>
    intro _ st p st' p' _ _ _ hex
    rcases hex with ⟨q, hq, _⟩
    simp at hq
  | cons qh rest ih =>
    intro hnd st p st' p' h htodo hinv hex
    rw [keysA_cons, List.nodup_cons] at hnd
    simp only [runPassAux] at h
    cases hpe : processEntry st.ctx st.pending qh.1 qh.2 with
    | aborted => rw [hpe] at h; cases h
    | resolved v =>
      rw [hpe] at h
      have := runPassAux_progress_mono rest _ _ _ _ h
      omega
    | stays errs =>
      rw [hpe] at h
      rcases hex with ⟨q, hq, hqdeps⟩
      rcases List.mem_cons.mp hq with heq | hmem
      · exfalso
        subst heq
        have hqhead : lookupA st.pending q.1 = some q.2 :=
          htodo q (List.mem_cons_self _ _)
        have hqE : (q.1, q.2) ∈ E := hinv.2.2.1 _ (mem_of_lookupA_some hqhead)
        have hdeps' : ∀ n ∈ letDeps q.2, lookupA st.pending n = none ∧
            ∃ w, lookupA st.lets n = some w ∧ ∃ i, w.value = CtyValue.num i := by
          intro n hn
          refine ⟨hqdeps n hn, ?_⟩
          have hnE : n ∈ keysA E := hdepsE (q.1, q.2) hqE n hn
          rcases List.mem_map.mp hnE with ⟨pE, hpE, hpEk⟩
          rcases hinv.2.2.2.1 pE hpE (hpEk ▸ hqdeps n hn) with ⟨w, hw, _, i, hwi⟩
          exact ⟨w, hpEk ▸ hw, i, hwi⟩
        have hctx' : lookupA st.ctx.namespaces "let" =
            some (letsAttributes st.lets) ∨ st.lets = [] := by
          rcases hinv.2.2.2.2.2.1 with hc | hc
          · exact Or.inl hc
          · exact Or.inr hc.1
        obtain ⟨i, hres⟩ := processEntry_resolves st.ctx st.pending q.1 q.2 st.lets
          hctx' (C2Inv_hasLet E st hinv) (hfragE (q.1, q.2) hqE) hdeps'
        rw [hres] at hpe
        cases hpe
      · have hih := ih hnd.2
          { pending := st.pending, errsMap := insertA st.errsMap qh.1 errs,
            lets := st.lets, ctx := st.ctx }
          p st' p' h (fun r hr => htodo r (List.mem_cons_of_mem _ hr)) hinv
          ⟨q, hmem, hqdeps⟩
        exact hih

theorem c2_loop (E : Exprs) (hndE : (keysA E).Nodup)
    (hfragE : ∀ p ∈ E, numericLetExpr p.2.expression = true)
    (hdepsE : ∀ p ∈ E, ∀ n ∈ letDeps p.2, n ∈ keysA E)
    (rank : String → Nat)
    (hrank : ∀ p ∈ E, ∀ n ∈ letDeps p.2, rank n < rank p.1) :
    ∀ fuel st, st.pending.length + 1 ≤ fuel → C2Inv E st →
      ∃ st', evalLoopF fuel st = some st' ∧ st'.pending = [] ∧ C2Inv E st' := by
  intro fuel
  induction fuel with
  | zero => intro st hlen; omega
  | succ n ih =>
    intro st hlen hinv
    simp only [evalLoopF]
    by_cases hemp : st.pending.isEmpty = true
    · rw [if_pos hemp]
      exact ⟨st, rfl, List.isEmpty_iff.mp hemp, hinv⟩
    · rw [if_neg hemp]
      have hattr : ∀ q ∈ st.pending, attrFirstLetRefs q.2 = true := fun q hq =>
        numeric_attrFirst q.2 (hfragE q (hinv.2.2.1 q hq))
      obtain ⟨st1, p1, hpass⟩ := runPassAux_no_abort st.pending st 0 hattr
      simp only [hpass]
      have hlink : ∀ q ∈ st.pending, lookupA st.pending q.1 = some q.2 :=
        fun q hq => lookupA_some_of_mem_nodup hinv.1 hq
      have hinv1 := c2_pass E hndE hfragE hdepsE st.pending hinv.1 st 0 st1 p1
        hpass hlink hinv
      have hpne : st.pending ≠ [] := by
        intro hh
        rw [hh] at hemp
        simp at hemp
      obtain ⟨q0, hq0, hq0min⟩ := exists_min_by (fun q => rank q.1) st.pending hpne
      have hq0deps : ∀ m ∈ letDeps q0.2, lookupA st.pending m = none := by
        intro m hm
        have hq0E : q0 ∈ E := hinv.2.2.1 q0 hq0
        have hmrank : rank m < rank q0.1 := hrank q0 hq0E m hm
        apply lookupA_none_of_key_notMem
        intro hmem
        rcases List.mem_map.mp hmem with ⟨r, hr, hrk⟩
        have := hq0min r hr
        rw [hrk] at this
        omega
      have hprog := c2_pass_progress E hndE hfragE hdepsE st.pending hinv.1 st 0
        st1 p1 hpass hlink hinv ⟨q0, hq0, hq0deps⟩
      rw [if_neg (by omega : ¬ p1 = 0)]
      have hcnt := runPassAux_length st.pending hinv.1 st 0 st1 p1 hlink hinv.1 hpass
      exact ih st1 (by omega) hinv1.1

theorem numeric_not_unset (e : Expr) (h : numericLetExpr e.expression = true) :
    isUnsetExpr e = false := by
  cases hex : e.expression with
  | lit v r => rw [isUnsetExpr, hex]; rfl
  | varRef t =>
    rw [hex] at h
    simp only [numericLetExpr, Bool.and_eq_true, beq_iff_eq] at h
    rw [isUnsetExpr, hex]
    simp only [absTraversalFor]
    rw [h.1]
    simp
  | add a b r => rw [isUnsetExpr, hex]; rfl

/-- C2 (amended): for every `Exprs` map in the numeric let fragment (number
literals, additions and one-step `let` attribute references) whose references
stay inside the map's keys and whose dependency relation admits a ranking
(i.e. is acyclic), `Exprs.Eval` terminates with no error, the resulting let
map binds exactly as many names as the input, and every input key is bound to
a value carrying the input expression's origin — forward references included. -/
theorem c2_numeric_acyclic (E : Exprs) (ctx : EvalContext) (rank : String → Nat)
    (hnd : (keysA E).Nodup)
    (hfrag : ∀ p ∈ E, numericLetExpr p.2.expression = true)
    (hdeps : ∀ p ∈ E, ∀ n ∈ letDeps p.2, n ∈ keysA E)
    (hrank : ∀ p ∈ E, ∀ n ∈ letDeps p.2, rank n < rank p.1) :
    ∃ st, Exprs.Eval E ctx = .done st [] ∧ st.pending = [] ∧
      st.lets.length = E.length ∧
      ∀ p ∈ E, ∃ v, lookupA st.lets p.1 = some v ∧ v.origin = p.2.origin := by
  have hrm : removeUnset E = E :=
    List.filter_eq_self.mpr (fun p hp => by simp [numeric_not_unset p.2 (hfrag p hp)])
  have hinv0 : C2Inv E
      { pending := E, errsMap := [], lets := [], ctx := ensureLetNamespace ctx } := by
    refine ⟨hnd, List.nodup_nil, fun q hq => hq, ?_, ?_, ?_, by simp⟩
    · intro p hp hnone
      rw [lookupA_some_of_mem_nodup hnd hp] at hnone
      cases hnone
    · intro m v hv
      simp [lookupA] at hv
    · exact Or.inr ⟨rfl, ensureLet_hasLet ctx⟩
  obtain ⟨st', hloop, hpemp, hinv'⟩ := c2_loop E hnd hfrag hdeps rank hrank
    (E.length + 1)
    { pending := E, errsMap := [], lets := [], ctx := ensureLetNamespace ctx }
    le_rfl hinv0
  refine ⟨st', ?_, hpemp, ?_, ?_⟩
  · simp only [Exprs.Eval, evalLoop, hrm, hloop, hpemp, buildErrs]
  · have := hinv'.2.2.2.2.2.2
    rw [hpemp] at this
    simpa using this
  · intro p hp
    have hnone : lookupA st'.pending p.1 = none := by
      rw [hpemp]
      rfl
    rcases hinv'.2.2.2.1 p hp hnone with ⟨v, hv, ho, _⟩
    exact ⟨v, hv, ho⟩

theorem c2_numeric_acyclic_witness :
    ∃ st, Exprs.Eval eS1 ctxG = .done st [] ∧ st.pending = [] ∧
      st.lets.length = eS1.length ∧
      ∀ p ∈ eS1, ∃ v, lookupA st.lets p.1 = some v ∧ v.origin = p.2.origin :=
  c2_numeric_acyclic eS1 ctxG (fun k => if k = "a" then 1 else 0)
    (by decide) (by decide) (by decide) (by decide)

/-! ## Stack manager model (src/stack/manager.go)

Paths are modelled as segment lists (well-formed paths: nonempty, slash-free
segments).  A project path renders as `"/" ++ intercalate "/" segs`; the
stack-set map is keyed by that rendered string, exactly as
`map[project.Path]Entry` is keyed by the path value.  Git, the filesystem and
the configuration tree are external collaborators and enter as an environment
record of pure functions; `revParse` depends only on the ref (one repository
per project). -/

def pstr (segs : List String) : String := "/" ++ String.intercalate "/" segs

/-- Model of `config.Stack`: project directory (as segments), watch paths (as
project-path segments) and the `IsChanged` flag. -/
structure Stack where
  dirSegs : List String
  watch : List (List String)
  isChanged : Bool
deriving DecidableEq, Repr

/-- `Stack.Dir.String()`. -/
def Stack.dir (s : Stack) : String := pstr s.dirSegs

/-- Model of `tf.Module` (named to avoid the Mathlib `Module` class). -/
structure TfModule where
  source : String
deriving DecidableEq, Repr

/-- `Module.IsLocal`: the source starts with `./` or `../`. -/
def TfModule.IsLocal (m : TfModule) : Bool :=
  strStartsWith m.source "./" || strStartsWith m.source "../"

/-- Model of `stack.Entry`. -/
structure Entry where
  stack : Stack
  reason : String
deriving DecidableEq, Repr

structure RepoChecks where
  uncommittedFiles : List String
  untrackedFiles : List String
deriving DecidableEq, Repr

/-- Model of `stack.Report` (named `TmReport`: `Report` already exists in
Mathlib). -/
structure TmReport where
  Stacks : List Entry
  Checks : RepoChecks
deriving DecidableEq, Repr

/-- An `os.ReadDir` entry. -/
structure FsEntry where
  name : String
  isDir : Bool
deriving DecidableEq, Repr

/-- The external collaborators of the stack manager: the git wrapper, the
filesystem, the Terraform module parser and the configuration tree.
`statExists` is false exactly on paths whose `os.Stat` fails with not-exist
(other stat failures are treated as success, as the trigger branch does).
`sourceUniv` is the finite universe of module source strings the filesystem
can produce (`parseModules` only returns sources in it); it bounds the module
recursion. -/
structure Env where
  hostRoot : List String
  isRepository : Bool
  listUntracked : Option (List String)
  listUncommitted : Option (List String)
  revParse : String → Option String
  diffNames : List String → String → String → Option (List (List String))
  statExists : List String → Bool
  statIsDir : List String → Bool
  lookupStack : String → Option Stack
  allStacks : List Stack
  readDir : List String → Option (List FsEntry)
  parseModules : List String → Option (List TfModule)
  gitBaseRef : String
  sourceUniv : List String

/-- Model of `listChangedFiles` (manager.go lines 594-641): stat the
directory, rev-parse the base ref and HEAD, return the empty list when they
coincide, otherwise diff. -/
def listChangedFiles (env : Env) (dir : List String) :
    Except String (List (List String)) :=
  if ¬ env.statExists dir then .error "stat failed"
  else if ¬ env.statIsDir dir then .error "is not a directory"
  else
    match env.revParse env.gitBaseRef with
    | none => .error "getting revision"
    | some baseRef =>
      match env.revParse "HEAD" with
      | none => .error "getting HEAD revision"
      | some headRef =>
        if baseRef = headRef then .ok []
        else
          match env.diffNames dir baseRef headRef with
          | none => .error "git diff"
          | some files => .ok files

/-- Modelled from the spec: `trigger.StackPath` (the trigger package is not
among the sources).  A project path of the form
`<stack_dir>/.terramate/trigger/<file>` maps to the stack directory. -/
def triggerStackPath (p : List String) : Option (List String) :=
  match p.reverse with
  | _ :: "trigger" :: ".terramate" :: restRev => some restRev.reverse
  | _ => none

/-- Whether the changed-file string starts with a dot
(`strings.HasPrefix(path, ".")` on the slash-joined relative path). -/
def firstSegDot : List String → Bool
  | [] => false
  | s :: _ => strStartsWith s "."

/-- Model of `filepath.Join(basedir, source)` for a relative module source:
split on `/` and resolve `.` and `..` segments. -/
def cleanJoin (basedir : List String) (source : String) : List String :=
  (splitSlash source).foldl
    (fun acc seg =>
      if seg = "." ∨ seg = "" then acc
      else if seg = ".." then acc.dropLast
      else acc ++ [seg])
    basedir

/-- Model of `hasChangedWatchedFiles`: the first watch entry equal (after
stripping the leading `/`) to some changed file. -/
def hasChangedWatchedFiles (stack : Stack) (changedFiles : List (List String)) :
    Option (List String) :=
  stack.watch.findSome? (fun w =>
    changedFiles.findSome? (fun f =>
      if String.intercalate "/" f = String.intercalate "/" w then some w else none))

/-- Result of `moduleChanged`: fuel exhaustion (impossible under a finite
source universe, see `moduleChangedF_adequate`), an error, or
`(changed, why)` together with the updated visited set. -/
inductive MCRes where
  | fuelOut
  | err (msg : String)
  | ok (changed : Bool) (why : String) (visited : List String)
deriving DecidableEq, Repr

/-- The `for _, mod2 := range modules` loop inside `moduleChanged`'s
`filesApply` callback; `recFn` is the recursive call (with one less fuel),
`outerSrc` the enclosing module's source (the `mod.Source` the `why` chain
interpolates). -/
def mcMods (recFn : TfModule → List String → List String → MCRes)
    (outerSrc : String) (modPath : List String) :
    List TfModule → String → List String → MCRes
  | [], why, visited => .ok false why visited
  | m :: ms, why, visited =>
    match recFn m modPath visited with
    | .fuelOut => .fuelOut
    | .err e => .err e
    | .ok ch why2 vis2 =>
      if ch then .ok true (why ++ outerSrc ++ " changed because " ++ why2 ++ " ") vis2
      else mcMods recFn outerSrc modPath ms why vis2

/-- The `filesApply` loop inside `moduleChanged`: directories are skipped,
the callback short-circuits once `changed` is set, non-`.tf` files are
skipped, `.tf` files are parsed and their modules recursed into. -/
def mcFiles (env : Env) (recFn : TfModule → List String → List String → MCRes)
    (outerSrc : String) (modPath : List String) :
    List FsEntry → Bool → String → List String → MCRes
  | [], changed, why, visited => .ok changed why visited
  | de :: rest, changed, why, visited =>
    if de.isDir then mcFiles env recFn outerSrc modPath rest changed why visited
    else if changed then mcFiles env recFn outerSrc modPath rest changed why visited
    else if ¬ strEndsWith de.name ".tf" then
      mcFiles env recFn outerSrc modPath rest changed why visited
    else
      match env.parseModules (modPath ++ [de.name]) with
      | none => .err "parsing module"
      | some mods =>
        match mcMods recFn outerSrc modPath mods why visited with
        | .fuelOut => .fuelOut
        | .err e => .err e
        | .ok ch' why' vis' =>
          mcFiles env recFn outerSrc modPath rest ch' why' vis'

/-- Model of `Manager.moduleChanged` (manager.go lines 489-591), with fuel
driving the recursion depth: already-visited and remote sources return
`(false, "")` immediately; a missing directory is fatal; a module with
changed files reports immediately; otherwise the source is marked visited and
the module's `.tf` files are scanned recursively. -/
def moduleChangedF (env : Env) : Nat → TfModule → List String → List String → MCRes
  | 0 => fun _ _ _ => .fuelOut
  | fuel + 1 => fun mod basedir visited =>
    if mod.source ∈ visited then .ok false "" visited
    else if ¬ mod.IsLocal then .ok false "" visited
    else
      let modPath := cleanJoin basedir mod.source
      if ¬ (env.statExists modPath && env.statIsDir modPath) then
        .err ("\"source\" path " ++ pstr modPath ++ " is not a directory")
      else
        match listChangedFiles env modPath with
        | .error e => .err e
        | .ok changedFiles =>
          if changedFiles.isEmpty then
            match env.readDir modPath with
            | none => .err "listing files"
            | some entries =>
              match mcFiles env (moduleChangedF env fuel) mod.source modPath
                  entries false "" (mod.source :: visited) with
              | .fuelOut => .fuelOut
              | .err e => .err e
              | .ok ch why vis =>
                .ok ch ("module \"" ++ mod.source ++ "\" changed because " ++ why) vis
          else
            .ok true ("module \"" ++ mod.source ++ "\" has unmerged changes") visited

/-- The fuel `ListChanged` supplies to the module walk: one more than the
number of distinct module sources the filesystem can mention. -/
def moduleChanged (env : Env) (mod : TfModule) (basedir : List String)
    (visited : List String) : MCRes :=
  moduleChangedF env (env.sourceUniv.length + 1) mod basedir visited

/-- The parent-stack walk of `ListChanged` (`for checkdir.String() != "/"`,
moving up one directory before each lookup), written with the directory depth
as the structurally decreasing argument. -/
def lookupParentGo (env : Env) : Nat → List String → Option Stack
  | 0, _ => none
  | n + 1, segs =>
    let p := segs.dropLast
    match env.lookupStack (pstr p) with
    | some s => some s
    | none => lookupParentGo env n p

/-- Lookup of the enclosing stack for a changed file's directory: the direct
lookup, then the parent walk (which is skipped when the directory is already
the project root). -/
def lookupStackOrParent (env : Env) (segs : List String) : Option Stack :=
  match env.lookupStack (pstr segs) with
  | some s => some s
  | none => if segs = [] then none else lookupParentGo env segs.length segs

/-- One iteration of the `for _, path := range changedFiles` loop (manager.go
lines 162-247): trigger classification, dotfile filter, and enclosing-stack
classification.  `stackSet[s.Dir] = Entry{...}` is the map assignment
`insertA`. -/
def phase1Step (env : Env) (stackSet : List (String × Entry)) (f : List String) :
    List (String × Entry) :=
  let abspath := env.hostRoot ++ f
  let projpath := pstr f
  match triggerStackPath f with
  | some trigSegs =>
    if ¬ env.statExists abspath then stackSet
    else
      match env.lookupStack (pstr trigSegs) with
      | none => stackSet
      | some s =>
        insertA stackSet s.dir ⟨s, "stack has been triggered by: " ++ projpath⟩
  | none =>
    if firstSegDot f then stackSet
    else
      let dsegs := f.dropLast
      if (lookupA stackSet (pstr dsegs)).isSome then stackSet
      else
        match lookupStackOrParent env dsegs with
        | none => stackSet
        | some s => insertA stackSet s.dir ⟨s, "stack has unmerged changes"⟩

def phase1 (env : Env) (changedFiles : List (List String)) :
    List (String × Entry) :=
  changedFiles.foldl (phase1Step env) []

/-- The module loop of the per-stack `filesApply` callback in `ListChanged`
(lines 316-343): the first changed module records the stack and stops this
file's loop. -/
def phase2Mods (env : Env) (stack : Stack) :
    List TfModule → List (String × Entry) → Except String (List (String × Entry))
  | [], stackSet => .ok stackSet
  | m :: ms, stackSet =>
    match moduleChanged env m (env.hostRoot ++ stack.dirSegs) [] with
    | .fuelOut => .error "module recursion exceeded the source universe"
    | .err e => .error e
    | .ok ch why _ =>
      if ch then
        .ok (insertA stackSet stack.dir
          ⟨{ stack with isChanged := true },
            "stack changed because \"" ++ m.source ++ "\" changed because " ++ why⟩)
      else phase2Mods env stack ms stackSet

/-- The `filesApply` loop of `ListChanged` over a stack's directory entries:
each `.tf` file is parsed and its modules checked; note that the callback has
no short-circuit, so later files are still processed after a changed module
was found. -/
def phase2Files (env : Env) (stack : Stack) :
    List FsEntry → List (String × Entry) → Except String (List (String × Entry))
  | [], stackSet => .ok stackSet
  | de :: rest, stackSet =>
    if de.isDir then phase2Files env stack rest stackSet
    else if ¬ strEndsWith de.name ".tf" then phase2Files env stack rest stackSet
    else
      match env.parseModules (env.hostRoot ++ stack.dirSegs ++ [de.name]) with
      | none => .error "parsing modules"
      | some mods =>
        match phase2Mods env stack mods stackSet with
        | .error e => .error e
        | .ok stackSet' => phase2Files env stack rest stackSet'

/-- One iteration of the `rangeStacks` loop (lines 258-350): stacks already in
the set are skipped, then watched files, then the module walk. -/
def phase2Stack (env : Env) (changedFiles : List (List String))
    (stackSet : List (String × Entry)) (stack : Stack) :
    Except String (List (String × Entry)) :=
  if (lookupA stackSet stack.dir).isSome then .ok stackSet
  else
    match hasChangedWatchedFiles stack changedFiles with
    | some w =>
      .ok (insertA stackSet stack.dir
        ⟨{ stack with isChanged := true },
          "stack changed because watched file \"" ++ pstr w ++ "\" changed"⟩)
    | none =>
      match env.readDir (env.hostRoot ++ stack.dirSegs) with
      | none => .error "listing files"
      | some entries => phase2Files env stack entries stackSet

def phase2 (env : Env) (changedFiles : List (List String)) :
    List Stack → List (String × Entry) → Except String (List (String × Entry))
  | [], stackSet => .ok stackSet
  | s :: rest, stackSet =>
    match phase2Stack env changedFiles stackSet s with
    | .error e => .error e
    | .ok stackSet' => phase2 env changedFiles rest stackSet'

/-- Model of `checkRepoIsClean`. -/
def checkRepoIsClean (env : Env) : Option RepoChecks :=
  match env.listUntracked, env.listUncommitted with
  | some unt, some unc => some ⟨unc, unt⟩
  | _, _ => none

/-- The comparison of `EntrySlice.Less`: `Stack.Dir.String() <` (byte-wise). -/
def entryLe (a b : Entry) : Bool := strLe a.stack.dir b.stack.dir

/-- Model of `Manager.ListChanged` (manager.go lines 123-367).  The
`sort.Sort(EntrySlice(...))` step is modelled by insertion sort with the same
comparison; since the collected entries have pairwise distinct directories the
sorted sequence is the unique one, independent of the sorting algorithm. -/
def ListChanged (env : Env) : Except String TmReport :=
  if ¬ env.isRepository then .error "the path is not a git repository"
  else
    match checkRepoIsClean env with
    | none => .error "listing untracked or uncommitted files"
    | some checks =>
      match listChangedFiles env env.hostRoot with
      | .error e => .error e
      | .ok changedFiles =>
        match phase2 env changedFiles env.allStacks (phase1 env changedFiles) with
        | .error e => .error e
        | .ok stackSet =>
          .ok { Stacks := List.insertionSort (fun a b => entryLe a b = true)
                  (stackSet.map Prod.snd),
                Checks := checks }

/-! ## Sortedness and uniqueness of the report (C1, C5) -/

theorem mem_insertA {α : Type} {l : List (String × α)} {k : String} {v : α}
    {p : String × α} (h : p ∈ insertA l k v) : p = (k, v) ∨ p ∈ l := by
  induction l with
  | nil => simpa [insertA] using h
  | cons q qs ih =>
    simp only [insertA] at h
    by_cases hq : q.1 = k
    · rw [if_pos hq] at h
      rcases List.mem_cons.mp h with heq | hmem
      · exact Or.inl heq
      · exact Or.inr (List.mem_cons_of_mem _ hmem)
    · rw [if_neg hq] at h
      rcases List.mem_cons.mp h with heq | hmem
      · exact Or.inr (heq ▸ List.mem_cons_self _ _)
      · rcases ih hmem with hh | hh
        · exact Or.inl hh
        · exact Or.inr (List.mem_cons_of_mem _ hh)

/-- Well-formedness of the stack set: unique keys, and each key is the
directory string of its entry's stack (every insertion site uses `s.Dir`). -/
def wfSet (s : List (String × Entry)) : Prop :=
  (keysA s).Nodup ∧ ∀ p ∈ s, p.2.stack.dir = p.1

theorem wfSet_nil : wfSet [] := ⟨List.nodup_nil, fun p hp => absurd hp (List.not_mem_nil p)⟩

theorem wfSet_insertA (s : List (String × Entry)) (e : Entry) (h : wfSet s) :
    wfSet (insertA s e.stack.dir e) := by
  refine ⟨nodup_keysA_insertA _ _ h.1, ?_⟩
  intro p hp
  rcases mem_insertA hp with heq | hmem
  · rw [heq]
  · exact h.2 p hmem

theorem Stack_dir_isChanged (s : Stack) :
    ({ s with isChanged := true } : Stack).dir = s.dir := rfl

theorem wfSet_phase1Step (env : Env) (s : List (String × Entry)) (f : List String)
    (h : wfSet s) : wfSet (phase1Step env s f) := by
  unfold phase1Step
  cases triggerStackPath f with
  | some trigSegs =>
    simp only
    by_cases hst : env.statExists (env.hostRoot ++ f) = true
    · rw [if_neg (not_not_intro hst)]
      cases env.lookupStack (pstr trigSegs) with
      | none => exact h
      | some st => exact wfSet_insertA s ⟨st, _⟩ h
    · rw [if_pos hst]
      exact h
  | none =>
    simp only
    by_cases hdot : firstSegDot f = true
    · rw [if_pos hdot]; exact h
    · rw [if_neg hdot]
      by_cases hmem : (lookupA s (pstr f.dropLast)).isSome = true
      · rw [if_pos hmem]; exact h
      · rw [if_neg hmem]
        cases lookupStackOrParent env f.dropLast with
        | none => exact h
        | some st => exact wfSet_insertA s ⟨st, _⟩ h

theorem wfSet_phase1 (env : Env) (changedFiles : List (List String)) :
    wfSet (phase1 env changedFiles) := by
  unfold phase1
  have : ∀ (fs : List (List String)) (s : List (String × Entry)),
      wfSet s → wfSet (fs.foldl (phase1Step env) s) := by
    intro fs
    induction fs with
    | nil => intro s hs; exact hs
    | cons f rest ih =>
      intro s hs
      exact ih _ (wfSet_phase1Step env s f hs)
  exact this changedFiles [] wfSet_nil

theorem wfSet_phase2Mods (env : Env) (stack : Stack) :
    ∀ mods s s', phase2Mods env stack mods s = .ok s' → wfSet s → wfSet s' := by
  intro mods
  induction mods with
  | nil => intro s s' h hs; cases h; exact hs
  | cons m ms ih =>
    intro s s' h hs
    simp only [phase2Mods] at h
    cases hmc : moduleChanged env m (env.hostRoot ++ stack.dirSegs) [] with
    | fuelOut => rw [hmc] at h; cases h
    | err e => rw [hmc] at h; cases h
    | ok ch why vis =>
      rw [hmc] at h
      simp only at h
      by_cases hch : ch = true
      · rw [if_pos hch] at h
        cases h
        exact wfSet_insertA s ⟨{ stack with isChanged := true }, _⟩ hs
      · rw [if_neg hch] at h
        exact ih s s' h hs

theorem wfSet_phase2Files (env : Env) (stack : Stack) :
    ∀ entries s s', phase2Files env stack entries s = .ok s' → wfSet s → wfSet s' := by
  intro entries
  induction entries with
  | nil => intro s s' h hs; cases h; exact hs
  | cons de rest ih =>
    intro s s' h hs
    simp only [phase2Files] at h
    by_cases hdir : de.isDir = true
    · rw [if_pos hdir] at h
      exact ih s s' h hs
    · rw [if_neg hdir] at h
      by_cases htf : strEndsWith de.name ".tf" = true
      · rw [if_neg (not_not_intro htf)] at h
        cases hpm : env.parseModules (env.hostRoot ++ stack.dirSegs ++ [de.name]) with
        | none => rw [hpm] at h; cases h
        | some mods =>
          rw [hpm] at h
          simp only at h
          cases hm : phase2Mods env stack mods s with
          | error e => rw [hm] at h; cases h
          | ok s1 =>
            rw [hm] at h
            exact ih s1 s' h (wfSet_phase2Mods env stack mods s s1 hm hs)
      · rw [if_pos htf] at h
        exact ih s s' h hs

theorem wfSet_phase2Stack (env : Env) (changedFiles : List (List String))
    (s : List (String × Entry)) (stack : Stack) (s' : List (String × Entry))
    (h : phase2Stack env changedFiles s stack = .ok s') (hs : wfSet s) : wfSet s' := by
  unfold phase2Stack at h
  by_cases hmem : (lookupA s stack.dir).isSome = true
  · rw [if_pos hmem] at h
    cases h
    exact hs
  · rw [if_neg hmem] at h
    cases hw : hasChangedWatchedFiles stack changedFiles with
    | some w =>
      rw [hw] at h
      simp only at h
      cases h
      exact wfSet_insertA s ⟨{ stack with isChanged := true }, _⟩ hs
    | none =>
      rw [hw] at h
      simp only at h
      cases hrd : env.readDir (env.hostRoot ++ stack.dirSegs) with
      | none => rw [hrd] at h; cases h
      | some entries =>
        rw [hrd] at h
        exact wfSet_phase2Files env stack entries s s' h hs

theorem wfSet_phase2 (env : Env) (changedFiles : List (List String)) :
    ∀ sts s s', phase2 env changedFiles sts s = .ok s' → wfSet s → wfSet s' := by
  intro sts
  induction sts with
  | nil => intro s s' h hs; cases h; exact hs
  | cons st rest ih =>
    intro s s' h hs
    simp only [phase2] at h
    cases hstep : phase2Stack env changedFiles s st with
    | error e => rw [hstep] at h; cases h
    | ok s1 =>
      rw [hstep] at h
      exact ih s1 s' h (wfSet_phase2Stack env changedFiles s st s1 hstep hs)

theorem charListLt_trans :
    ∀ as bs cs, charListLt as bs = true → charListLt bs cs = true →
      charListLt as cs = true := by
  intro as
  induction as with
  | nil =>
    intro bs cs hab hbc
    cases bs with
    | nil => simp [charListLt] at hab
    | cons b bs' =>
      cases cs with
      | nil => simp [charListLt] at hbc
      | cons c cs' => rfl
  | cons a as' ih =>
    intro bs cs hab hbc
    cases bs with
    | nil => simp [charListLt] at hab
    | cons b bs' =>
      cases cs with
      | nil => simp [charListLt] at hbc
      | cons c cs' =>
        simp only [charListLt] at hab hbc ⊢
        by_cases h1 : a.toNat < b.toNat
        · by_cases h2 : b.toNat < c.toNat
          · rw [if_pos (by omega : a.toNat < c.toNat)]
          · rw [if_neg h2] at hbc
            by_cases h3 : c.toNat < b.toNat
            · rw [if_pos h3] at hbc; cases hbc
            · rw [if_pos (by omega : a.toNat < c.toNat)]
        · rw [if_neg h1] at hab
          by_cases h1' : b.toNat < a.toNat
          · rw [if_pos h1'] at hab; cases hab
          · rw [if_neg h1'] at hab
            by_cases h2 : b.toNat < c.toNat
            · rw [if_pos (by omega : a.toNat < c.toNat)]
            · rw [if_neg h2] at hbc
              by_cases h3 : c.toNat < b.toNat
              · rw [if_pos h3] at hbc; cases hbc
              · rw [if_neg h3] at hbc
                rw [if_neg (by omega : ¬ a.toNat < c.toNat),
                  if_neg (by omega : ¬ c.toNat < a.toNat)]
                exact ih bs' cs' hab hbc

theorem charListLt_connex :
    ∀ as bs, as ≠ bs → charListLt as bs = true ∨ charListLt bs as = true := by
  intro as
  induction as with
  | nil =>
    intro bs hne
    cases bs with
    | nil => exact absurd rfl hne
    | cons b bs' => left; rfl
  | cons a as' ih =>
    intro bs hne
    cases bs with
    | nil => right; rfl
    | cons b bs' =>
      simp only [charListLt]
      by_cases h1 : a.toNat < b.toNat
      · left; rw [if_pos h1]
      · by_cases h2 : b.toNat < a.toNat
        · right; rw [if_pos h2]
        · have hab : a = b := by
            have hn : a.toNat = b.toNat := by omega
            exact Char.eq_of_val_eq (UInt32.ext hn)
          subst hab
          have hne' : as' ≠ bs' := fun hh => hne (by rw [hh])
          rw [if_neg h1, if_neg h2, if_neg h1, if_neg h2]
          exact ih bs' hne'

theorem string_ext_data {a b : String} (h : a.data = b.data) : a = b := by
  calc a = String.mk a.data := rfl
    _ = String.mk b.data := by rw [h]
    _ = b := rfl

theorem strLe_total (a b : String) : strLe a b = true ∨ strLe b a = true := by
  by_cases heq : a = b
  · left
    unfold strLe
    rw [heq]
    simp
  · have hdata : a.data ≠ b.data := fun hh => heq (string_ext_data hh)
    rcases charListLt_connex a.data b.data hdata with hlt | hlt
    · left
      unfold strLe strLt
      rw [hlt]
      simp
    · right
      unfold strLe strLt
      rw [hlt]
      simp

theorem strLe_trans (a b c : String) (hab : strLe a b = true) (hbc : strLe b c = true) :
    strLe a c = true := by
  unfold strLe at *
  rcases Bool.or_eq_true_iff.mp hab with h1 | h1
  · rw [beq_iff_eq] at h1
    subst h1
    exact hbc
  · rcases Bool.or_eq_true_iff.mp hbc with h2 | h2
    · rw [beq_iff_eq] at h2
      subst h2
      rw [h1]
      simp
    · have := charListLt_trans a.data b.data c.data h1 h2
      unfold strLt at *
      rw [this]
      simp

theorem strLe_ne_lt (a b : String) (hle : strLe a b = true) (hne : a ≠ b) :
    strLt a b = true := by
  unfold strLe at hle
  rcases Bool.or_eq_true_iff.mp hle with h1 | h1
  · rw [beq_iff_eq] at h1
    exact absurd h1 hne
  · exact h1

instance : IsTotal Entry (fun a b => entryLe a b = true) :=
  ⟨fun a b => strLe_total a.stack.dir b.stack.dir⟩

instance : IsTrans Entry (fun a b => entryLe a b = true) :=
  ⟨fun a b c => strLe_trans a.stack.dir b.stack.dir c.stack.dir⟩

deriving instance DecidableEq for Except

theorem ListChanged_ok_elim (env : Env) (r : TmReport) (h : ListChanged env = .ok r) :
    ∃ checks changedFiles stackSet,
      checkRepoIsClean env = some checks ∧
      listChangedFiles env env.hostRoot = .ok changedFiles ∧
      phase2 env changedFiles env.allStacks (phase1 env changedFiles) = .ok stackSet ∧
      r = { Stacks := List.insertionSort (fun a b => entryLe a b = true)
              (stackSet.map Prod.snd),
            Checks := checks } := by
  unfold ListChanged at h
  by_cases hrepo : env.isRepository = true
  · rw [if_neg (not_not_intro hrepo)] at h
    cases hch : checkRepoIsClean env with
    | none => rw [hch] at h; cases h
    | some checks =>
      rw [hch] at h
      simp only at h
      cases hlcf : listChangedFiles env env.hostRoot with
      | error e => rw [hlcf] at h; cases h
      | ok changedFiles =>
        rw [hlcf] at h
        simp only at h
        cases hph : phase2 env changedFiles env.allStacks (phase1 env changedFiles) with
        | error e => rw [hph] at h; cases h
        | ok stackSet =>
          rw [hph] at h
          simp only at h
          injection h with hr
          exact ⟨checks, changedFiles, stackSet, rfl, rfl, hph, hr.symm⟩
  · rw [if_pos hrepo] at h
    cases h

/-- C5: the stack-directory sequence of a successful `ListChanged` report is
strictly ascending in the byte-wise string order used by `EntrySlice.Less`;
in particular it contains no duplicate directories. -/
theorem c5_report_strictly_sorted (env : Env) (r : TmReport)
    (h : ListChanged env = .ok r) :
    r.Stacks.Pairwise (fun a b => strLt a.stack.dir b.stack.dir = true) := by
  obtain ⟨checks, cfs, s2, hch, hlcf, hph, hr⟩ := ListChanged_ok_elim env r h
  have hwf : wfSet s2 :=
    wfSet_phase2 env cfs env.allStacks _ s2 hph (wfSet_phase1 env cfs)
  subst hr
  simp only
  set l := s2.map Prod.snd with hl
  have hsorted := List.sorted_insertionSort (fun a b => entryLe a b = true) l
  have hperm := List.perm_insertionSort (fun a b => entryLe a b = true) l
  have hdirs : l.map (fun e => e.stack.dir) = keysA s2 := by
    rw [hl, List.map_map]
    apply List.map_congr_left
    intro p hp
    exact hwf.2 p hp
  have hnodup_l : (l.map (fun e => e.stack.dir)).Nodup := by
    rw [hdirs]
    exact hwf.1
  have hnodup_sorted :
      ((List.insertionSort (fun a b => entryLe a b = true) l).map
        (fun e => e.stack.dir)).Nodup :=
    ((hperm.map (fun e => e.stack.dir)).nodup_iff).mpr hnodup_l
  have hpne := List.pairwise_map.mp hnodup_sorted
  exact (hsorted.and hpne).imp (fun hc => strLe_ne_lt _ _ hc.1 hc.2)

/-! ## Concrete manager environments -/

def stackS1 : Stack := ⟨["s1"], [], false⟩

def stackA : Stack := ⟨["a"], [], false⟩

/-- A project with stacks `/a` and `/s1`, both touched by direct changes. -/
def envC5 : Env :=
  { hostRoot := ["r"]
    isRepository := true
    listUntracked := some []
    listUncommitted := some []
    revParse := fun rf => if rf = "HEAD" then some "h2" else some "h1"
    diffNames := fun _ _ _ => some [["s1", "x.tf"], ["a", "y.tf"]]
    statExists := fun _ => true
    statIsDir := fun _ => true
    lookupStack := fun p =>
      if p = "/s1" then some stackS1 else if p = "/a" then some stackA else none
    allStacks := [stackS1, stackA]
    readDir := fun _ => some []
    parseModules := fun _ => some []
    gitBaseRef := "origin/main"
    sourceUniv := [] }

def reportC5 : TmReport :=
  { Stacks := [⟨stackA, "stack has unmerged changes"⟩,
               ⟨stackS1, "stack has unmerged changes"⟩]
    Checks := ⟨[], []⟩ }

theorem c5_report_strictly_sorted_witness :
    ListChanged envC5 = .ok reportC5 ∧
    reportC5.Stacks.Pairwise (fun a b => strLt a.stack.dir b.stack.dir = true) :=
  ⟨by decide, c5_report_strictly_sorted envC5 reportC5 (by decide)⟩

/-! ## C1: stack-set update discipline -/

theorem lookupA_insertA_other {α : Type} (l : List (String × α)) (k m : String)
    (v : α) (h : m ≠ k) : lookupA (insertA l k v) m = lookupA l m :=
  lookupA_insertA_ne l k m v h

theorem phase2Mods_other_keys (env : Env) (stack : Stack) :
    ∀ mods s s', phase2Mods env stack mods s = .ok s' →
      ∀ m, m ≠ stack.dir → lookupA s' m = lookupA s m := by
  intro mods
  induction mods with
  | nil => intro s s' h m _; cases h; rfl
  | cons md ms ih =>
    intro s s' h m hm
    simp only [phase2Mods] at h
    cases hmc : moduleChanged env md (env.hostRoot ++ stack.dirSegs) [] with
    | fuelOut => rw [hmc] at h; cases h
    | err e => rw [hmc] at h; cases h
    | ok ch why vis =>
      rw [hmc] at h
      simp only at h
      by_cases hch : ch = true
      · rw [if_pos hch] at h
        cases h
        exact lookupA_insertA_ne _ _ _ _ hm
      · rw [if_neg hch] at h
        exact ih s s' h m hm

theorem phase2Files_other_keys (env : Env) (stack : Stack) :
    ∀ entries s s', phase2Files env stack entries s = .ok s' →
      ∀ m, m ≠ stack.dir → lookupA s' m = lookupA s m := by
  intro entries
  induction entries with
  | nil => intro s s' h m _; cases h; rfl
  | cons de rest ih =>
    intro s s' h m hm
    simp only [phase2Files] at h
    by_cases hdir : de.isDir = true
    · rw [if_pos hdir] at h
      exact ih s s' h m hm
    · rw [if_neg hdir] at h
      by_cases htf : strEndsWith de.name ".tf" = true
      · rw [if_neg (not_not_intro htf)] at h
        cases hpm : env.parseModules (env.hostRoot ++ stack.dirSegs ++ [de.name]) with
        | none => rw [hpm] at h; cases h
        | some mods =>
          rw [hpm] at h
          simp only at h
          cases hmo : phase2Mods env stack mods s with
          | error e => rw [hmo] at h; cases h
          | ok s1 =>
            rw [hmo] at h
            rw [ih s1 s' h m hm]
            exact phase2Mods_other_keys env stack mods s s1 hmo m hm
      · rw [if_pos htf] at h
        exact ih s s' h m hm

theorem phase2Stack_preserves (env : Env) (changedFiles : List (List String))
    (s : List (String × Entry)) (stack : Stack) (s' : List (String × Entry))
    (h : phase2Stack env changedFiles s stack = .ok s') (k : String)
    (hk : k ∈ keysA s) : lookupA s' k = lookupA s k := by
  unfold phase2Stack at h
  by_cases hmem : (lookupA s stack.dir).isSome = true
  · rw [if_pos hmem] at h
    cases h
    rfl
  · rw [if_neg hmem] at h
    have hkd : k ≠ stack.dir := by
      intro hh
      rw [← hh] at hmem
      exact hmem (lookupA_isSome_of_key_mem hk)
    cases hw : hasChangedWatchedFiles stack changedFiles with
    | some w =>
      rw [hw] at h
      simp only at h
      cases h
      exact lookupA_insertA_ne _ _ _ _ hkd
    | none =>
      rw [hw] at h
      simp only at h
      cases hrd : env.readDir (env.hostRoot ++ stack.dirSegs) with
      | none => rw [hrd] at h; cases h
      | some entries =>
        rw [hrd] at h
        exact phase2Files_other_keys env stack entries s s' h k hkd

theorem phase2_preserves (env : Env) (changedFiles : List (List String)) :
    ∀ sts s s', phase2 env changedFiles sts s = .ok s' →
      ∀ k, k ∈ keysA s → lookupA s' k = lookupA s k := by
  intro sts
  induction sts with
  | nil => intro s s' h k _; cases h; rfl
  | cons st rest ih =>
    intro s s' h k hk
    simp only [phase2] at h
    cases hstep : phase2Stack env changedFiles s st with
    | error e => rw [hstep] at h; cases h
    | ok s1 =>
      rw [hstep] at h
      have h1 := phase2Stack_preserves env changedFiles s st s1 hstep k hk
      have hk1 : k ∈ keysA s1 := by
        apply key_mem_of_lookupA_some (v := Option.get _ (lookupA_isSome_of_key_mem hk))
        rw [h1]
        exact (Option.some_get (lookupA_isSome_of_key_mem hk)).symm
      rw [ih s1 s' h k hk1, h1]

/-- C1 (amended): every stack appears at most once in a successful report, and
the all-stacks pass (watched files and module walks) never replaces an entry
already present when it starts.  As stated the claim fails: within the
changed-files pass, a later trigger-file classification replaces an existing
entry's reason for the same stack (see the counterexample), and within one
stack's module scan a later `.tf` file's changed module replaces the reason
recorded by an earlier file. -/
theorem c1_at_most_once_and_phase2_preserves :
    (∀ (env : Env) (r : TmReport), ListChanged env = .ok r →
      r.Stacks.Pairwise (fun a b => a.stack.dir ≠ b.stack.dir)) ∧
    (∀ (env : Env) (changedFiles : List (List String)) (sts : List Stack)
        (s s' : List (String × Entry)),
      phase2 env changedFiles sts s = .ok s' →
      ∀ k, k ∈ keysA s → lookupA s' k = lookupA s k) := by
  constructor
  · intro env r h
    obtain ⟨checks, cfs, s2, hch, hlcf, hph, hr⟩ := ListChanged_ok_elim env r h
    have hwf : wfSet s2 :=
      wfSet_phase2 env cfs env.allStacks _ s2 hph (wfSet_phase1 env cfs)
    subst hr
    simp only
    set l := s2.map Prod.snd with hl
    have hperm := List.perm_insertionSort (fun a b => entryLe a b = true) l
    have hdirs : l.map (fun e => e.stack.dir) = keysA s2 := by
      rw [hl, List.map_map]
      apply List.map_congr_left
      intro p hp
      exact hwf.2 p hp
    have hnodup_l : (l.map (fun e => e.stack.dir)).Nodup := by
      rw [hdirs]
      exact hwf.1
    have hnodup_sorted :
        ((List.insertionSort (fun a b => entryLe a b = true) l).map
          (fun e => e.stack.dir)).Nodup :=
      ((hperm.map (fun e => e.stack.dir)).nodup_iff).mpr hnodup_l
    exact List.pairwise_map.mp hnodup_sorted
  · exact fun env cfs sts s s' h k hk => phase2_preserves env cfs sts s s' h k hk

/-- A project where `/s1` is reached first by a direct file change and then by
a trigger file. -/
def envTrig : Env :=
  { hostRoot := ["r"]
    isRepository := true
    listUntracked := some []
    listUncommitted := some []
    revParse := fun rf => if rf = "HEAD" then some "h2" else some "h1"
    diffNames := fun _ _ _ =>
      some [["s1", "main.tf"], ["s1", ".terramate", "trigger", "t"]]
    statExists := fun _ => true
    statIsDir := fun _ => true
    lookupStack := fun p => if p = "/s1" then some stackS1 else none
    allStacks := [stackS1]
    readDir := fun _ => some []
    parseModules := fun _ => some []
    gitBaseRef := "origin/main"
    sourceUniv := [] }

theorem c1_counterexample :
    phase1Step envTrig [] ["s1", "main.tf"] =
      [("/s1", ⟨stackS1, "stack has unmerged changes"⟩)] ∧
    ListChanged envTrig =
      .ok { Stacks := [⟨stackS1,
              "stack has been triggered by: /s1/.terramate/trigger/t"⟩],
            Checks := ⟨[], []⟩ } := by
  refine ⟨by decide, by decide⟩

theorem c1_at_most_once_and_phase2_preserves_witness :
    reportC5.Stacks.Pairwise (fun a b => a.stack.dir ≠ b.stack.dir) ∧
    lookupA [("/s1", Entry.mk stackS1 "stack has unmerged changes")] "/s1" =
      some (Entry.mk stackS1 "stack has unmerged changes") := by
  constructor
  · exact c1_at_most_once_and_phase2_preserves.1 envC5 reportC5 (by decide)
  · have h2 := c1_at_most_once_and_phase2_preserves.2 envTrig []
      [stackS1] [("/s1", Entry.mk stackS1 "stack has unmerged changes")]
      [("/s1", Entry.mk stackS1 "stack has unmerged changes")] (by decide)
      "/s1" (by decide)
    rw [h2]
    decide

/-! ## C10: equal base and HEAD revisions -/

theorem listChangedFiles_same_ok (env : Env) (h : String)
    (hbase : env.revParse env.gitBaseRef = some h)
    (hhead : env.revParse "HEAD" = some h) (dir : List String)
    (hex : env.statExists dir = true) (hdir : env.statIsDir dir = true) :
    listChangedFiles env dir = .ok [] := by
  unfold listChangedFiles
  rw [if_neg (by simp [hex]), if_neg (by simp [hdir]), hbase, hhead]
  simp

theorem listChangedFiles_ok_nil (env : Env) (h : String)
    (hbase : env.revParse env.gitBaseRef = some h)
    (hhead : env.revParse "HEAD" = some h) (dir : List String)
    (cfs : List (List String)) (hok : listChangedFiles env dir = .ok cfs) :
    cfs = [] := by
  unfold listChangedFiles at hok
  by_cases hex : env.statExists dir = true
  · by_cases hdir : env.statIsDir dir = true
    · rw [if_neg (by simp [hex]), if_neg (by simp [hdir]), hbase, hhead] at hok
      simp at hok
      exact hok
    · rw [if_neg (by simp [hex]), if_pos (by simp [hdir])] at hok
      cases hok
  · rw [if_pos (by simp [hex])] at hok
    cases hok

theorem hasChangedWatchedFiles_nil (stack : Stack) :
    hasChangedWatchedFiles stack [] = none := by
  unfold hasChangedWatchedFiles
  induction stack.watch with
  | nil => rfl
  | cons w ws ih => simpa [List.findSome?_cons] using ih

theorem mcMods_no_change (recFn : TfModule → List String → List String → MCRes)
    (hrec : ∀ m p v ch w vv, recFn m p v = .ok ch w vv → ch = false)
    (outerSrc : String) (modPath : List String) :
    ∀ ms why vis ch w v, mcMods recFn outerSrc modPath ms why vis = .ok ch w v →
      ch = false := by
  intro ms
  induction ms with
  | nil => intro why vis ch w v hh; cases hh; rfl
  | cons m rest ih =>
    intro why vis ch w v hh
    simp only [mcMods] at hh
    cases hr : recFn m modPath vis with
    | fuelOut => rw [hr] at hh; cases hh
    | err e => rw [hr] at hh; cases hh
    | ok ch2 w2 v2 =>
      rw [hr] at hh
      simp only at hh
      have := hrec m modPath vis ch2 w2 v2 hr
      subst this
      rw [if_neg (by simp)] at hh
      exact ih why v2 ch w v hh

theorem mcFiles_no_change (env : Env)
    (recFn : TfModule → List String → List String → MCRes)
    (hrec : ∀ m p v ch w vv, recFn m p v = .ok ch w vv → ch = false)
    (outerSrc : String) (modPath : List String) :
    ∀ entries changed why vis ch w v,
      mcFiles env recFn outerSrc modPath entries changed why vis = .ok ch w v →
      ch = changed := by
  intro entries
  induction entries with
  | nil => intro changed why vis ch w v hh; cases hh; rfl
  | cons de rest ih =>
    intro changed why vis ch w v hh
    simp only [mcFiles] at hh
    by_cases hd : de.isDir = true
    · rw [if_pos hd] at hh
      exact ih changed why vis ch w v hh
    · rw [if_neg hd] at hh
      by_cases hch : changed = true
      · rw [if_pos hch] at hh
        exact ih changed why vis ch w v hh
      · rw [if_neg hch] at hh
        by_cases htf : strEndsWith de.name ".tf" = true
        · rw [if_neg (not_not_intro htf)] at hh
          cases hpm : env.parseModules (modPath ++ [de.name]) with
          | none => rw [hpm] at hh; cases hh
          | some mods =>
            rw [hpm] at hh
            simp only at hh
            cases hmo : mcMods recFn outerSrc modPath mods why vis with
            | fuelOut => rw [hmo] at hh; cases hh
            | err e => rw [hmo] at hh; cases hh
            | ok ch2 w2 v2 =>
              rw [hmo] at hh
              have h2 := mcMods_no_change recFn hrec outerSrc modPath mods
                why vis ch2 w2 v2 hmo
              have h3 := ih ch2 w2 v2 ch w v hh
              rw [h3, h2]
              cases hbc : changed with
              | false => rfl
              | true => exact absurd hbc hch
        · rw [if_pos (by simp [htf])] at hh
          exact ih changed why vis ch w v hh

theorem moduleChangedF_no_change (env : Env) (h : String)
    (hbase : env.revParse env.gitBaseRef = some h)
    (hhead : env.revParse "HEAD" = some h) :
    ∀ fuel mod basedir visited ch why vis,
      moduleChangedF env fuel mod basedir visited = .ok ch why vis →
      ch = false := by
  intro fuel
  induction fuel with
  | zero => intro mod basedir visited ch why vis hh; cases hh
  | succ fuel ih =>
    intro mod basedir visited ch why vis hh
    simp only [moduleChangedF] at hh
    by_cases hv : mod.source ∈ visited
    · rw [if_pos hv] at hh; cases hh; rfl
    · rw [if_neg hv] at hh
      by_cases hloc : mod.IsLocal = true
      · rw [if_neg (not_not_intro hloc)] at hh
        by_cases hstat : (env.statExists (cleanJoin basedir mod.source) &&
            env.statIsDir (cleanJoin basedir mod.source)) = true
        · rw [if_neg (not_not_intro hstat)] at hh
          have hex : env.statExists (cleanJoin basedir mod.source) = true :=
            (Bool.and_eq_true _ _).mp hstat |>.1
          have hdir : env.statIsDir (cleanJoin basedir mod.source) = true :=
            (Bool.and_eq_true _ _).mp hstat |>.2
          rw [listChangedFiles_same_ok env h hbase hhead _ hex hdir] at hh
          simp only [List.isEmpty_nil, if_pos] at hh
          cases hrd : env.readDir (cleanJoin basedir mod.source) with
          | none => rw [hrd] at hh; cases hh
          | some entries =>
            rw [hrd] at hh
            simp only at hh
            cases hmf : mcFiles env (moduleChangedF env fuel) mod.source
                (cleanJoin basedir mod.source) entries false ""
                (mod.source :: visited) with
            | fuelOut => rw [hmf] at hh; cases hh
            | err e => rw [hmf] at hh; cases hh
            | ok ch2 w2 v2 =>
              rw [hmf] at hh
              have hc2 : ch2 = false := mcFiles_no_change env
                (moduleChangedF env fuel)
                (fun m p v c w vv hq => ih m p v c w vv hq)
                mod.source (cleanJoin basedir mod.source) entries false ""
                (mod.source :: visited) ch2 w2 v2 hmf
              injection hh with e1 e2 e3
              rw [← e1, hc2]
        · rw [if_pos (by simp [hstat])] at hh
          cases hh
      · rw [if_pos (by simp [hloc])] at hh
        cases hh; rfl

theorem phase2Mods_id (env : Env) (h : String)
    (hbase : env.revParse env.gitBaseRef = some h)
    (hhead : env.revParse "HEAD" = some h) (stack : Stack) :
    ∀ ms s s', phase2Mods env stack ms s = .ok s' → s' = s := by
  intro ms
  induction ms with
  | nil => intro s s' hh; cases hh; rfl
  | cons m rest ih =>
    intro s s' hh
    simp only [phase2Mods] at hh
    cases hmc : moduleChanged env m (env.hostRoot ++ stack.dirSegs) [] with
    | fuelOut => rw [hmc] at hh; cases hh
    | err e => rw [hmc] at hh; cases hh
    | ok ch why vis =>
      rw [hmc] at hh
      simp only at hh
      have hf : ch = false :=
        moduleChangedF_no_change env h hbase hhead _ m _ [] ch why vis hmc
      subst hf
      rw [if_neg (by simp)] at hh
      exact ih s s' hh

theorem phase2Files_id (env : Env) (h : String)
    (hbase : env.revParse env.gitBaseRef = some h)
    (hhead : env.revParse "HEAD" = some h) (stack : Stack) :
    ∀ entries s s', phase2Files env stack entries s = .ok s' → s' = s := by
  intro entries
  induction entries with
  | nil => intro s s' hh; cases hh; rfl
  | cons de rest ih =>
    intro s s' hh
    simp only [phase2Files] at hh
    by_cases hd : de.isDir = true
    · rw [if_pos hd] at hh
      exact ih s s' hh
    · rw [if_neg hd] at hh
      by_cases htf : strEndsWith de.name ".tf" = true
      · rw [if_neg (not_not_intro htf)] at hh
        cases hpm : env.parseModules (env.hostRoot ++ stack.dirSegs ++ [de.name]) with
        | none => rw [hpm] at hh; cases hh
        | some mods =>
          rw [hpm] at hh
          simp only at hh
          cases hmo : phase2Mods env stack mods s with
          | error e => rw [hmo] at hh; cases hh
          | ok s1 =>
            rw [hmo] at hh
            rw [ih s1 s' hh]
            exact phase2Mods_id env h hbase hhead stack mods s s1 hmo
      · rw [if_pos (by simp [htf])] at hh
        exact ih s s' hh

theorem phase2Stack_nil_id (env : Env) (h : String)
    (hbase : env.revParse env.gitBaseRef = some h)
    (hhead : env.revParse "HEAD" = some h) (stack : Stack)
    (s s' : List (String × Entry))
    (hh : phase2Stack env [] s stack = .ok s') : s' = s := by
  unfold phase2Stack at hh
  by_cases hmem : (lookupA s stack.dir).isSome = true
  · rw [if_pos hmem] at hh
    cases hh; rfl
  · rw [if_neg hmem] at hh
    rw [hasChangedWatchedFiles_nil stack] at hh
    simp only at hh
    cases hrd : env.readDir (env.hostRoot ++ stack.dirSegs) with
    | none => rw [hrd] at hh; cases hh
    | some entries =>
      rw [hrd] at hh
      exact phase2Files_id env h hbase hhead stack entries s s' hh

theorem phase2_nil_id (env : Env) (h : String)
    (hbase : env.revParse env.gitBaseRef = some h)
    (hhead : env.revParse "HEAD" = some h) :
    ∀ sts s s', phase2 env [] sts s = .ok s' → s' = s := by
  intro sts
  induction sts with
  | nil => intro s s' hh; cases hh; rfl
  | cons st rest ih =>
    intro s s' hh
    simp only [phase2] at hh
    cases hstep : phase2Stack env [] s st with
    | error e => rw [hstep] at hh; cases hh
    | ok s1 =>
      rw [hstep] at hh
      rw [ih s1 s' hh]
      exact phase2Stack_nil_id env h hbase hhead st s s1 hstep

/-- C10: when the base reference and HEAD rev-parse to the same commit hash,
`listChangedFiles` is insensitive to the git-diff collaborator (the diff is
never invoked) and returns the empty list whenever the directory stats
succeed, and consequently a successful `ListChanged` reports no stacks: no
stack is classified as directly changed, watched-file changed, or changed via
a module. -/
theorem c10_same_hash_no_changes (env : Env) (h : String)
    (hbase : env.revParse env.gitBaseRef = some h)
    (hhead : env.revParse "HEAD" = some h) :
    (∀ (d : List String → String → String → Option (List (List String)))
        (dir : List String),
      listChangedFiles { env with diffNames := d } dir =
        listChangedFiles env dir) ∧
    (∀ dir, env.statExists dir = true → env.statIsDir dir = true →
      listChangedFiles env dir = .ok []) ∧
    (∀ r, ListChanged env = .ok r → r.Stacks = []) := by
  refine ⟨?_, ?_, ?_⟩
  · intro d dir
    unfold listChangedFiles
    by_cases hex : env.statExists dir = true
    · by_cases hdir : env.statIsDir dir = true
      · rw [if_neg (by simp [hex, hdir]), if_neg (by simp [hex, hdir]),
          if_neg (by simp [hex, hdir]), if_neg (by simp [hex, hdir])]
        show (match env.revParse env.gitBaseRef with
          | none => _ | some baseRef => _) = _
        rw [hbase, hhead]
        simp
      · rw [if_neg (by simp [hex]), if_pos (by simp [hdir]),
          if_neg (by simp [hex]), if_pos (by simp [hdir])]
    · rw [if_pos (by simp [hex]), if_pos (by simp [hex])]
  · intro dir hex hdir
    exact listChangedFiles_same_ok env h hbase hhead dir hex hdir
  · intro r hok
    obtain ⟨checks, cfs, s2, _, hlcf, hph, hr⟩ := ListChanged_ok_elim env r hok
    have hnil : cfs = [] := listChangedFiles_ok_nil env h hbase hhead _ cfs hlcf
    subst hnil
    have hs2 : s2 = phase1 env [] :=
      phase2_nil_id env h hbase hhead env.allStacks (phase1 env []) s2 hph
    subst hr
    rw [hs2]
    rfl

/-- A repository where base and HEAD coincide but the diff collaborator, were
it consulted, would report changes. -/
def envD : Env :=
  { hostRoot := ["r"]
    isRepository := true
    listUntracked := some []
    listUncommitted := some []
    revParse := fun _ => some "h"
    diffNames := fun _ _ _ => some [["s1", "x.tf"]]
    statExists := fun _ => true
    statIsDir := fun _ => true
    lookupStack := fun p => if p = "/s1" then some stackS1 else none
    allStacks := [stackS1]
    readDir := fun _ => some []
    parseModules := fun _ => some []
    gitBaseRef := "origin/main"
    sourceUniv := [] }

theorem c10_same_hash_no_changes_witness :
    listChangedFiles
        { envD with diffNames := fun _ _ _ => some [["s2", "y.tf"]] } ["s1"] =
      listChangedFiles envD ["s1"] ∧
    listChangedFiles envD ["s1"] = .ok [] ∧
    TmReport.Stacks ⟨[], ⟨[], []⟩⟩ = [] := by
  refine ⟨?_, ?_, ?_⟩
  · exact (c10_same_hash_no_changes envD "h" rfl rfl).1
      (fun _ _ _ => some [["s2", "y.tf"]]) ["s1"]
  · exact (c10_same_hash_no_changes envD "h" rfl rfl).2.1 ["s1"] rfl rfl
  · exact (c10_same_hash_no_changes envD "h" rfl rfl).2.2 ⟨[], ⟨[], []⟩⟩
      (by decide)

/-! ## C4: termination of the module walk, visited-set discipline -/

theorem length_filter_le_of_imp {α : Type} (p q : α → Bool)
    (h : ∀ x, p x = true → q x = true) :
    ∀ l : List α, (l.filter p).length ≤ (l.filter q).length := by
  intro l
  induction l with
  | nil => simp
  | cons a as ih =>
    rw [List.filter_cons, List.filter_cons]
    by_cases hp : p a = true
    · rw [if_pos hp, if_pos (h a hp)]
      simpa using ih
    · rw [if_neg hp]
      by_cases hq : q a = true
      · rw [if_pos hq]
        exact Nat.le_trans ih (by simp)
      · rw [if_neg hq]
        exact ih

theorem length_filter_lt_of_mem {α : Type} (p q : α → Bool)
    (h : ∀ x, p x = true → q x = true) (a : α) :
    ∀ l : List α, a ∈ l → p a = false → q a = true →
      (l.filter p).length < (l.filter q).length := by
  intro l
  induction l with
  | nil => intro ha; cases ha
  | cons b bs ih =>
    intro ha hpa hqa
    rw [List.filter_cons, List.filter_cons]
    rcases List.mem_cons.mp ha with hb | hb
    · subst hb
      rw [if_neg (by simp [hpa]), if_pos hqa]
      exact Nat.lt_succ_of_le (length_filter_le_of_imp p q h bs)
    · have hlt := ih hb hpa hqa
      by_cases hp : p b = true
      · rw [if_pos hp, if_pos (h b hp)]
        simpa using hlt
      · rw [if_neg hp]
        by_cases hq : q b = true
        · rw [if_pos hq]
          exact Nat.lt_trans hlt (by simp)
        · rw [if_neg hq]
          exact hlt

theorem mcMods_vis_mono (recFn : TfModule → List String → List String → MCRes)
    (hmono : ∀ m p v ch w v', recFn m p v = .ok ch w v' → ∀ x, x ∈ v → x ∈ v')
    (outerSrc : String) (modPath : List String) :
    ∀ ms why vis ch w v', mcMods recFn outerSrc modPath ms why vis = .ok ch w v' →
      ∀ x, x ∈ vis → x ∈ v' := by
  intro ms
  induction ms with
  | nil => intro why vis ch w v' hh x hx; cases hh; exact hx
  | cons m rest ih =>
    intro why vis ch w v' hh x hx
    simp only [mcMods] at hh
    cases hr : recFn m modPath vis with
    | fuelOut => rw [hr] at hh; cases hh
    | err e => rw [hr] at hh; cases hh
    | ok ch2 w2 v2 =>
      rw [hr] at hh
      simp only at hh
      have hx2 : x ∈ v2 := hmono m modPath vis ch2 w2 v2 hr x hx
      by_cases hch : ch2 = true
      · rw [if_pos hch] at hh
        injection hh with e1 e2 e3
        rw [← e3]
        exact hx2
      · rw [if_neg hch] at hh
        exact ih why v2 ch w v' hh x hx2

theorem mcFiles_vis_mono (env : Env)
    (recFn : TfModule → List String → List String → MCRes)
    (hmono : ∀ m p v ch w v', recFn m p v = .ok ch w v' → ∀ x, x ∈ v → x ∈ v')
    (outerSrc : String) (modPath : List String) :
    ∀ entries changed why vis ch w v',
      mcFiles env recFn outerSrc modPath entries changed why vis = .ok ch w v' →
      ∀ x, x ∈ vis → x ∈ v' := by
  intro entries
  induction entries with
  | nil => intro changed why vis ch w v' hh x hx; cases hh; exact hx
  | cons de rest ih =>
    intro changed why vis ch w v' hh x hx
    simp only [mcFiles] at hh
    by_cases hd : de.isDir = true
    · rw [if_pos hd] at hh
      exact ih changed why vis ch w v' hh x hx
    · rw [if_neg hd] at hh
      by_cases hch : changed = true
      · rw [if_pos hch] at hh
        exact ih changed why vis ch w v' hh x hx
      · rw [if_neg hch] at hh
        by_cases htf : strEndsWith de.name ".tf" = true
        · rw [if_neg (not_not_intro htf)] at hh
          cases hpm : env.parseModules (modPath ++ [de.name]) with
          | none => rw [hpm] at hh; cases hh
          | some mods =>
            rw [hpm] at hh
            simp only at hh
            cases hmo : mcMods recFn outerSrc modPath mods why vis with
            | fuelOut => rw [hmo] at hh; cases hh
            | err e => rw [hmo] at hh; cases hh
            | ok ch2 w2 v2 =>
              rw [hmo] at hh
              exact ih ch2 w2 v2 ch w v' hh x
                (mcMods_vis_mono recFn hmono outerSrc modPath mods why vis
                  ch2 w2 v2 hmo x hx)
        · rw [if_pos (by simp [htf])] at hh
          exact ih changed why vis ch w v' hh x hx

theorem moduleChangedF_vis_mono (env : Env) :
    ∀ fuel mod basedir visited ch why v',
      moduleChangedF env fuel mod basedir visited = .ok ch why v' →
      ∀ x, x ∈ visited → x ∈ v' := by
  intro fuel
  induction fuel with
  | zero => intro mod basedir visited ch why v' hh; cases hh
  | succ fuel ih =>
    intro mod basedir visited ch why v' hh x hx
    simp only [moduleChangedF] at hh
    by_cases hv : mod.source ∈ visited
    · rw [if_pos hv] at hh; cases hh; exact hx
    · rw [if_neg hv] at hh
      by_cases hloc : mod.IsLocal = true
      · rw [if_neg (not_not_intro hloc)] at hh
        by_cases hstat : (env.statExists (cleanJoin basedir mod.source) &&
            env.statIsDir (cleanJoin basedir mod.source)) = true
        · rw [if_neg (not_not_intro hstat)] at hh
          cases hlcf : listChangedFiles env (cleanJoin basedir mod.source) with
          | error e => rw [hlcf] at hh; cases hh
          | ok cfs =>
            rw [hlcf] at hh
            simp only at hh
            by_cases hemp : cfs.isEmpty = true
            · rw [if_pos hemp] at hh
              cases hrd : env.readDir (cleanJoin basedir mod.source) with
              | none => rw [hrd] at hh; cases hh
              | some entries =>
                rw [hrd] at hh
                simp only at hh
                cases hmf : mcFiles env (moduleChangedF env fuel) mod.source
                    (cleanJoin basedir mod.source) entries false ""
                    (mod.source :: visited) with
                | fuelOut => rw [hmf] at hh; cases hh
                | err e => rw [hmf] at hh; cases hh
                | ok ch2 w2 v2 =>
                  rw [hmf] at hh
                  injection hh with e1 e2 e3
                  rw [← e3]
                  exact mcFiles_vis_mono env (moduleChangedF env fuel)
                    (fun m p v c w vv hq => ih m p v c w vv hq)
                    mod.source (cleanJoin basedir mod.source) entries false ""
                    (mod.source :: visited) ch2 w2 v2 hmf x
                    (List.mem_cons_of_mem _ hx)
            · rw [if_neg hemp] at hh
              cases hh
              exact hx
        · rw [if_pos (by simp [hstat])] at hh
          cases hh
      · rw [if_pos (by simp [hloc])] at hh
        cases hh
        exact hx

theorem mcMods_ne_fuelOut (recFn : TfModule → List String → List String → MCRes)
    (hmono : ∀ m p v ch w v', recFn m p v = .ok ch w v' → ∀ x, x ∈ v → x ∈ v')
    (outerSrc : String) (modPath : List String) (baseVis : List String) :
    ∀ ms why vis, (∀ x, x ∈ baseVis → x ∈ vis) →
      (∀ m, m ∈ ms → ∀ v, (∀ x, x ∈ baseVis → x ∈ v) →
        recFn m modPath v ≠ .fuelOut) →
      mcMods recFn outerSrc modPath ms why vis ≠ .fuelOut := by
  intro ms
  induction ms with
  | nil => intro why vis _ _ hh; cases hh
  | cons m rest ih =>
    intro why vis hsub hrec
    simp only [mcMods]
    cases hr : recFn m modPath vis with
    | fuelOut => exact absurd hr (hrec m (List.mem_cons_self m rest) vis hsub)
    | err e => intro hh; cases hh
    | ok ch2 w2 v2 =>
      simp only
      by_cases hch : ch2 = true
      · rw [if_pos hch]
        intro hh; cases hh
      · rw [if_neg hch]
        exact ih why v2
          (fun x hx => hmono m modPath vis ch2 w2 v2 hr x (hsub x hx))
          (fun m' hm' v hv => hrec m' (List.mem_cons_of_mem m hm') v hv)

theorem mcFiles_ne_fuelOut (env : Env)
    (recFn : TfModule → List String → List String → MCRes)
    (hmono : ∀ m p v ch w v', recFn m p v = .ok ch w v' → ∀ x, x ∈ v → x ∈ v')
    (hwf : ∀ p mods, env.parseModules p = some mods →
      ∀ m, m ∈ mods → m.source ∈ env.sourceUniv)
    (outerSrc : String) (modPath : List String) (baseVis : List String)
    (hrec : ∀ m, m.source ∈ env.sourceUniv → ∀ v, (∀ x, x ∈ baseVis → x ∈ v) →
      recFn m modPath v ≠ .fuelOut) :
    ∀ entries changed why vis, (∀ x, x ∈ baseVis → x ∈ vis) →
      mcFiles env recFn outerSrc modPath entries changed why vis ≠ .fuelOut := by
  intro entries
  induction entries with
  | nil => intro changed why vis _ hh; cases hh
  | cons de rest ih =>
    intro changed why vis hsub
    simp only [mcFiles]
    by_cases hd : de.isDir = true
    · rw [if_pos hd]
      exact ih changed why vis hsub
    · rw [if_neg hd]
      by_cases hch : changed = true
      · rw [if_pos hch]
        exact ih changed why vis hsub
      · rw [if_neg hch]
        by_cases htf : strEndsWith de.name ".tf" = true
        · rw [if_neg (not_not_intro htf)]
          cases hpm : env.parseModules (modPath ++ [de.name]) with
          | none => intro hh; cases hh
          | some mods =>
            simp only
            cases hmo : mcMods recFn outerSrc modPath mods why vis with
            | fuelOut =>
              exact absurd hmo
                (mcMods_ne_fuelOut recFn hmono outerSrc modPath baseVis mods
                  why vis hsub
                  (fun m hm v hv => hrec m (hwf _ mods hpm m hm) v hv))
            | err e => intro hh; cases hh
            | ok ch2 w2 v2 =>
              exact ih ch2 w2 v2
                (fun x hx =>
                  mcMods_vis_mono recFn hmono outerSrc modPath mods why vis
                    ch2 w2 v2 hmo x (hsub x hx))
        · rw [if_pos (by simp [htf])]
          exact ih changed why vis hsub

theorem moduleChangedF_adequate (env : Env)
    (hwf : ∀ p mods, env.parseModules p = some mods →
      ∀ m, m ∈ mods → m.source ∈ env.sourceUniv) :
    ∀ fuel mod basedir visited,
      mod.source ∈ env.sourceUniv →
      (env.sourceUniv.filter (fun s => decide (¬ s ∈ visited))).length < fuel →
      moduleChangedF env fuel mod basedir visited ≠ .fuelOut := by
  intro fuel
  induction fuel with
  | zero => intro mod basedir visited _ hlt; exact absurd hlt (Nat.not_lt_zero _)
  | succ fuel ih =>
    intro mod basedir visited hsrc hlt
    simp only [moduleChangedF]
    by_cases hv : mod.source ∈ visited
    · rw [if_pos hv]; intro hh; cases hh
    · rw [if_neg hv]
      by_cases hloc : mod.IsLocal = true
      · rw [if_neg (not_not_intro hloc)]
        by_cases hstat : (env.statExists (cleanJoin basedir mod.source) &&
            env.statIsDir (cleanJoin basedir mod.source)) = true
        · rw [if_neg (not_not_intro hstat)]
          cases hlcf : listChangedFiles env (cleanJoin basedir mod.source) with
          | error e => intro hh; cases hh
          | ok cfs =>
            simp only
            by_cases hemp : cfs.isEmpty = true
            · rw [if_pos hemp]
              cases hrd : env.readDir (cleanJoin basedir mod.source) with
              | none => intro hh; cases hh
              | some entries =>
                simp only
                have hrec : ∀ m, m.source ∈ env.sourceUniv →
                    ∀ v, (∀ x, x ∈ mod.source :: visited → x ∈ v) →
                    moduleChangedF env fuel m (cleanJoin basedir mod.source) v ≠
                      .fuelOut := by
                  intro m hm v hvsub
                  apply ih m (cleanJoin basedir mod.source) v hm
                  have h1 : ((env.sourceUniv.filter
                        (fun s => decide (¬ s ∈ v))).length ≤
                      (env.sourceUniv.filter
                        (fun s => decide (¬ s ∈ mod.source :: visited))).length) :=
                    length_filter_le_of_imp _ _
                      (fun x hx => by
                        simp only [decide_eq_true_eq] at hx ⊢
                        exact fun hxb => hx (hvsub x hxb))
                      env.sourceUniv
                  have h2 : ((env.sourceUniv.filter
                        (fun s => decide (¬ s ∈ mod.source :: visited))).length <
                      (env.sourceUniv.filter
                        (fun s => decide (¬ s ∈ visited))).length) :=
                    length_filter_lt_of_mem _ _
                      (fun x hx => by
                        simp only [decide_eq_true_eq, List.mem_cons] at hx ⊢
                        exact fun hxv => hx (Or.inr hxv))
                      mod.source env.sourceUniv hsrc
                      (by simp) (by simp [hv])
                  omega
                cases hmf : mcFiles env (moduleChangedF env fuel) mod.source
                    (cleanJoin basedir mod.source) entries false ""
                    (mod.source :: visited) with
                | fuelOut =>
                  exact absurd hmf
                    (mcFiles_ne_fuelOut env (moduleChangedF env fuel)
                      (fun m p v c w vv hq =>
                        moduleChangedF_vis_mono env fuel m p v c w vv hq)
                      hwf mod.source (cleanJoin basedir mod.source)
                      (mod.source :: visited) hrec entries false ""
                      (mod.source :: visited) (fun x hx => hx))
                | err e => intro hh; cases hh
                | ok ch2 w2 v2 => intro hh; cases hh
            · rw [if_neg hemp]
              intro hh; cases hh
        · rw [if_pos (by simp [hstat])]
          intro hh; cases hh
      · rw [if_pos (by simp [hloc])]
        intro hh; cases hh

/-- C4: the module walk's visited set makes it terminate on arbitrary, even
cyclic, module graphs.  A source already in the visited set returns
`(false, "", visited)` immediately without recursing, and when every module
source the filesystem can produce lies in the finite source universe (and the
root module's does too), the fuel `ListChanged` supplies — one more than the
universe's size — is never exhausted. -/
theorem c4_module_walk_terminates (env : Env) (mod : TfModule)
    (basedir visited : List String) :
    (mod.source ∈ visited →
      moduleChanged env mod basedir visited = .ok false "" visited) ∧
    ((∀ p mods, env.parseModules p = some mods →
        ∀ m, m ∈ mods → m.source ∈ env.sourceUniv) →
      mod.source ∈ env.sourceUniv →
      moduleChanged env mod basedir visited ≠ .fuelOut) := by
  constructor
  · intro hv
    unfold moduleChanged
    simp only [moduleChangedF]
    rw [if_pos hv]
  · intro hwf hsrc
    unfold moduleChanged
    exact moduleChangedF_adequate env hwf (env.sourceUniv.length + 1) mod
      basedir visited hsrc
      (Nat.lt_succ_of_le (List.length_filter_le _ _))

/-- A one-module environment whose parser never mentions sources outside the
universe. -/
def envM : Env :=
  { hostRoot := ["r"]
    isRepository := true
    listUntracked := some []
    listUncommitted := some []
    revParse := fun rf => if rf = "HEAD" then some "h2" else some "h1"
    diffNames := fun _ _ _ => some []
    statExists := fun _ => true
    statIsDir := fun _ => true
    lookupStack := fun _ => none
    allStacks := []
    readDir := fun _ => some []
    parseModules := fun _ => some []
    gitBaseRef := "origin/main"
    sourceUniv := ["./a"] }

def tfmA : TfModule := ⟨"./a"⟩

theorem c4_module_walk_terminates_witness :
    moduleChanged envM tfmA ["r"] ["./a"] = .ok false "" ["./a"] ∧
    moduleChanged envM tfmA ["r"] [] ≠ .fuelOut := by
  constructor
  · exact (c4_module_walk_terminates envM tfmA ["r"] ["./a"]).1 (by decide)
  · exact (c4_module_walk_terminates envM tfmA ["r"] []).2
      (by
        intro p mods hp m hm
        injection hp with hp'
        rw [← hp'] at hm
        cases hm)
      (by decide)
